import Mathlib

/-!
Verification of the graph-analytics engine of the Community-Detection
repository against its natural-language specification.

The TypeScript sources are shallowly embedded: JavaScript `Map` and `Set`
values become insertion-ordered association lists, JavaScript numbers become
exact fractions (`JsNum`), and transcendental float primitives (`Math.log`,
`Math.log2`, `Math.pow`, `Math.sqrt`) are either taken as oracle parameters
(when no theorem depends on their values) or interpreted over the reals.
Loops whose termination is not structural receive explicit fuel; the fuel is
always large enough to cover the executions our theorems talk about.
-/

/-! ## JavaScript collection semantics

`JsMap` models a JavaScript `Map`: entries are kept in insertion order,
`set` on an existing key overwrites in place, `set` on a fresh key appends.
`JsSet` models a JavaScript `Set` of strings the same way. -/

deriving instance DecidableEq for Except

abbrev JsMap (K V : Type) : Type := List (K × V)

def JsMap.empty {K V : Type} : JsMap K V := []

def JsMap.get {K V : Type} [DecidableEq K] (m : JsMap K V) (k : K) : Option V :=
  (List.find? (fun p => p.1 = k) m).map Prod.snd

def JsMap.getD {K V : Type} [DecidableEq K] (m : JsMap K V) (k : K) (d : V) : V :=
  (m.get k).getD d

def JsMap.set {K V : Type} [DecidableEq K] (m : JsMap K V) (k : K) (v : V) : JsMap K V :=
  match m with
  | [] => [(k, v)]
  | (k', v') :: rest => if k' = k then (k, v) :: rest else (k', v') :: JsMap.set rest k v

def JsMap.del {K V : Type} [DecidableEq K] (m : JsMap K V) (k : K) : JsMap K V :=
  m.filter (fun p => ¬ p.1 = k)

def JsMap.hasKey {K V : Type} [DecidableEq K] (m : JsMap K V) (k : K) : Bool :=
  m.any (fun p => p.1 = k)

def JsMap.keys {K V : Type} (m : JsMap K V) : List K := m.map Prod.fst

def JsMap.values {K V : Type} (m : JsMap K V) : List V := m.map Prod.snd

/-- JavaScript `Set.add`: append if absent, keep insertion order otherwise. -/
def jsSetAdd {α : Type} [DecidableEq α] (s : List α) (x : α) : List α :=
  if x ∈ s then s else s ++ [x]

/-- JavaScript `new Set(array)`: deduplication keeping first occurrences. -/
def jsDedup {α : Type} [DecidableEq α] (l : List α) : List α :=
  l.foldl jsSetAdd []

/-- Lexicographic comparison of character lists, the semantics of the
JavaScript `<` operator on strings (code-unit order; identical to code-point
order on the identifiers appearing in this development). -/
def charsLt : List Char → List Char → Bool
  | [], [] => false
  | [], _ :: _ => true
  | _ :: _, [] => false
  | a :: as, b :: bs => if a < b then true else if b < a then false else charsLt as bs

/-- The JavaScript string comparison `s < t`. -/
def jsLt (s t : String) : Bool := charsLt s.data t.data

/-- Insertion of a string into a sorted list, used to model the default
JavaScript `Array.prototype.sort` on string arrays. -/
def insertStr (x : String) : List String → List String
  | [] => [x]
  | y :: ys => if jsLt x y then x :: y :: ys else y :: insertStr x ys

/-- Model of the default JavaScript string sort (lexicographic `<`). -/
def sortStr (l : List String) : List String := l.foldr insertStr []

/-! ## Exact number model

JavaScript numbers are embedded as exact fractions. `JsNum` is an
unreduced numerator/denominator pair — unlike Mathlib's `ℚ` its operations
never normalize (no gcd), so they reduce inside the kernel and `decide` can
evaluate embedded programs. All constructed values keep a positive
denominator; `JsNum.q` interprets a value in `ℚ` and is used to state
order-theoretic facts. -/

structure JsNum where
  num : ℤ
  den : ℤ
deriving DecidableEq, Repr

def JsNum.ofNat (n : ℕ) : JsNum := ⟨n, 1⟩

def JsNum.ofInt (n : ℤ) : JsNum := ⟨n, 1⟩

instance (n : ℕ) : OfNat JsNum n := ⟨⟨n, 1⟩⟩

instance : OfScientific JsNum :=
  ⟨fun m s e => if s then ⟨m, (10 : ℤ) ^ e⟩ else ⟨m * (10 : ℤ) ^ e, 1⟩⟩

def JsNum.add (x y : JsNum) : JsNum := ⟨x.num * y.den + y.num * x.den, x.den * y.den⟩

def JsNum.neg (x : JsNum) : JsNum := ⟨-x.num, x.den⟩

def JsNum.sub (x y : JsNum) : JsNum := x.add y.neg

def JsNum.mul (x y : JsNum) : JsNum := ⟨x.num * y.num, x.den * y.den⟩

/-- Exact division; the sign moves to the numerator so the denominator stays
positive (a zero divisor yields a degenerate value, which our evaluated code
paths never produce, mirroring that they never divide by zero). -/
def JsNum.div (x y : JsNum) : JsNum :=
  if 0 ≤ y.num then ⟨x.num * y.den, x.den * y.num⟩
  else ⟨-(x.num * y.den), x.den * (-y.num)⟩

def JsNum.abs (x : JsNum) : JsNum := ⟨x.num.natAbs, x.den⟩

/-- The JavaScript comparison `x < y` (valid for positive denominators). -/
def JsNum.ltB (x y : JsNum) : Bool := x.num * y.den < y.num * x.den

/-- The JavaScript comparison `x <= y` (valid for positive denominators). -/
def JsNum.leB (x y : JsNum) : Bool := x.num * y.den ≤ y.num * x.den

/-- The JavaScript value equality `x === y` (valid for positive denominators). -/
def JsNum.valEq (x y : JsNum) : Bool := x.num * y.den = y.num * x.den

/-- The JavaScript `Math.floor`, exact on fractions with positive denominator. -/
def JsNum.floor (x : JsNum) : ℤ := Int.fdiv x.num x.den

/-- The JavaScript `Math.round` (half away from zero rounds up, as
`Math.round` does): `⌊x + 1/2⌋`. -/
def JsNum.round (x : JsNum) : ℤ := (x.add ⟨1, 2⟩).floor

instance : Add JsNum := ⟨JsNum.add⟩

instance : Sub JsNum := ⟨JsNum.sub⟩

instance : Neg JsNum := ⟨JsNum.neg⟩

instance : Mul JsNum := ⟨JsNum.mul⟩

instance : Div JsNum := ⟨JsNum.div⟩

/-- Interpretation of a `JsNum` as a rational number. -/
def JsNum.q (x : JsNum) : ℚ := (x.num : ℚ) / (x.den : ℚ)

/-- Denominator positivity, the invariant maintained by every constructed
value. -/
def JsNum.posDen (x : JsNum) : Prop := 0 < x.den

/-! ## Shared graph input

Engine inputs are a node list and a link list; only the `id` field of a node
object and the `source`/`target` fields of a link are ever read by the
engine, so a node is embedded as its id string and a link as a string pair. -/

structure GraphData where
  nodes : List String
  links : List (String × String)
deriving DecidableEq, Repr

/-! ## Link Prediction Engine (src/utils/performance.ts) -/

namespace LP

structure PredictionGraph where
  nodes : List String
  adj : JsMap String (List String)
  degrees : JsMap String ℕ
  existingLinks : List String
deriving Repr

/-- Normalized unordered edge key, as written in `buildPredictionGraph`:
`sourceId < targetId ? s|t : t|s`. -/
def edgeKey (s t : String) : String :=
  if jsLt s t then s ++ "|" ++ t else t ++ "|" ++ s

/-- One step of the `graphData.links.forEach` loop of `buildPredictionGraph`;
`l.1` is the link's source id, `l.2` its target id. -/
def buildStep (st : PredictionGraph) (l : String × String) : PredictionGraph :=
  if st.adj.hasKey l.1 ∧ st.adj.hasKey l.2 then
    { st with
      adj := ((st.adj.set l.1 (jsSetAdd (st.adj.getD l.1 []) l.2)).set l.2
        (jsSetAdd ((st.adj.set l.1 (jsSetAdd (st.adj.getD l.1 []) l.2)).getD l.2 []) l.1)),
      degrees := (st.degrees.set l.1 (st.degrees.getD l.1 0 + 1)).set l.2
        ((st.degrees.set l.1 (st.degrees.getD l.1 0 + 1)).getD l.2 0 + 1),
      existingLinks := jsSetAdd st.existingLinks (edgeKey l.1 l.2) }
  else st

def buildPredictionGraph (g : GraphData) : PredictionGraph :=
  let start : PredictionGraph :=
    { nodes := g.nodes
      adj := g.nodes.foldl (fun m n => m.set n []) JsMap.empty
      degrees := g.nodes.foldl (fun m n => m.set n 0) JsMap.empty
      existingLinks := [] }
  g.links.foldl buildStep start

/-- The candidate generator `getCandidateLinks`: ordered index pairs `i < j`
whose key, formed in node-list order, is not among the existing-link keys. -/
def getCandidateLinks (pg : PredictionGraph) : List (String × String) :=
  (List.range pg.nodes.length).flatMap (fun i =>
    (List.range pg.nodes.length).filterMap (fun j =>
      if i < j then
        let u := pg.nodes.getD i ""
        let v := pg.nodes.getD j ""
        if (u ++ "|" ++ v) ∈ pg.existingLinks then none else some (u, v)
      else none))

def setInter (a b : List String) : List String := a.filter (· ∈ b)

def setUnion (a b : List String) : List String := jsDedup (a ++ b)

def calculateCommonNeighbors (pg : PredictionGraph) : List (String × String × JsNum) :=
  (getCandidateLinks pg).filterMap (fun uv =>
    let inter := setInter (pg.adj.getD uv.1 []) (pg.adj.getD uv.2 [])
    if 0 < inter.length then some (uv.1, uv.2, JsNum.ofNat inter.length) else none)

def calculateJaccard (pg : PredictionGraph) : List (String × String × JsNum) :=
  (getCandidateLinks pg).filterMap (fun uv =>
    let inter := setInter (pg.adj.getD uv.1 []) (pg.adj.getD uv.2 [])
    let uni := setUnion (pg.adj.getD uv.1 []) (pg.adj.getD uv.2 [])
    if 0 < uni.length then
      some (uv.1, uv.2, JsNum.ofNat inter.length / JsNum.ofNat uni.length)
    else none)

/-- Adamic-Adar; `jsLn` is an oracle for the float `Math.log`, whose values
no theorem below depends on. -/
def calculateAdamicAdar (jsLn : JsNum → JsNum) (pg : PredictionGraph) :
    List (String × String × JsNum) :=
  (getCandidateLinks pg).filterMap (fun uv =>
    let common := setInter (pg.adj.getD uv.1 []) (pg.adj.getD uv.2 [])
    let score := common.foldl (fun acc w =>
      let degreeW := pg.degrees.getD w 0
      if 1 < degreeW then acc + 1 / jsLn (JsNum.ofNat degreeW) else acc) 0
    if JsNum.ltB 0 score then some (uv.1, uv.2, score) else none)

def calculatePreferentialAttachment (pg : PredictionGraph) :
    List (String × String × JsNum) :=
  (getCandidateLinks pg).filterMap (fun uv =>
    let score := JsNum.ofNat (pg.degrees.getD uv.1 0) * JsNum.ofNat (pg.degrees.getD uv.2 0)
    if JsNum.ltB 0 score then some (uv.1, uv.2, score) else none)

/-- The dispatcher `calculateLinkPrediction`; a thrown error is an
`Except.error` carrying the message verbatim. -/
def calculateLinkPrediction (jsLn : JsNum → JsNum) (g : GraphData) (algorithm : String) :
    Except String (List (String × String × JsNum)) :=
  if g.nodes.length < 2 then .ok [] else
  let pg := buildPredictionGraph g
  if algorithm = "共同邻居" then .ok (calculateCommonNeighbors pg)
  else if algorithm = "杰卡德系数" then .ok (calculateJaccard pg)
  else if algorithm = "阿达姆/阿达尔指数" then .ok (calculateAdamicAdar jsLn pg)
  else if algorithm = "优先连接" then .ok (calculatePreferentialAttachment pg)
  else .error ("未知的链路预测算法: " ++ algorithm)

end LP


/-! ## Lemmas about the JavaScript collection model -/

theorem JsMap.hasKey_iff_mem {K V : Type} [DecidableEq K] (m : JsMap K V) (k : K) :
    m.hasKey k = true ↔ k ∈ m.keys := by
  simp only [JsMap.hasKey, JsMap.keys, List.any_eq_true, List.mem_map, decide_eq_true_eq]

theorem JsMap.mem_keys_set {K V : Type} [DecidableEq K] (m : JsMap K V) (k : K) (v : V)
    (x : K) : x ∈ (m.set k v).keys ↔ x ∈ m.keys ∨ x = k := by
  induction m with
  | nil =>
    simp [JsMap.set, JsMap.keys]
  | cons p rest ih =>
    obtain ⟨k', v'⟩ := p
    by_cases hk : k' = k
    · subst hk
      simp [JsMap.set, JsMap.keys, List.mem_cons]
      tauto
    · simp only [JsMap.set, if_neg hk, JsMap.keys, List.map_cons, List.mem_cons] at *
      rw [ih]
      tauto

theorem mem_jsSetAdd_self {α : Type} [DecidableEq α] (s : List α) (x : α) :
    x ∈ jsSetAdd s x := by
  unfold jsSetAdd
  split
  · assumption
  · simp

theorem mem_jsSetAdd_of_mem {α : Type} [DecidableEq α] {s : List α} {x : α} (y : α)
    (h : x ∈ s) : x ∈ jsSetAdd s y := by
  unfold jsSetAdd
  split
  · assumption
  · simp [h]

theorem subset_jsSetAdd {α : Type} [DecidableEq α] (s : List α) (y : α) :
    s ⊆ jsSetAdd s y := fun _ h => mem_jsSetAdd_of_mem y h

theorem mem_jsSetAdd_iff {α : Type} [DecidableEq α] (s : List α) (x y : α) :
    x ∈ jsSetAdd s y ↔ x ∈ s ∨ x = y := by
  unfold jsSetAdd
  split
  · next h => exact ⟨Or.inl, fun hc => by rcases hc with hc | rfl <;> [exact hc; exact h]⟩
  · simp

theorem charsLt_irrefl (l : List Char) : charsLt l l = false := by
  induction l with
  | nil => rfl
  | cons a as ih => simp [charsLt, ih]

theorem jsLt_irrefl (s : String) : jsLt s s = false := charsLt_irrefl s.data

theorem ne_of_jsLt {s t : String} (h : jsLt s t = true) : s ≠ t := by
  intro heq
  rw [heq, jsLt_irrefl] at h
  cases h

theorem charsLt_asymm : ∀ l1 l2 : List Char, charsLt l1 l2 = true → charsLt l2 l1 = false
  | [], [] => by intro h; cases h
  | [], _ :: _ => by intro _; rfl
  | _ :: _, [] => by intro h; cases h
  | a :: as, b :: bs => by
    intro h
    simp only [charsLt] at *
    by_cases hab : a < b
    · rw [if_neg (asymm hab), if_pos hab]
    · rw [if_neg hab] at h
      by_cases hba : b < a
      · rw [if_pos hba] at h; cases h
      · rw [if_neg hba, if_neg hab]
        rw [if_neg hba] at h
        exact charsLt_asymm as bs h

theorem jsLt_asymm {s t : String} (h : jsLt s t = true) : jsLt t s = false :=
  charsLt_asymm s.data t.data h

/-! ## Candidate links never collide with existing edges when the node list is sorted -/

namespace LP

theorem buildStep_nodes (st : PredictionGraph) (l : String × String) :
    (buildStep st l).nodes = st.nodes := by
  unfold buildStep
  split <;> rfl

theorem buildStep_hasKey (st : PredictionGraph) (l : String × String) (x : String) :
    ((buildStep st l).adj.hasKey x = true) ↔ (st.adj.hasKey x = true) := by
  unfold buildStep
  split
  · next h =>
    simp only [JsMap.hasKey_iff_mem, JsMap.mem_keys_set]
    rw [JsMap.hasKey_iff_mem] at h
    obtain ⟨h1, h2⟩ := h
    rw [JsMap.hasKey_iff_mem] at h2
    constructor
    · rintro ((h' | rfl) | rfl)
      · exact h'
      · exact h1
      · exact h2
    · intro h'
      exact Or.inl (Or.inl h')
  · exact Iff.rfl

theorem buildStep_existing_subset (st : PredictionGraph) (l : String × String) :
    st.existingLinks ⊆ (buildStep st l).existingLinks := by
  unfold buildStep
  split
  · exact subset_jsSetAdd _ _
  · exact fun _ h => h

theorem foldl_buildStep_nodes (links : List (String × String)) (st : PredictionGraph) :
    (links.foldl buildStep st).nodes = st.nodes := by
  induction links generalizing st with
  | nil => rfl
  | cons l rest ih => rw [List.foldl_cons, ih, buildStep_nodes]

theorem foldl_buildStep_hasKey (links : List (String × String)) (st : PredictionGraph)
    (x : String) :
    ((links.foldl buildStep st).adj.hasKey x = true) ↔ (st.adj.hasKey x = true) := by
  induction links generalizing st with
  | nil => exact Iff.rfl
  | cons l rest ih => rw [List.foldl_cons, ih, buildStep_hasKey]

theorem foldl_buildStep_existing_subset (links : List (String × String))
    (st : PredictionGraph) :
    st.existingLinks ⊆ (links.foldl buildStep st).existingLinks := by
  induction links generalizing st with
  | nil => exact fun _ h => h
  | cons l rest ih =>
    rw [List.foldl_cons]
    exact fun x h => ih (buildStep st l) (buildStep_existing_subset st l h)

theorem foldl_buildStep_mem_existing (links : List (String × String))
    (st : PredictionGraph) (a b : String) (hmem : (a, b) ∈ links)
    (ha : st.adj.hasKey a = true) (hb : st.adj.hasKey b = true) :
    edgeKey a b ∈ (links.foldl buildStep st).existingLinks := by
  induction links generalizing st with
  | nil => cases hmem
  | cons l rest ih =>
    rw [List.foldl_cons]
    rcases List.mem_cons.mp hmem with heq | htail
    · apply foldl_buildStep_existing_subset
      show edgeKey a b ∈ (buildStep st l).existingLinks
      rw [← heq]
      unfold buildStep
      rw [if_pos ⟨ha, hb⟩]
      exact mem_jsSetAdd_self _ _
    · exact ih (buildStep st l) htail ((buildStep_hasKey st l a).mpr ha)
        ((buildStep_hasKey st l b).mpr hb)

theorem init_hasKey (nodes : List String) (x : String) :
    ((nodes.foldl (fun m n => m.set n ([] : List String)) JsMap.empty).hasKey x = true)
      ↔ x ∈ nodes := by
  suffices h : ∀ (m0 : JsMap String (List String)),
      ((nodes.foldl (fun m n => m.set n []) m0).hasKey x = true)
        ↔ x ∈ nodes ∨ m0.hasKey x = true by
    rw [h JsMap.empty]
    simp [JsMap.empty, JsMap.hasKey]
  induction nodes with
  | nil => intro m0; simp
  | cons n rest ih =>
    intro m0
    rw [List.foldl_cons, ih, JsMap.hasKey_iff_mem, JsMap.mem_keys_set,
      ← JsMap.hasKey_iff_mem]
    simp [List.mem_cons]
    tauto

/-- Every link of the input whose endpoints are both nodes has its
normalized key recorded in `existingLinks`. -/
theorem mem_existingLinks_of_link (g : GraphData) (a b : String)
    (hmem : (a, b) ∈ g.links) (ha : a ∈ g.nodes) (hb : b ∈ g.nodes) :
    edgeKey a b ∈ (buildPredictionGraph g).existingLinks := by
  unfold buildPredictionGraph
  apply foldl_buildStep_mem_existing _ _ _ _ hmem
  · exact (init_hasKey g.nodes a).mpr ha
  · exact (init_hasKey g.nodes b).mpr hb

theorem nodes_buildPredictionGraph (g : GraphData) :
    (buildPredictionGraph g).nodes = g.nodes := by
  unfold buildPredictionGraph
  rw [foldl_buildStep_nodes]

/-- Structure of a candidate pair: it is a pair of nodes at indices `i < j`
whose node-list-order key is absent from the existing-link keys. -/
theorem mem_getCandidateLinks (pg : PredictionGraph) (u v : String)
    (h : (u, v) ∈ getCandidateLinks pg) :
    ∃ i j, ∃ (hi : i < pg.nodes.length) (hj : j < pg.nodes.length), i < j ∧
      u = pg.nodes[i] ∧ v = pg.nodes[j] ∧
      (u ++ "|" ++ v) ∉ pg.existingLinks := by
  unfold getCandidateLinks at h
  rw [List.mem_flatMap] at h
  obtain ⟨i, hi, h⟩ := h
  rw [List.mem_filterMap] at h
  obtain ⟨j, hj, h⟩ := h
  rw [List.mem_range] at hi
  rw [List.mem_range] at hj
  by_cases hij : i < j
  · rw [if_pos hij] at h
    by_cases hkey : (pg.nodes.getD i "" ++ "|" ++ pg.nodes.getD j "") ∈ pg.existingLinks
    · rw [if_pos hkey] at h; cases h
    · rw [if_neg hkey] at h
      injection h with h'
      injection h' with h1 h2
      refine ⟨i, j, hi, hj, hij, ?_, ?_, ?_⟩
      · rw [← h1, List.getD_eq_getElem _ _ hi]
      · rw [← h2, List.getD_eq_getElem _ _ hj]
      · rw [← h1, ← h2]
        exact hkey
  · rw [if_neg hij] at h; cases h

/-- Elements of a score-filtered candidate list are candidate pairs. -/
theorem mem_candidates_of_filterMap
    {F : String × String → Option (String × String × JsNum)}
    (hF : ∀ uv r, F uv = some r → r.1 = uv.1 ∧ r.2.1 = uv.2)
    {l : List (String × String)} {s t : String} {q : JsNum}
    (h : (s, t, q) ∈ l.filterMap F) : (s, t) ∈ l := by
  rw [List.mem_filterMap] at h
  obtain ⟨uv, huv, hF'⟩ := h
  obtain ⟨u, v⟩ := uv
  obtain ⟨h1, h2⟩ := hF (u, v) (s, t, q) hF'
  simp only at h1 h2
  rw [h1, h2]
  exact huv

end LP

namespace LP

theorem mem_candidates_CN (pg : PredictionGraph) {s t : String} {q : JsNum}
    (h : (s, t, q) ∈ calculateCommonNeighbors pg) : (s, t) ∈ getCandidateLinks pg := by
  refine mem_candidates_of_filterMap ?_ h
  intro uv r hr
  dsimp only at hr
  split at hr
  · injection hr with h'
    subst h'
    exact ⟨rfl, rfl⟩
  · cases hr

theorem mem_candidates_Jaccard (pg : PredictionGraph) {s t : String} {q : JsNum}
    (h : (s, t, q) ∈ calculateJaccard pg) : (s, t) ∈ getCandidateLinks pg := by
  refine mem_candidates_of_filterMap ?_ h
  intro uv r hr
  dsimp only at hr
  split at hr
  · injection hr with h'
    subst h'
    exact ⟨rfl, rfl⟩
  · cases hr

theorem mem_candidates_AA (jsLn : JsNum → JsNum) (pg : PredictionGraph) {s t : String} {q : JsNum}
    (h : (s, t, q) ∈ calculateAdamicAdar jsLn pg) : (s, t) ∈ getCandidateLinks pg := by
  refine mem_candidates_of_filterMap ?_ h
  intro uv r hr
  dsimp only at hr
  split at hr
  · injection hr with h'
    subst h'
    exact ⟨rfl, rfl⟩
  · cases hr

theorem mem_candidates_PA (pg : PredictionGraph) {s t : String} {q : JsNum}
    (h : (s, t, q) ∈ calculatePreferentialAttachment pg) : (s, t) ∈ getCandidateLinks pg := by
  refine mem_candidates_of_filterMap ?_ h
  intro uv r hr
  dsimp only at hr
  split at hr
  · injection hr with h'
    subst h'
    exact ⟨rfl, rfl⟩
  · cases hr

/-- With a strictly sorted node list, a candidate pair is strictly increasing
and is never an unordered pair of an input link. -/
theorem candidate_sound (g : GraphData)
    (hs : g.nodes.Pairwise (fun a b => jsLt a b = true))
    {u v : String} (h : (u, v) ∈ getCandidateLinks (buildPredictionGraph g)) :
    u ≠ v ∧ ∀ l ∈ g.links, ¬((l.1 = u ∧ l.2 = v) ∨ (l.1 = v ∧ l.2 = u)) := by
  obtain ⟨i, j, hi, hj, hij, hu, hv, hkey⟩ := mem_getCandidateLinks _ u v h
  have hn := nodes_buildPredictionGraph g
  have hi' : i < g.nodes.length := by rw [hn] at hi; exact hi
  have hj' : j < g.nodes.length := by rw [hn] at hj; exact hj
  have hu' : u = g.nodes[i] := hu.trans (List.getElem_of_eq hn hi)
  have hv' : v = g.nodes[j] := hv.trans (List.getElem_of_eq hn hj)
  have huv : jsLt u v = true := by
    rw [hu', hv']
    exact List.pairwise_iff_getElem.mp hs i j hi' hj' hij
  have humem : u ∈ g.nodes := hu' ▸ List.getElem_mem hi'
  have hvmem : v ∈ g.nodes := hv' ▸ List.getElem_mem hj'
  refine ⟨ne_of_jsLt huv, ?_⟩
  intro l hl hor
  rcases hor with ⟨h1, h2⟩ | ⟨h1, h2⟩
  · have hluv : l = (u, v) := Prod.ext h1 h2
    rw [hluv] at hl
    have hmem := mem_existingLinks_of_link g u v hl humem hvmem
    rw [edgeKey, if_pos huv] at hmem
    exact hkey hmem
  · have hlvu : l = (v, u) := Prod.ext h1 h2
    rw [hlvu] at hl
    have hmem := mem_existingLinks_of_link g v u hl hvmem humem
    have hvu : ¬ (jsLt v u = true) := by rw [jsLt_asymm huv]; exact Bool.false_ne_true
    rw [edgeKey, if_neg hvu] at hmem
    exact hkey hmem

end LP

/-- C1, corrected. The original claim is false because `getCandidateLinks`
forms the candidate key in node-list order while `buildPredictionGraph`
stores existing-link keys in lexicographic order. Amended claim: when the
input node list is strictly sorted by id, no link-prediction algorithm
returns a triple whose unordered pair is an input edge, and no triple has
source equal to target. -/
theorem C1_sorted_nodes_no_existing_pair_predicted
    (jsLn : JsNum → JsNum) (g : GraphData)
    (hs : g.nodes.Pairwise (fun a b => jsLt a b = true))
    (algorithm : String) (res : List (String × String × JsNum))
    (hres : LP.calculateLinkPrediction jsLn g algorithm = Except.ok res)
    (s t : String) (q : JsNum) (hmem : (s, t, q) ∈ res) :
    s ≠ t ∧ ∀ l ∈ g.links, ¬((l.1 = s ∧ l.2 = t) ∨ (l.1 = t ∧ l.2 = s)) := by
  unfold LP.calculateLinkPrediction at hres
  split at hres
  · injection hres with h'
    subst h'
    cases hmem
  · split at hres
    · injection hres with h'
      subst h'
      exact LP.candidate_sound g hs (LP.mem_candidates_CN _ hmem)
    · split at hres
      · injection hres with h'
        subst h'
        exact LP.candidate_sound g hs (LP.mem_candidates_Jaccard _ hmem)
      · split at hres
        · injection hres with h'
          subst h'
          exact LP.candidate_sound g hs (LP.mem_candidates_AA jsLn _ hmem)
        · split at hres
          · injection hres with h'
            subst h'
            exact LP.candidate_sound g hs (LP.mem_candidates_PA _ hmem)
          · cases hres

/-- C1 counterexample: with the unsorted node list `["b", "a"]` and the
existing edge `(b, a)`, preferential attachment predicts the pair
`(b, a)` even though it is already an edge of the input graph. -/
theorem C1_counterexample_unsorted_nodes :
    LP.calculateLinkPrediction (fun _ => 0) ⟨["b", "a"], [("b", "a")]⟩ "优先连接"
        = Except.ok [("b", "a", ⟨1, 1⟩)]
      ∧ ("b", "a") ∈ (⟨["b", "a"], [("b", "a")]⟩ : GraphData).links := by
  constructor
  · decide
  · decide

/-- Witness for `C1_sorted_nodes_no_existing_pair_predicted` on the sorted
path graph a-b-c, where preferential attachment predicts `(a, c)`. -/
theorem C1_witness :
    ("a" : String) ≠ "c" ∧ ∀ l ∈ ([("a", "b"), ("b", "c")] : List (String × String)),
      ¬((l.1 = "a" ∧ l.2 = "c") ∨ (l.1 = "c" ∧ l.2 = "a")) :=
  C1_sorted_nodes_no_existing_pair_predicted (fun _ => 0)
    ⟨["a", "b", "c"], [("a", "b"), ("b", "c")]⟩ (by decide) "优先连接"
    [("a", "c", ⟨1, 1⟩)] (by decide) "a" "c" ⟨1, 1⟩ (by decide)

/-! ## Community detection worker, first variant
(src/services/communityDetection.worker.ts) -/

namespace Worker

/-- The worker's `Graph` helper class (first variant): node set in insertion
order, sanitized edge list, adjacency arrays built by pushing both endpoints,
degree map, and `m = edges.length`. -/
structure WGraph where
  nodes : List String
  edges : List (String × String)
  adj : JsMap String (List String)
  degrees : JsMap String ℕ
  m : ℕ
deriving Repr

def mkGraph (g : GraphData) : WGraph :=
  let nodes := jsDedup g.nodes
  let adj0 : JsMap String (List String) :=
    nodes.foldl (fun m n => m.set n []) JsMap.empty
  let deg0 : JsMap String ℕ := nodes.foldl (fun m n => m.set n 0) JsMap.empty
  let step := fun (acc : JsMap String (List String) × JsMap String ℕ)
      (e : String × String) =>
    if e.1 ∈ nodes ∧ e.2 ∈ nodes then
      let a1 := acc.1.set e.1 (acc.1.getD e.1 [] ++ [e.2])
      let a2 := a1.set e.2 (a1.getD e.2 [] ++ [e.1])
      let d1 := acc.2.set e.1 (acc.2.getD e.1 0 + 1)
      let d2 := d1.set e.2 (d1.getD e.2 0 + 1)
      (a2, d2)
    else acc
  let built := g.links.foldl step (adj0, deg0)
  ⟨nodes, g.links, built.1, built.2, g.links.length⟩

/-- One step of the `maxCount`/`bestLabels` scan over
`labelCounts.entries()`: a strictly larger count resets `bestLabels`, an
equal count appends the label. -/
def lpScanStep (acc : ℕ × List String) (p : String × ℕ) : ℕ × List String :=
  if acc.1 < p.2 then (p.2, [p.1])
  else if p.2 = acc.1 then (acc.1, acc.2 ++ [p.1])
  else acc

/-- The label selection of the first label-propagation variant: the running
`maxCount`/`bestLabels` scan over `labelCounts.entries()` followed by
`bestLabels.sort()[0]`. -/
def lpBestLabel (labelCounts : JsMap String ℕ) : String :=
  let scan := labelCounts.foldl lpScanStep (0, [])
  (sortStr scan.2).headD ""

/-- The body of the `for (const node of nodeIds)` loop: visit one node,
retallying neighbor labels against the in-place-updated community map. -/
def lpVisit (adjm : JsMap String (List String))
    (acc : JsMap String String × Bool) (node : String) :
    JsMap String String × Bool :=
  let neighbors := adjm.getD node []
  if neighbors = [] then acc
  else
    let labelCounts := neighbors.foldl (fun lc nb =>
      let c := acc.1.getD nb ""
      lc.set c (lc.getD c 0 + 1)) JsMap.empty
    let newCommunity := lpBestLabel labelCounts
    if acc.1.getD node "" ≠ newCommunity then (acc.1.set node newCommunity, true)
    else acc

/-- One full pass over all nodes; the boolean is the `changed` flag. -/
def lpPass (adjm : JsMap String (List String)) (ids : List String)
    (comms : JsMap String String) : JsMap String String × Bool :=
  ids.foldl (lpVisit adjm) (comms, false)

/-- The `while (changed && iterations < maxIterations)` loop; the fuel is the
remaining iteration budget (20 at the top call). -/
def lpLoop (adjm : JsMap String (List String)) (ids : List String) :
    ℕ → JsMap String String → JsMap String String
  | 0, comms => comms
  | fuel + 1, comms =>
    let r := lpPass adjm ids comms
    if r.2 then lpLoop adjm ids fuel r.1 else r.1

/-- The first (deterministic) `runLabelPropagation`. -/
def runLabelPropagation (g : WGraph) : List (String × ℕ) :=
  let nodeIds := sortStr g.nodes
  let comms0 := nodeIds.foldl (fun m n => m.set n n) JsMap.empty
  let communities := lpLoop g.adj nodeIds 20 comms0
  let uniqueLabels := sortStr (jsDedup communities.values)
  let labelMap : JsMap String ℕ :=
    (uniqueLabels.enum.map (fun p => (p.2, p.1))).foldl
      (fun m p => m.set p.1 p.2) JsMap.empty
  communities.map (fun p => (p.1, labelMap.getD p.2 0))

end Worker

/-! ## Order facts about the JavaScript string comparison -/

theorem charsLt_trans : ∀ (a b c : List Char), charsLt a b = true →
    charsLt b c = true → charsLt a c = true
  | [], [], _ => by intro h _; cases h
  | [], _ :: _, [] => by intro _ h; cases h
  | [], _ :: _, _ :: _ => by intro _ _; rfl
  | _ :: _, [], _ => by intro h _; cases h
  | _ :: _, _ :: _, [] => by intro _ h; cases h
  | x :: xs, y :: ys, z :: zs => by
    intro h1 h2
    simp only [charsLt] at *
    by_cases hxy : x < y
    · by_cases hyz : y < z
      · rw [if_pos (lt_trans hxy hyz)]
      · rw [if_neg hyz] at h2
        by_cases hzy : z < y
        · rw [if_pos hzy] at h2; cases h2
        · have hyeq : y = z := le_antisymm (not_lt.mp hzy) (not_lt.mp hyz)
          subst hyeq
          rw [if_pos hxy]
    · rw [if_neg hxy] at h1
      by_cases hyx : y < x
      · rw [if_pos hyx] at h1; cases h1
      · rw [if_neg hyx] at h1
        have hxeq : x = y := le_antisymm (not_lt.mp hyx) (not_lt.mp hxy)
        subst hxeq
        by_cases hxz : x < z
        · rw [if_pos hxz]
        · rw [if_neg hxz] at h2 ⊢
          by_cases hzx : z < x
          · rw [if_pos hzx] at h2; cases h2
          · rw [if_neg hzx] at h2 ⊢
            exact charsLt_trans xs ys zs h1 h2

theorem charsLt_connex : ∀ (a b : List Char), charsLt a b = false →
    charsLt b a = false → a = b
  | [], [] => by intro _ _; rfl
  | [], _ :: _ => by intro h _; cases h
  | _ :: _, [] => by intro _ h; cases h
  | x :: xs, y :: ys => by
    intro h1 h2
    simp only [charsLt] at h1 h2
    by_cases hxy : x < y
    · rw [if_pos hxy] at h1; cases h1
    · rw [if_neg hxy] at h1
      by_cases hyx : y < x
      · rw [if_pos hyx] at h2; cases h2
      · rw [if_neg hyx] at h1
        rw [if_neg hyx, if_neg hxy] at h2
        have hxeq : x = y := le_antisymm (not_lt.mp hyx) (not_lt.mp hxy)
        rw [hxeq, charsLt_connex xs ys h1 h2]

theorem jsLt_trans {a b c : String} (h1 : jsLt a b = true) (h2 : jsLt b c = true) :
    jsLt a c = true := charsLt_trans a.data b.data c.data h1 h2

theorem jsLt_connex {a b : String} (h1 : jsLt a b = false) (h2 : jsLt b a = false) :
    a = b := by
  have h := charsLt_connex a.data b.data h1 h2
  cases a
  cases b
  exact congrArg String.mk h

/-- Sortedness with respect to the JavaScript string order: no later element
is strictly below an earlier one. -/
def strSorted (l : List String) : Prop := l.Pairwise (fun a b => jsLt b a = false)

theorem mem_insertStr {x y : String} : ∀ {l : List String},
    x ∈ insertStr y l ↔ x = y ∨ x ∈ l
  | [] => by simp [insertStr]
  | z :: zs => by
    unfold insertStr
    split
    · simp [List.mem_cons]
    · rw [List.mem_cons, List.mem_cons, mem_insertStr]
      tauto

theorem insertStr_sorted {x : String} : ∀ {l : List String}, strSorted l →
    strSorted (insertStr x l)
  | [], _ => by simp [insertStr, strSorted]
  | y :: ys, h => by
    unfold insertStr
    obtain ⟨hy, hys⟩ := List.pairwise_cons.mp h
    split
    · next hxy =>
      refine List.pairwise_cons.mpr ⟨?_, h⟩
      intro z hz
      rcases List.mem_cons.mp hz with rfl | hz'
      · exact jsLt_asymm hxy
      · by_contra hzx
        have hzx' : jsLt z x = true := by
          cases hb : jsLt z x
          · exact absurd hb hzx
          · rfl
        have := jsLt_trans hzx' hxy
        rw [hy z hz'] at this
        cases this
    · next hxy =>
      refine List.pairwise_cons.mpr ⟨?_, insertStr_sorted hys⟩
      intro z hz
      rcases mem_insertStr.mp hz with rfl | hz'
      · cases hb : jsLt z y
        · rfl
        · exact absurd hb hxy
      · exact hy z hz'

theorem sortStr_sorted : ∀ (l : List String), strSorted (sortStr l)
  | [] => by simp [sortStr, strSorted]
  | x :: xs => by
    have h : sortStr (x :: xs) = insertStr x (sortStr xs) := rfl
    rw [h]
    exact insertStr_sorted (sortStr_sorted xs)

theorem mem_sortStr {x : String} : ∀ {l : List String}, x ∈ sortStr l ↔ x ∈ l
  | [] => Iff.rfl
  | y :: ys => by
    have h : sortStr (y :: ys) = insertStr y (sortStr ys) := rfl
    rw [h, mem_insertStr, List.mem_cons, mem_sortStr]

theorem sortStr_length : ∀ (l : List String), (sortStr l).length = l.length
  | [] => rfl
  | y :: ys => by
    have h : sortStr (y :: ys) = insertStr y (sortStr ys) := rfl
    rw [h]
    have hlen : ∀ (x : String) (m : List String), (insertStr x m).length = m.length + 1 := by
      intro x m
      induction m with
      | nil => rfl
      | cons z zs ih =>
        unfold insertStr
        split
        · rfl
        · simpa [List.length_cons] using ih
    rw [hlen, sortStr_length ys, List.length_cons]

/-- The head of the sorted list is a least element. -/
theorem sortStr_headD_min {l : List String} (hne : l ≠ []) :
    ((sortStr l).headD "" ∈ l) ∧ ∀ x ∈ l, jsLt x ((sortStr l).headD "") = false := by
  have hlen : (sortStr l).length = l.length := sortStr_length l
  have hsne : sortStr l ≠ [] := by
    intro h
    apply hne
    have := congrArg List.length h
    rw [hlen] at this
    exact List.length_eq_zero.mp this
  obtain ⟨h, t, hht⟩ : ∃ h t, sortStr l = h :: t := by
    cases hs : sortStr l with
    | nil => exact absurd hs hsne
    | cons a b => exact ⟨a, b, rfl⟩
  have hsorted := sortStr_sorted l
  rw [hht] at hsorted
  obtain ⟨hhead, _⟩ := List.pairwise_cons.mp hsorted
  constructor
  · rw [hht]
    show h ∈ l
    exact mem_sortStr.mp (by rw [hht]; exact List.mem_cons_self h t)
  · intro x hx
    have hxs : x ∈ sortStr l := mem_sortStr.mpr hx
    rw [hht] at hxs
    rw [hht]
    rcases List.mem_cons.mp hxs with rfl | hxt
    · exact jsLt_irrefl x
    · exact hhead x hxt

namespace Worker

theorem lpScanStep_cases (acc : ℕ × List String) (p : String × ℕ) :
    (acc.1 < p.2 ∧ lpScanStep acc p = (p.2, [p.1])) ∨
    (¬ acc.1 < p.2 ∧ p.2 = acc.1 ∧ lpScanStep acc p = (acc.1, acc.2 ++ [p.1])) ∨
    (¬ acc.1 < p.2 ∧ ¬ p.2 = acc.1 ∧ lpScanStep acc p = acc) := by
  unfold lpScanStep
  by_cases h1 : acc.1 < p.2
  · exact Or.inl ⟨h1, by rw [if_pos h1]⟩
  · by_cases h2 : p.2 = acc.1
    · exact Or.inr (Or.inl ⟨h1, h2, by rw [if_neg h1, if_pos h2]⟩)
    · exact Or.inr (Or.inr ⟨h1, h2, by rw [if_neg h1, if_neg h2]⟩)

theorem lpScan_mono : ∀ (lc : List (String × ℕ)) (m0 : ℕ) (ls0 : List String),
    m0 ≤ (lc.foldl lpScanStep (m0, ls0)).1
  | [], _, _ => le_refl _
  | p :: rest, m0, ls0 => by
    rw [List.foldl_cons]
    rcases lpScanStep_cases (m0, ls0) p with ⟨hlt, heq⟩ | ⟨_, _, heq⟩ | ⟨_, _, heq⟩ <;>
      rw [heq]
    · exact le_trans (le_of_lt hlt) (lpScan_mono rest _ _)
    · exact lpScan_mono rest _ _
    · exact lpScan_mono rest _ _

theorem lpScan_bound : ∀ (lc : List (String × ℕ)) (m0 : ℕ) (ls0 : List String),
    ∀ p ∈ lc, p.2 ≤ (lc.foldl lpScanStep (m0, ls0)).1
  | [], _, _ => by intro p hp; cases hp
  | p :: rest, m0, ls0 => by
    intro x hx
    rw [List.foldl_cons]
    rcases List.mem_cons.mp hx with rfl | hx'
    · rcases lpScanStep_cases (m0, ls0) x with ⟨_, heq⟩ | ⟨_, h2, heq⟩ | ⟨h1, _, heq⟩ <;>
        rw [heq]
      · exact lpScan_mono rest _ _
      · rw [h2]; exact lpScan_mono rest _ _
      · exact le_trans (le_of_not_lt h1) (lpScan_mono rest _ _)
    · exact lpScan_bound rest _ _ x hx'

theorem lpScan_keep : ∀ (lc : List (String × ℕ)) (m0 : ℕ) (ls0 : List String),
    ∀ l ∈ ls0, m0 = (lc.foldl lpScanStep (m0, ls0)).1 →
      l ∈ (lc.foldl lpScanStep (m0, ls0)).2
  | [], _, _ => by intro l hl _; exact hl
  | p :: rest, m0, ls0 => by
    intro l hl hmax
    rw [List.foldl_cons] at hmax ⊢
    rcases lpScanStep_cases (m0, ls0) p with ⟨h1, heq⟩ | ⟨_, _, heq⟩ | ⟨_, _, heq⟩ <;>
      rw [heq] at hmax ⊢
    · exfalso
      have := lpScan_mono rest p.2 [p.1]
      rw [← hmax] at this
      exact absurd (lt_of_lt_of_le h1 this) (lt_irrefl m0)
    · exact lpScan_keep rest _ _ l (List.mem_append_left _ hl) hmax
    · exact lpScan_keep rest _ _ l hl hmax

theorem lpScan_argmax_mem : ∀ (lc : List (String × ℕ)) (m0 : ℕ) (ls0 : List String),
    ∀ p ∈ lc, p.2 = (lc.foldl lpScanStep (m0, ls0)).1 →
      p.1 ∈ (lc.foldl lpScanStep (m0, ls0)).2
  | [], _, _ => by intro p hp; cases hp
  | p :: rest, m0, ls0 => by
    intro x hx hmax
    rw [List.foldl_cons] at hmax ⊢
    rcases List.mem_cons.mp hx with rfl | hx'
    · rcases lpScanStep_cases (m0, ls0) x with ⟨_, heq⟩ | ⟨_, h2, heq⟩ | ⟨h1, h2, heq⟩ <;>
        rw [heq] at hmax ⊢
      · exact lpScan_keep rest _ _ x.1 (List.mem_singleton_self _) hmax
      · rw [h2] at hmax
        exact lpScan_keep rest _ _ x.1
          (List.mem_append_right _ (List.mem_singleton_self _)) hmax
      · exfalso
        have hle := le_of_not_lt h1
        have hmono := lpScan_mono rest m0 ls0
        rw [← hmax] at hmono
        exact h2 (le_antisymm hle hmono)
    · exact lpScan_argmax_mem rest _ _ x hx' hmax

theorem lpScan_sound : ∀ (lc : List (String × ℕ)) (m0 : ℕ) (ls0 : List String),
    ∀ l ∈ (lc.foldl lpScanStep (m0, ls0)).2,
      (l, (lc.foldl lpScanStep (m0, ls0)).1) ∈ lc ∨
        (l ∈ ls0 ∧ (lc.foldl lpScanStep (m0, ls0)).1 = m0)
  | [], _, _ => by intro l hl; exact Or.inr ⟨hl, rfl⟩
  | p :: rest, m0, ls0 => by
    intro l hl
    rw [List.foldl_cons] at hl ⊢
    rcases lpScanStep_cases (m0, ls0) p with ⟨_, heq⟩ | ⟨_, h2, heq⟩ | ⟨_, _, heq⟩ <;>
      rw [heq] at hl ⊢
    · rcases lpScan_sound rest _ _ l hl with h | ⟨hmem, hmax⟩
      · exact Or.inl (List.mem_cons_of_mem _ h)
      · rcases List.mem_singleton.mp hmem with rfl
        rw [hmax]
        exact Or.inl (List.mem_cons_self _ _)
    · rcases lpScan_sound rest _ _ l hl with h | ⟨hmem, hmax⟩
      · exact Or.inl (List.mem_cons_of_mem _ h)
      · rcases List.mem_append.mp hmem with hl0 | hp1
        · exact Or.inr ⟨hl0, hmax⟩
        · rcases List.mem_singleton.mp hp1 with rfl
          rw [hmax, ← h2]
          exact Or.inl (List.mem_cons_self _ _)
    · rcases lpScan_sound rest _ _ l hl with h | ⟨hl0, hmax⟩
      · exact Or.inl (List.mem_cons_of_mem _ h)
      · exact Or.inr ⟨hl0, hmax⟩

theorem lpScan_attained : ∀ (lc : List (String × ℕ)) (m0 : ℕ) (ls0 : List String),
    (lc.foldl lpScanStep (m0, ls0)).1 = m0 ∨
      ∃ p ∈ lc, p.2 = (lc.foldl lpScanStep (m0, ls0)).1
  | [], _, _ => Or.inl rfl
  | p :: rest, m0, ls0 => by
    rw [List.foldl_cons]
    rcases lpScanStep_cases (m0, ls0) p with ⟨_, heq⟩ | ⟨_, h2, heq⟩ | ⟨_, _, heq⟩ <;>
      rw [heq]
    · rcases lpScan_attained rest p.2 [p.1] with h | ⟨x, hx, hmax⟩
      · exact Or.inr ⟨p, List.mem_cons_self _ _, h.symm⟩
      · exact Or.inr ⟨x, List.mem_cons_of_mem _ hx, hmax⟩
    · rcases lpScan_attained rest m0 (ls0 ++ [p.1]) with h | ⟨x, hx, hmax⟩
      · exact Or.inr ⟨p, List.mem_cons_self _ _, by rw [h, h2]⟩
      · exact Or.inr ⟨x, List.mem_cons_of_mem _ hx, hmax⟩
    · rcases lpScan_attained rest m0 ls0 with h | ⟨x, hx, hmax⟩
      · exact Or.inl h
      · exact Or.inr ⟨x, List.mem_cons_of_mem _ hx, hmax⟩

/-- Specification of the deterministic tie-break: the adopted label is the
`jsLt`-least among the most frequent labels of the tally. -/
theorem lpBestLabel_spec (lc : JsMap String ℕ) (hne : lc ≠ [])
    (hpos : ∀ p ∈ lc, 1 ≤ p.2) :
    ∃ c, (lpBestLabel lc, c) ∈ lc ∧ (∀ p ∈ lc, p.2 ≤ c) ∧
      (∀ p ∈ lc, p.2 = c → jsLt (lpBestLabel lc) p.1 = true ∨ lpBestLabel lc = p.1) := by
  obtain ⟨p0, rest0, hlc⟩ : ∃ p0 rest0, lc = p0 :: rest0 := by
    cases lc with
    | nil => exact absurd rfl hne
    | cons a b => exact ⟨a, b, rfl⟩
  have hatt : ∃ p ∈ lc, p.2 = (lc.foldl lpScanStep (0, [])).1 := by
    rcases lpScan_attained lc 0 [] with h | h
    · exfalso
      have hb := lpScan_bound lc 0 [] p0 (by rw [hlc]; exact List.mem_cons_self _ _)
      rw [h] at hb
      have := hpos p0 (by rw [hlc]; exact List.mem_cons_self _ _)
      exact absurd (le_trans this hb) (by simp)
    · exact h
  obtain ⟨pm, hpm, hpmax⟩ := hatt
  have hbestmem : (lc.foldl lpScanStep (0, [])).2 ≠ [] := by
    intro hnil
    have := lpScan_argmax_mem lc 0 [] pm hpm hpmax
    rw [hnil] at this
    cases this
  obtain ⟨hheadmem, hheadmin⟩ := sortStr_headD_min hbestmem
  have hbest : lpBestLabel lc = (sortStr (lc.foldl lpScanStep (0, [])).2).headD "" := rfl
  refine ⟨(lc.foldl lpScanStep (0, [])).1, ?_, lpScan_bound lc 0 [], ?_⟩
  · rcases lpScan_sound lc 0 [] _ hheadmem with h | ⟨habs, _⟩
    · rw [hbest]; exact h
    · cases habs
  · intro p hp hpc
    have hpin := lpScan_argmax_mem lc 0 [] p hp hpc
    have hmin := hheadmin p.1 hpin
    rw [hbest]
    cases hb : jsLt ((sortStr (lc.foldl lpScanStep (0, [])).2).headD "") p.1
    · exact Or.inr (jsLt_connex hb hmin)
    · exact Or.inl rfl

end Worker

theorem JsMap.get_set {K V : Type} [DecidableEq K] (m : JsMap K V) (k : K) (v : V)
    (x : K) : (m.set k v).get x = if x = k then some v else m.get x := by
  induction m with
  | nil =>
    by_cases hx : x = k
    · subst hx
      simp [JsMap.set, JsMap.get, List.find?]
    · have hkx : ¬ k = x := fun h => hx h.symm
      simp [JsMap.set, JsMap.get, List.find?, hx, hkx]
  | cons p rest ih =>
    obtain ⟨k', v'⟩ := p
    by_cases hk : k' = k
    · subst hk
      by_cases hx : x = k'
      · subst hx
        simp [JsMap.set, JsMap.get, List.find?]
      · have hkx : ¬ k' = x := fun h => hx h.symm
        simp [JsMap.set, JsMap.get, List.find?, hx, hkx]
    · by_cases hx : x = k'
      · subst hx
        simp [JsMap.set, hk, JsMap.get, List.find?]
      · have hkx : ¬ k' = x := fun h => hx h.symm
        simp only [JsMap.set, if_neg hk, JsMap.get, List.find?]
        rw [decide_eq_false hkx]
        simp only [JsMap.get] at ih
        rw [ih]

theorem JsMap.getD_set {K V : Type} [DecidableEq K] (m : JsMap K V) (k : K) (v d : V)
    (x : K) : (m.set k v).getD x d = if x = k then v else m.getD x d := by
  unfold JsMap.getD
  rw [JsMap.get_set]
  by_cases hx : x = k
  · simp [hx]
  · simp [hx]

namespace Worker

theorem lpVisit_isolated (adjm : JsMap String (List String))
    (acc : JsMap String String × Bool) (node iso : String)
    (hiso : adjm.getD iso [] = []) :
    (lpVisit adjm acc node).1.getD iso "" = acc.1.getD iso "" := by
  unfold lpVisit
  by_cases hnb : adjm.getD node [] = []
  · rw [if_pos hnb]
  · rw [if_neg hnb]
    dsimp only
    split
    · rw [JsMap.getD_set]
      have hne : iso ≠ node := by
        intro h
        rw [h] at hiso
        exact hnb hiso
      rw [if_neg hne]
    · rfl

theorem lpPass_isolated (adjm : JsMap String (List String)) (ids : List String)
    (comms : JsMap String String) (iso : String)
    (hiso : adjm.getD iso [] = []) :
    (lpPass adjm ids comms).1.getD iso "" = comms.getD iso "" := by
  unfold lpPass
  suffices h : ∀ (acc : JsMap String String × Bool),
      (ids.foldl (lpVisit adjm) acc).1.getD iso "" = acc.1.getD iso "" by
    exact h (comms, false)
  induction ids with
  | nil => intro acc; rfl
  | cons n rest ih =>
    intro acc
    rw [List.foldl_cons, ih, lpVisit_isolated adjm acc n iso hiso]

theorem lpLoop_isolated (adjm : JsMap String (List String)) (ids : List String)
    (iso : String) (hiso : adjm.getD iso [] = []) :
    ∀ (fuel : ℕ) (comms : JsMap String String),
      (lpLoop adjm ids fuel comms).getD iso "" = comms.getD iso ""
  | 0, comms => rfl
  | fuel + 1, comms => by
    unfold lpLoop
    dsimp only
    split
    · rw [lpLoop_isolated adjm ids iso hiso fuel _, lpPass_isolated adjm ids comms iso hiso]
    · rw [lpPass_isolated adjm ids comms iso hiso]

theorem lpVisit_flag (adjm : JsMap String (List String))
    (acc : JsMap String String × Bool) (node : String)
    (h : (lpVisit adjm acc node).2 = false) :
    acc.2 = false ∧ (lpVisit adjm acc node).1 = acc.1 := by
  unfold lpVisit at *
  by_cases hnb : adjm.getD node [] = []
  · rw [if_pos hnb] at h ⊢
    exact ⟨h, rfl⟩
  · rw [if_neg hnb] at h ⊢
    dsimp only at h ⊢
    split at h
    · cases h
    · next hne =>
      rw [if_neg hne]
      exact ⟨h, rfl⟩

theorem lpFold_flag (adjm : JsMap String (List String)) :
    ∀ (ids : List String) (acc : JsMap String String × Bool),
      ((ids.foldl (lpVisit adjm) acc).2 = false) →
      (ids.foldl (lpVisit adjm) acc).1 = acc.1 ∧ acc.2 = false
  | [], acc => by intro h; exact ⟨rfl, h⟩
  | n :: rest, acc => by
    intro h
    rw [List.foldl_cons] at h ⊢
    obtain ⟨h1, h2⟩ := lpFold_flag adjm rest (lpVisit adjm acc n) h
    obtain ⟨h3, h4⟩ := lpVisit_flag adjm acc n h2
    exact ⟨h1.trans h4, h3⟩

/-- A pass that reports no change leaves the community map untouched. -/
theorem lpPass_stable (adjm : JsMap String (List String)) (ids : List String)
    (comms : JsMap String String) (h : (lpPass adjm ids comms).2 = false) :
    (lpPass adjm ids comms).1 = comms :=
  (lpFold_flag adjm ids (comms, false) h).1

/-- The iteration stops as soon as a full pass changes no label. -/
theorem lpLoop_stops (adjm : JsMap String (List String)) (ids : List String)
    (comms : JsMap String String) (fuel : ℕ)
    (h : (lpPass adjm ids comms).2 = false) :
    lpLoop adjm ids (fuel + 1) comms = comms := by
  unfold lpLoop
  dsimp only
  rw [h]
  simp only [Bool.false_eq_true, if_false]
  exact lpPass_stable adjm ids comms h

end Worker

/-- C8, confirmed for the deterministic label-propagation variant: (i) the
adopted label is the `jsLt`-least among the most frequent neighbor labels,
(ii) a node with no adjacency entries never changes its label in any number
of iterations, and (iii) a pass with no label change ends the run with the
map unchanged. -/
theorem C8_deterministic_label_propagation :
    (∀ (lc : JsMap String ℕ), lc ≠ [] → (∀ p ∈ lc, 1 ≤ p.2) →
      ∃ c, (Worker.lpBestLabel lc, c) ∈ lc ∧ (∀ p ∈ lc, p.2 ≤ c) ∧
        (∀ p ∈ lc, p.2 = c →
          jsLt (Worker.lpBestLabel lc) p.1 = true ∨ Worker.lpBestLabel lc = p.1)) ∧
    (∀ (adjm : JsMap String (List String)) (ids : List String)
        (comms : JsMap String String) (node : String) (fuel : ℕ),
      adjm.getD node [] = [] →
      (Worker.lpLoop adjm ids fuel comms).getD node "" = comms.getD node "") ∧
    (∀ (adjm : JsMap String (List String)) (ids : List String)
        (comms : JsMap String String) (fuel : ℕ),
      (Worker.lpPass adjm ids comms).2 = false →
      Worker.lpLoop adjm ids (fuel + 1) comms = comms) :=
  ⟨Worker.lpBestLabel_spec,
   fun adjm ids comms node fuel h => Worker.lpLoop_isolated adjm ids node h fuel comms,
   fun adjm ids comms fuel h => Worker.lpLoop_stops adjm ids comms fuel h⟩

/-- Witness for `C8_deterministic_label_propagation`: a two-label tie resolved
to `"a"`, an isolated node `"x"` keeping its label for 20 iterations, and an
already-stable map ending the run unchanged. -/
theorem C8_witness :
    (∃ c, (Worker.lpBestLabel [("b", 1), ("a", 1)], c) ∈
        ([("b", 1), ("a", 1)] : JsMap String ℕ) ∧
      (∀ p ∈ ([("b", 1), ("a", 1)] : JsMap String ℕ), p.2 ≤ c) ∧
      (∀ p ∈ ([("b", 1), ("a", 1)] : JsMap String ℕ), p.2 = c →
        jsLt (Worker.lpBestLabel [("b", 1), ("a", 1)]) p.1 = true ∨
          Worker.lpBestLabel [("b", 1), ("a", 1)] = p.1)) ∧
    JsMap.getD (Worker.lpLoop [("x", [])] ["x"] 20 [("x", "x")]) "x" "" =
      JsMap.getD [("x", "x")] "x" "" ∧
    Worker.lpLoop [("x", [])] ["x"] (19 + 1) [("x", "x")] = [("x", "x")] :=
  ⟨C8_deterministic_label_propagation.1 [("b", 1), ("a", 1)] (by decide) (by decide),
   C8_deterministic_label_propagation.2.1 [("x", [])] ["x"] [("x", "x")] "x" 20 (by decide),
   C8_deterministic_label_propagation.2.2 [("x", [])] ["x"] [("x", "x")] 19 (by decide)⟩

/-! ## Girvan-Newman, first variant -/

namespace Worker

/-- The unordered edge key used by the Girvan-Newman code:
`source < target ? s|t : t|s`. -/
def edgeKeyW (s t : String) : String :=
  if jsLt s t then s ++ "|" ++ t else t ++ "|" ++ s

/-- Structural model of `key.split('|')`. -/
def splitPipeAux : List Char → List Char → List String
  | cur, [] => [String.mk cur.reverse]
  | cur, c :: cs =>
    if c = '|' then String.mk cur.reverse :: splitPipeAux [] cs
    else splitPipeAux (c :: cur) cs

def splitPipe (s : String) : List String := splitPipeAux [] s.data

/-- Breadth-first collection of one connected component; the fuel bounds the
number of queue elements processed (each node enters the queue at most once,
so `nodes.length + 1` always suffices). -/
def gnBFSComp (adj : JsMap String (List String)) :
    ℕ → List String → List String → List String × List String
  | 0, _, visited => ([], visited)
  | _ + 1, [], visited => ([], visited)
  | fuel + 1, u :: rest, visited =>
    let res := (adj.getD u []).foldl (fun (acc : List String × List String) v =>
      if v ∈ acc.2 then acc else (acc.1 ++ [v], acc.2 ++ [v])) (rest, visited)
    let r := gnBFSComp adj fuel res.1 res.2
    (u :: r.1, r.2)

def gnComponentsAux (adj : JsMap String (List String)) (bfsFuel : ℕ) :
    List String → List String → List (List String)
  | [], _ => []
  | n :: rest, visited =>
    if n ∈ visited then gnComponentsAux adj bfsFuel rest visited
    else
      let r := gnBFSComp adj bfsFuel [n] (visited ++ [n])
      r.1 :: gnComponentsAux adj bfsFuel rest r.2

/-- The `getComponents` closure of `runGirvanNewman`. -/
def gnComponents (nodes : List String) (adj : JsMap String (List String))
    (bfsFuel : ℕ) : List (List String) :=
  gnComponentsAux adj bfsFuel nodes []

/-- Per-source state of the Brandes accumulation: stack `S`, predecessor
lists `P`, path counts `sigma` and BFS distances `d`. -/
structure BrandesState where
  S : List String
  P : JsMap String (List String)
  sigma : JsMap String ℤ
  d : JsMap String ℤ

/-- The Brandes BFS (`while(head < Q.length)`) of the edge-betweenness
computation. -/
def gnBrandesBFS (adj : JsMap String (List String)) :
    ℕ → List String → BrandesState → BrandesState
  | 0, _, st => st
  | _ + 1, [], st => st
  | fuel + 1, v :: rest, st =>
    let st' := { st with S := st.S ++ [v] }
    let dv := st'.d.getD v 0
    let res := (adj.getD v []).foldl
      (fun (acc : List String × BrandesState) w =>
        let acc1 :=
          if acc.2.d.getD w 0 < 0 then
            (acc.1 ++ [w], { acc.2 with d := acc.2.d.set w (dv + 1) })
          else acc
        if acc1.2.d.getD w 0 = dv + 1 then
          (acc1.1, { acc1.2 with
            sigma := acc1.2.sigma.set w
              (acc1.2.sigma.getD w 0 + acc1.2.sigma.getD v 0),
            P := acc1.2.P.set w (acc1.2.P.getD w [] ++ [v]) })
        else acc1)
      (rest, st')
    gnBrandesBFS adj fuel res.1 res.2

/-- The dependency back-propagation (`while(S.length > 0)`), processing the
stack from its top; the argument list is the reversed stack. -/
def gnAccum (P : JsMap String (List String)) (sigma : JsMap String ℤ) :
    List String → JsMap String JsNum → JsMap String JsNum →
    JsMap String JsNum × JsMap String JsNum
  | [], bw, delta => (bw, delta)
  | w :: ws, bw, delta =>
    let res := (P.getD w []).foldl
      (fun (acc : JsMap String JsNum × JsMap String JsNum) v =>
        let c : JsNum := (JsNum.ofInt (sigma.getD v 0) / JsNum.ofInt (sigma.getD w 0)) *
          (JsNum.ofNat 1 + acc.2.getD w 0)
        let ek := edgeKeyW v w
        (acc.1.set ek (acc.1.getD ek 0 + c), acc.2.set v (acc.2.getD v 0 + c)))
      (bw, delta)
    gnAccum P sigma ws res.1 res.2

/-- Edge betweenness over all Brandes sources, accumulated into the seeded
betweenness map. -/
def gnBetweenness (nodes : List String) (adj : JsMap String (List String))
    (bfsFuel : ℕ) (bw0 : JsMap String JsNum) : JsMap String JsNum :=
  nodes.foldl (fun bw s =>
    let P0 : JsMap String (List String) :=
      nodes.foldl (fun m n => m.set n []) JsMap.empty
    let sigma0 : JsMap String ℤ :=
      (nodes.foldl (fun m n => m.set n 0) JsMap.empty).set s 1
    let d0 : JsMap String ℤ :=
      (nodes.foldl (fun m n => m.set n (-1)) JsMap.empty).set s 0
    let st := gnBrandesBFS adj bfsFuel [s] ⟨[], P0, sigma0, d0⟩
    let delta0 : JsMap String JsNum :=
      nodes.foldl (fun m n => m.set n 0) JsMap.empty
    (gnAccum st.P st.sigma st.S.reverse bw delta0).1) bw0

/-- One step of the `maxBetweenness`/`edgeToRemove` scan. -/
def gnScanStep (acc : JsNum × String) (p : String × JsNum) : JsNum × String :=
  if JsNum.ltB acc.1 p.2 then (p.2, p.1) else acc

/-- The `maxBetweenness`/`edgeToRemove` scan: starting from `-1` and the
empty string, keep the first entry strictly above the running maximum. -/
def gnPickMax (bw : JsMap String JsNum) : String :=
  (bw.foldl gnScanStep ((⟨-1, 1⟩ : JsNum), "")).2

/-- The edge-removal loop of the first `runGirvanNewman` variant. The
component count is recomputed at the loop head, which agrees with the
source's cached `numComponents` because the adjacency is unchanged in
between. One edge is removed per iteration, so fuel
`currentEdges.length + 1` is always enough. -/
def gnRemovalLoop (nodes : List String) (bfsFuel : ℕ) (target : ℕ) :
    ℕ → List String → JsMap String (List String) →
    List String × JsMap String (List String)
  | 0, ce, adj => (ce, adj)
  | fuel + 1, ce, adj =>
    if (gnComponents nodes adj bfsFuel).length < target ∧ 0 < ce.length then
      let bw0 : JsMap String JsNum := ce.foldl (fun m e => m.set e 0) JsMap.empty
      let bw := gnBetweenness nodes adj bfsFuel bw0
      let sel := gnPickMax bw
      if sel = "" then (ce, adj)
      else
        let parts := splitPipe sel
        let u := parts.getD 0 ""
        let v := parts.getD 1 ""
        let ce' := ce.filter (fun e => ¬ e = sel)
        let adj1 := adj.set u ((adj.getD u []).filter (fun x => ¬ x = v))
        let adj2 := adj1.set v ((adj1.getD v []).filter (fun x => ¬ x = u))
        gnRemovalLoop nodes bfsFuel target fuel ce' adj2
    else (ce, adj)

/-- The initial live adjacency (`tempAdj`) of `runGirvanNewman`: a set-valued
adjacency over the node set, both directions per edge. -/
def gnInitialAdj (g : WGraph) : JsMap String (List String) :=
  let adj0 : JsMap String (List String) :=
    g.nodes.foldl (fun m n => m.set n []) JsMap.empty
  g.edges.foldl (fun m e =>
    let m1 := m.set e.1 (jsSetAdd (m.getD e.1 []) e.2)
    m1.set e.2 (jsSetAdd (m1.getD e.2 []) e.1)) adj0

/-- The initial surviving-edge key set (`currentEdges`), in first-appearance
order. -/
def gnInitialEdges (g : WGraph) : List String :=
  jsDedup (g.edges.map (fun e => edgeKeyW e.1 e.2))

/-- Partition assignment from a component list: community `i` for every node
of the `i`-th component. -/
def gnAssignment (comps : List (List String)) : List (String × ℕ) :=
  comps.enum.flatMap (fun p => p.2.map (fun node => (node, p.1)))

/-- The first `runGirvanNewman` variant. -/
def runGirvanNewman (g : WGraph) (targetCommunities : ℕ) : List (String × ℕ) :=
  let bfsFuel := g.nodes.length + 1
  let ce0 := gnInitialEdges g
  let adj0 := gnInitialAdj g
  let res := gnRemovalLoop g.nodes bfsFuel targetCommunities (ce0.length + 1) ce0 adj0
  gnAssignment (gnComponents g.nodes res.2 bfsFuel)

end Worker

/-! ## Order bridge between `JsNum` comparisons and `ℚ` -/

theorem JsNum.ltB_iff {x y : JsNum} (hx : 0 < x.den) (hy : 0 < y.den) :
    x.ltB y = true ↔ x.q < y.q := by
  have hx' : (0 : ℚ) < (x.den : ℚ) := by exact_mod_cast hx
  have hy' : (0 : ℚ) < (y.den : ℚ) := by exact_mod_cast hy
  rw [JsNum.q, JsNum.q, div_lt_div_iff hx' hy']
  unfold JsNum.ltB
  rw [decide_eq_true_eq]
  constructor
  · intro h
    exact_mod_cast h
  · intro h
    exact_mod_cast h

theorem JsNum.ltB_false_iff {x y : JsNum} (hx : 0 < x.den) (hy : 0 < y.den) :
    x.ltB y = false ↔ y.q ≤ x.q := by
  rw [← not_lt, ← JsNum.ltB_iff hx hy]
  cases x.ltB y <;> simp

namespace Worker

theorem gnScan_spec : ∀ (l : List (String × JsNum)) (acc : JsNum × String),
    0 < acc.1.den → (∀ p ∈ l, 0 < p.2.den) →
    (l.foldl gnScanStep acc = acc ∧ ∀ p ∈ l, p.2.q ≤ acc.1.q) ∨
    (∃ pre v post, l = pre ++ ((l.foldl gnScanStep acc).2, v) :: post ∧
      (l.foldl gnScanStep acc).1 = v ∧ acc.1.q < v.q ∧
      (∀ p ∈ pre, p.2.q < v.q) ∧ (∀ p ∈ post, p.2.q ≤ v.q))
  | [], acc => by
    intro _ _
    exact Or.inl ⟨rfl, by intro p hp; cases hp⟩
  | p :: rest, acc => by
    intro hacc hd
    rw [List.foldl_cons]
    have hpd : 0 < p.2.den := hd p (List.mem_cons_self _ _)
    by_cases hlt : JsNum.ltB acc.1 p.2 = true
    · have hstep : gnScanStep acc p = (p.2, p.1) := by unfold gnScanStep; rw [if_pos hlt]
      rw [hstep]
      have hql : acc.1.q < p.2.q := (JsNum.ltB_iff hacc hpd).mp hlt
      rcases gnScan_spec rest (p.2, p.1) hpd
          (fun x hx => hd x (List.mem_cons_of_mem _ hx)) with ⟨heq, hall⟩ | h
      · rw [heq]
        refine Or.inr ⟨[], p.2, rest, ?_, rfl, hql, ?_, hall⟩
        · simp
        · intro x hx; cases hx
      · obtain ⟨pre, v, post, hsplit, hmax, hgt, hpre, hpost⟩ := h
        have hgt' : p.2.q < v.q := hgt
        refine Or.inr ⟨p :: pre, v, post, ?_, hmax, lt_trans hql hgt', ?_, hpost⟩
        · rw [List.cons_append, ← hsplit]
        · intro x hx
          rcases List.mem_cons.mp hx with rfl | hx'
          · exact hgt'
          · exact hpre x hx'
    · have hlt' : JsNum.ltB acc.1 p.2 = false := by
        cases hb : JsNum.ltB acc.1 p.2
        · rfl
        · exact absurd hb hlt
      have hstep : gnScanStep acc p = acc := by unfold gnScanStep; rw [if_neg hlt]
      rw [hstep]
      have hqle : p.2.q ≤ acc.1.q := (JsNum.ltB_false_iff hacc hpd).mp hlt'
      rcases gnScan_spec rest acc hacc
          (fun x hx => hd x (List.mem_cons_of_mem _ hx)) with ⟨heq, hall⟩ | h
      · refine Or.inl ⟨heq, ?_⟩
        intro x hx
        rcases List.mem_cons.mp hx with rfl | hx'
        · exact hqle
        · exact hall x hx'
      · obtain ⟨pre, v, post, hsplit, hmax, hgt, hpre, hpost⟩ := h
        refine Or.inr ⟨p :: pre, v, post, ?_, hmax, hgt, ?_, hpost⟩
        · rw [List.cons_append, ← hsplit]
        · intro x hx
          rcases List.mem_cons.mp hx with rfl | hx'
          · exact lt_of_le_of_lt hqle hgt
          · exact hpre x hx'

end Worker

/-- C4, confirmed: when the requested community count is at most the number
of connected components of the input graph, Girvan-Newman removes no edge
and returns exactly the initial connected components as the partition. -/
theorem C4_girvan_newman_initial_components (g : Worker.WGraph) (target : ℕ)
    (h : target ≤ (Worker.gnComponents g.nodes (Worker.gnInitialAdj g)
      (g.nodes.length + 1)).length) :
    Worker.gnRemovalLoop g.nodes (g.nodes.length + 1) target
        ((Worker.gnInitialEdges g).length + 1) (Worker.gnInitialEdges g)
        (Worker.gnInitialAdj g) =
      (Worker.gnInitialEdges g, Worker.gnInitialAdj g) ∧
    Worker.runGirvanNewman g target =
      Worker.gnAssignment (Worker.gnComponents g.nodes (Worker.gnInitialAdj g)
        (g.nodes.length + 1)) := by
  have hnot : ¬ ((Worker.gnComponents g.nodes (Worker.gnInitialAdj g)
      (g.nodes.length + 1)).length < target ∧
      0 < (Worker.gnInitialEdges g).length) := by
    rintro ⟨h1, _⟩
    exact absurd h (not_le.mpr h1)
  have hloop : Worker.gnRemovalLoop g.nodes (g.nodes.length + 1) target
      ((Worker.gnInitialEdges g).length + 1) (Worker.gnInitialEdges g)
      (Worker.gnInitialAdj g) =
      (Worker.gnInitialEdges g, Worker.gnInitialAdj g) := by
    rw [Worker.gnRemovalLoop]
    rw [if_neg hnot]
  refine ⟨hloop, ?_⟩
  show Worker.gnAssignment (Worker.gnComponents g.nodes
    (Worker.gnRemovalLoop g.nodes (g.nodes.length + 1) target
      ((Worker.gnInitialEdges g).length + 1) (Worker.gnInitialEdges g)
      (Worker.gnInitialAdj g)).2 (g.nodes.length + 1)) = _
  rw [hloop]

/-- Witness for `C4_girvan_newman_initial_components`: a graph with two
components and target 2. -/
theorem C4_witness :
    Worker.gnRemovalLoop (Worker.mkGraph ⟨["a", "b", "c"], [("a", "b")]⟩).nodes
        ((Worker.mkGraph ⟨["a", "b", "c"], [("a", "b")]⟩).nodes.length + 1) 2
        ((Worker.gnInitialEdges (Worker.mkGraph ⟨["a", "b", "c"], [("a", "b")]⟩)).length + 1)
        (Worker.gnInitialEdges (Worker.mkGraph ⟨["a", "b", "c"], [("a", "b")]⟩))
        (Worker.gnInitialAdj (Worker.mkGraph ⟨["a", "b", "c"], [("a", "b")]⟩)) =
      (Worker.gnInitialEdges (Worker.mkGraph ⟨["a", "b", "c"], [("a", "b")]⟩),
        Worker.gnInitialAdj (Worker.mkGraph ⟨["a", "b", "c"], [("a", "b")]⟩)) ∧
    Worker.runGirvanNewman (Worker.mkGraph ⟨["a", "b", "c"], [("a", "b")]⟩) 2 =
      Worker.gnAssignment (Worker.gnComponents
        (Worker.mkGraph ⟨["a", "b", "c"], [("a", "b")]⟩).nodes
        (Worker.gnInitialAdj (Worker.mkGraph ⟨["a", "b", "c"], [("a", "b")]⟩))
        ((Worker.mkGraph ⟨["a", "b", "c"], [("a", "b")]⟩).nodes.length + 1)) :=
  C4_girvan_newman_initial_components (Worker.mkGraph ⟨["a", "b", "c"], [("a", "b")]⟩) 2
    (by decide)

/-- C5 counterexample: on the graph with edges listed `(c,d)` then `(a,b)`
and target 3, both surviving edges tie at betweenness 2, yet the scan removes
`c|d` — the first key in map insertion order — although `a|b` is the
lexicographically smaller edge; the final partition shows the removal. -/
theorem C5_counterexample_tie_not_smallest :
    (JsNum.valEq
      (JsMap.getD (Worker.gnBetweenness
        (Worker.mkGraph ⟨["a", "b", "c", "d"], [("c", "d"), ("a", "b")]⟩).nodes
        (Worker.gnInitialAdj (Worker.mkGraph ⟨["a", "b", "c", "d"], [("c", "d"), ("a", "b")]⟩))
        5 ((Worker.gnInitialEdges (Worker.mkGraph ⟨["a", "b", "c", "d"], [("c", "d"), ("a", "b")]⟩)).foldl
            (fun m e => m.set e 0) JsMap.empty)) "a|b" 0)
      (JsMap.getD (Worker.gnBetweenness
        (Worker.mkGraph ⟨["a", "b", "c", "d"], [("c", "d"), ("a", "b")]⟩).nodes
        (Worker.gnInitialAdj (Worker.mkGraph ⟨["a", "b", "c", "d"], [("c", "d"), ("a", "b")]⟩))
        5 ((Worker.gnInitialEdges (Worker.mkGraph ⟨["a", "b", "c", "d"], [("c", "d"), ("a", "b")]⟩)).foldl
            (fun m e => m.set e 0) JsMap.empty)) "c|d" 0) = true) ∧
    Worker.gnPickMax (Worker.gnBetweenness
      (Worker.mkGraph ⟨["a", "b", "c", "d"], [("c", "d"), ("a", "b")]⟩).nodes
      (Worker.gnInitialAdj (Worker.mkGraph ⟨["a", "b", "c", "d"], [("c", "d"), ("a", "b")]⟩))
      5 ((Worker.gnInitialEdges (Worker.mkGraph ⟨["a", "b", "c", "d"], [("c", "d"), ("a", "b")]⟩)).foldl
          (fun m e => m.set e 0) JsMap.empty)) = "c|d" ∧
    jsLt "a|b" "c|d" = true ∧
    Worker.runGirvanNewman (Worker.mkGraph ⟨["a", "b", "c", "d"], [("c", "d"), ("a", "b")]⟩) 3 =
      [("a", 0), ("b", 0), ("c", 1), ("d", 2)] := by
  refine ⟨by decide, by decide, by decide, by decide⟩

/-- C5, corrected. Amended claim: when an edge is removed, the edge chosen is
the first entry of the betweenness map — in map insertion order — whose value
attains the maximum; earlier entries are strictly below it and later entries
do not exceed it. (The map is seeded in surviving-edge insertion order, so
ties are broken by edge-list appearance, not by smallest identifiers.) -/
theorem C5_removed_edge_first_max (bw : JsMap String JsNum) (hne : bw ≠ [])
    (hd : ∀ p ∈ bw, 0 < p.2.den) (hnn : ∀ p ∈ bw, 0 ≤ p.2.q) :
    ∃ pre v post, bw = pre ++ (Worker.gnPickMax bw, v) :: post ∧
      (∀ p ∈ pre, p.2.q < v.q) ∧ (∀ p ∈ post, p.2.q ≤ v.q) := by
  rcases Worker.gnScan_spec bw ((⟨-1, 1⟩ : JsNum), "") (by norm_num [JsNum.posDen]) hd with
    ⟨_, hall⟩ | h
  · exfalso
    obtain ⟨p0, rest0, rfl⟩ : ∃ p0 rest0, bw = p0 :: rest0 := by
      cases bw with
      | nil => exact absurd rfl hne
      | cons a b => exact ⟨a, b, rfl⟩
    have h1 := hall p0 (List.mem_cons_self _ _)
    have h2 := hnn p0 (List.mem_cons_self _ _)
    have hneg : ((⟨-1, 1⟩ : JsNum)).q = -1 := by
      unfold JsNum.q
      norm_num
    rw [hneg] at h1
    linarith
  · obtain ⟨pre, v, post, hsplit, _, _, hpre, hpost⟩ := h
    exact ⟨pre, v, post, hsplit, hpre, hpost⟩

/-- Witness for `C5_removed_edge_first_max` on a two-entry map with a tie. -/
theorem C5_witness :
    ∃ pre v post, ([("x|y", (⟨2, 1⟩ : JsNum)), ("a|b", (⟨2, 1⟩ : JsNum))] : JsMap String JsNum) =
        pre ++ (Worker.gnPickMax [("x|y", (⟨2, 1⟩ : JsNum)), ("a|b", (⟨2, 1⟩ : JsNum))], v) :: post ∧
      (∀ p ∈ pre, p.2.q < v.q) ∧ (∀ p ∈ post, p.2.q ≤ v.q) :=
  C5_removed_edge_first_max [("x|y", (⟨2, 1⟩ : JsNum)), ("a|b", (⟨2, 1⟩ : JsNum))]
    (by decide) (by decide)
    (by
      intro p hp
      rcases List.mem_cons.mp hp with rfl | hp'
      · norm_num [JsNum.q]
      · rcases List.mem_cons.mp hp' with rfl | hp''
        · norm_num [JsNum.q]
        · cases hp'')

/-! ## Louvain, first variant -/

namespace Worker

/-- Insertion of an integer into an ascending list, modeling the numeric
sort `(a, b) => a - b`. -/
def insertInt (x : ℤ) : List ℤ → List ℤ
  | [] => [x]
  | y :: ys => if x < y then x :: y :: ys else y :: insertInt x ys

def sortInt (l : List ℤ) : List ℤ := l.foldr insertInt []

/-- The Louvain `Partition` state: node-to-community map, community member
sets, per-community degree sums and `m2 = 2m`. (The first variant's
constructor also fills a `k_i_in` table, but no code ever reads it, so it is
not carried.) -/
structure LouvPart where
  ntc : JsMap String ℤ
  comms : JsMap ℤ (List String)
  sigmaTot : JsMap ℤ JsNum
  m2 : ℕ

/-- The `Partition` constructor: one singleton community per node, ids
assigned in node-set order. -/
def mkPartition (nodes : List String) (degrees : JsMap String ℕ) (m : ℕ) : LouvPart :=
  let built := nodes.foldl
    (fun (acc : ℤ × JsMap String ℤ × JsMap ℤ (List String) × JsMap ℤ JsNum) node =>
      (acc.1 + 1, acc.2.1.set node acc.1, acc.2.2.1.set acc.1 [node],
        acc.2.2.2.set acc.1 (JsNum.ofNat (degrees.getD node 0))))
    (0, JsMap.empty, JsMap.empty, JsMap.empty)
  ⟨built.2.1, built.2.2.1, built.2.2.2, 2 * m⟩

/-- `Partition.moveNode`. -/
def moveNode (degrees : JsMap String ℕ) (p : LouvPart) (node : String)
    (newComm : ℤ) : LouvPart :=
  let oldComm := p.ntc.getD node 0
  let nodeDegree := JsNum.ofNat (degrees.getD node 0)
  let sigma1 := p.sigmaTot.set oldComm (p.sigmaTot.getD oldComm 0 - nodeDegree)
  let sigma2 := sigma1.set newComm (sigma1.getD newComm 0 + nodeDegree)
  let oldSet := (p.comms.getD oldComm []).filter (fun x => ¬ x = node)
  let comms1 := p.comms.set oldComm oldSet
  let comms2 := if oldSet.length = 0 then comms1.del oldComm else comms1
  let comms3 := comms2.set newComm (jsSetAdd (comms2.getD newComm []) node)
  ⟨p.ntc.set node newComm, comms3, sigma2, p.m2⟩

/-- The per-node community tally (`neighborCommunities`). -/
def neighborCommunities (adjm : JsMap String (List String)) (ntc : JsMap String ℤ)
    (node : String) : JsMap ℤ ℕ :=
  (adjm.getD node []).foldl (fun m nb =>
    let c := ntc.getD nb 0
    m.set c (m.getD c 0 + 1)) JsMap.empty

/-- One pass of the first variant's `optimizeModularity`: for each node in
sorted order, the `deltaQ` scan over neighbor communities (the gain of the
current community is not subtracted in this variant) and a move when the best
gain is strictly positive and differs from the current community. -/
def louvainPassV1 (graph : WGraph) (resolution : JsNum) (p : LouvPart) :
    LouvPart × Bool :=
  (sortStr graph.nodes).foldl (fun (acc : LouvPart × Bool) node =>
    let part := acc.1
    let currentNodeCommunity := part.ntc.getD node 0
    let nodeDegree := graph.degrees.getD node 0
    let nc := neighborCommunities graph.adj part.ntc node
    let scan := nc.foldl (fun (bc : ℤ × JsNum) pr =>
      let deltaQ := JsNum.ofNat pr.2 -
        resolution * (part.sigmaTot.getD pr.1 0 * JsNum.ofNat nodeDegree) /
          JsNum.ofNat part.m2
      if JsNum.ltB bc.2 deltaQ then (pr.1, deltaQ) else bc)
      (currentNodeCommunity, 0)
    if ¬ scan.1 = currentNodeCommunity then
      (moveNode graph.degrees part node scan.1, true)
    else (part, acc.2)) (p, false)

/-- The first variant's `while (improvement)` loop, which has no pass-count
failsafe; the fuel bounds the number of passes evaluated. -/
def optimizeV1 (graph : WGraph) (resolution : JsNum) :
    ℕ → LouvPart → LouvPart
  | 0, p => p
  | fuel + 1, p =>
    let r := louvainPassV1 graph resolution p
    if r.2 then optimizeV1 graph resolution fuel r.1 else r.1

/-- The first variant's `aggregateCommunities`: community ids are renamed to
`counter.toString()` in key order, cross-community edges are tallied under a
lexicographically normalized string key, and intra-community edges are
skipped. -/
def aggregateV1 (graph : WGraph) (p : LouvPart) : GraphData :=
  let ks := p.comms.keys
  let communityMap : JsMap ℤ String :=
    (ks.enum.map (fun pr => (pr.2, toString pr.1))).foldl
      (fun m pr => m.set pr.1 pr.2) JsMap.empty
  let newNodes := ks.enum.map (fun pr => toString pr.1)
  let communityWeights : JsMap String ℕ := graph.edges.foldl (fun m e =>
    let comm1 := p.ntc.getD e.1 0
    let comm2 := p.ntc.getD e.2 0
    if ¬ comm1 = comm2 then
      let nc1 := communityMap.getD comm1 ""
      let nc2 := communityMap.getD comm2 ""
      let key := if jsLt nc1 nc2 then nc1 ++ "|" ++ nc2 else nc2 ++ "|" ++ nc1
      m.set key (m.getD key 0 + 1)
    else m) JsMap.empty
  let newLinks := communityWeights.flatMap (fun pr =>
    List.replicate pr.2 ((splitPipe pr.1).getD 0 "", (splitPipe pr.1).getD 1 ""))
  ⟨newNodes, newLinks⟩

/-- The main Louvain loop of the first variant, accumulating the hierarchy
of `nodeToCommunity` maps. -/
def louvainLoopV1 (resolution : JsNum) (passFuel : ℕ) :
    ℕ → WGraph → List (JsMap String ℤ) → List (JsMap String ℤ)
  | 0, _, hier => hier
  | fuel + 1, graph, hier =>
    let p0 := mkPartition graph.nodes graph.degrees graph.m
    let p := optimizeV1 graph resolution passFuel p0
    let hier' := hier ++ [p.ntc]
    if p.comms.length = graph.nodes.length then hier'
    else
      let newGraphData := aggregateV1 graph p
      if newGraphData.links.length = 0 then hier'
      else louvainLoopV1 resolution passFuel fuel (mkGraph newGraphData) hier'

/-- The first variant's `runLouvain`: optimize/aggregate levels, then map
communities back through the hierarchy, dropping a node whenever
`levelPartition.get(community.toString())` is undefined, and renumber the
surviving labels densely. -/
def runLouvainV1 (g : WGraph) (resolution : JsNum) (fuel : ℕ) :
    List (String × ℕ) :=
  if g.m = 0 then g.nodes.enum.map (fun pr => (pr.2, pr.1))
  else
    let hier := louvainLoopV1 resolution fuel fuel g []
    let h0 := hier.headD JsMap.empty
    let originalNodes := jsDedup h0.keys
    let final0 : JsMap String ℤ :=
      originalNodes.foldl (fun m node => m.set node (h0.getD node 0)) JsMap.empty
    let final := (hier.drop 1).foldl (fun fp levelPartition =>
      fp.foldl (fun (nfp : JsMap String ℤ) pr =>
        match levelPartition.get (toString pr.2) with
        | some mapped => nfp.set pr.1 mapped
        | none => nfp) JsMap.empty) final0
    let uniqueLabels := sortInt (jsDedup final.values)
    let labelMap : JsMap ℤ ℕ :=
      (uniqueLabels.enum.map (fun pr => (pr.2, pr.1))).foldl
        (fun m pr => m.set pr.1 pr.2) JsMap.empty
    final.map (fun pr => (pr.1, labelMap.getD pr.2 0))

end Worker

/-- C2, a code bug in the first Louvain variant: on the path graph
a-b-c-d the hierarchy back-mapping looks up the level-0 community ids
(`2` and `3`) among the aggregated node names (`"0"`, `"1"`), finds nothing,
and silently drops every node — `runLouvain` returns an empty assignment
list although the graph has four nodes, violating the partition-totality
invariant. -/
theorem C2_louvain_v1_empty_partition :
    Worker.runLouvainV1
        (Worker.mkGraph ⟨["a", "b", "c", "d"], [("a", "b"), ("b", "c"), ("c", "d")]⟩)
        (⟨1, 1⟩ : JsNum) 20 = [] ∧
    (Worker.mkGraph ⟨["a", "b", "c", "d"],
        [("a", "b"), ("b", "c"), ("c", "d")]⟩).nodes = ["a", "b", "c", "d"] := by
  exact ⟨by decide, by decide⟩

/-! ## Community detection worker, second variant -/

namespace Worker2

/-- The second variant's `Graph` constructor: `m` counts only valid edges
and a self-loop contributes a single adjacency entry and degree. -/
def mkGraphV2 (g : GraphData) : Worker.WGraph :=
  let nodes := jsDedup g.nodes
  let adj0 : JsMap String (List String) :=
    nodes.foldl (fun m n => m.set n []) JsMap.empty
  let deg0 : JsMap String ℕ := nodes.foldl (fun m n => m.set n 0) JsMap.empty
  let built := g.links.foldl
    (fun (acc : JsMap String (List String) × JsMap String ℕ × ℕ)
        (e : String × String) =>
      if e.1 ∈ nodes ∧ e.2 ∈ nodes then
        let a1 := acc.1.set e.1 (acc.1.getD e.1 [] ++ [e.2])
        let d1 := acc.2.1.set e.1 (acc.2.1.getD e.1 0 + 1)
        let step1 : JsMap String (List String) × JsMap String ℕ :=
          if ¬ e.1 = e.2 then
            (a1.set e.2 (a1.getD e.2 [] ++ [e.1]),
             d1.set e.2 (d1.getD e.2 0 + 1))
          else (a1, d1)
        (step1.1, step1.2, acc.2.2 + 1)
      else acc) (adj0, deg0, 0)
  ⟨nodes, g.links, built.1, built.2.1, built.2.2⟩

/-- One pass of the second variant's `optimizeModularity`, with the proper
gain formula relative to the current community. -/
def louvainPassV2 (graph : Worker.WGraph) (resolution : JsNum)
    (p : Worker.LouvPart) : Worker.LouvPart × Bool :=
  (sortStr graph.nodes).foldl (fun (acc : Worker.LouvPart × Bool) node =>
    let part := acc.1
    let nodeDegree := graph.degrees.getD node 0
    let currentNodeCommunity := part.ntc.getD node 0
    let nc := Worker.neighborCommunities graph.adj part.ntc node
    let kIinCurrent := nc.getD currentNodeCommunity 0
    let sigmaTotCurrent := part.sigmaTot.getD currentNodeCommunity 0
    let scan := nc.foldl (fun (bc : ℤ × JsNum) pr =>
      if pr.1 = currentNodeCommunity then bc
      else
        let sigmaTotTarget := part.sigmaTot.getD pr.1 0
        let gainLinks := JsNum.ofNat pr.2 - JsNum.ofNat kIinCurrent
        let gainDegrees := (resolution * JsNum.ofNat nodeDegree /
          JsNum.ofNat part.m2) *
          ((sigmaTotCurrent - JsNum.ofNat nodeDegree) - sigmaTotTarget)
        let netGain := gainLinks + gainDegrees
        if JsNum.ltB bc.2 netGain then (pr.1, netGain) else bc)
      (currentNodeCommunity, 0)
    if ¬ scan.1 = currentNodeCommunity then
      (Worker.moveNode graph.degrees part node scan.1, true)
    else (part, acc.2)) (p, false)

/-- The second variant's optimization loop; the fuel models the
`pass_count < 100` failsafe (100 at the top call). -/
def optimizeV2 (graph : Worker.WGraph) (resolution : JsNum) :
    ℕ → Worker.LouvPart → Worker.LouvPart
  | 0, p => p
  | fuel + 1, p =>
    let r := louvainPassV2 graph resolution p
    if r.2 then optimizeV2 graph resolution fuel r.1 else r.1

/-- The second variant's `aggregateCommunities`: community ids are compared
numerically (`comm1 <= comm2`) and intra-community edges are kept, producing
weighted self-keys. -/
def aggregateV2 (graph : Worker.WGraph) (p : Worker.LouvPart) : GraphData :=
  let communityIds := p.comms.keys
  let newNodes := communityIds.map (fun id => toString id)
  let communityWeights : JsMap String ℕ := graph.edges.foldl (fun m e =>
    let comm1 := p.ntc.getD e.1 0
    let comm2 := p.ntc.getD e.2 0
    let key := if comm1 ≤ comm2 then toString comm1 ++ "|" ++ toString comm2
      else toString comm2 ++ "|" ++ toString comm1
    m.set key (m.getD key 0 + 1)) JsMap.empty
  let newLinks := communityWeights.flatMap (fun pr =>
    List.replicate pr.2
      ((Worker.splitPipe pr.1).getD 0 "", (Worker.splitPipe pr.1).getD 1 ""))
  ⟨newNodes, newLinks⟩

end Worker2

/-- C9 counterexample: in the second worker variant, running Phase 1 on the
two-node graph a-b merges both nodes into one community, and
`aggregateCommunities` keeps the now-internal edge as the weighted self-edge
`("1", "1")` on the aggregated node instead of discarding it. -/
theorem C9_counterexample_v2_keeps_self_loop :
    (Worker2.aggregateV2 (Worker2.mkGraphV2 ⟨["a", "b"], [("a", "b")]⟩)
      (Worker2.optimizeV2 (Worker2.mkGraphV2 ⟨["a", "b"], [("a", "b")]⟩)
        (⟨1, 1⟩ : JsNum) 100
        (Worker.mkPartition (Worker2.mkGraphV2 ⟨["a", "b"], [("a", "b")]⟩).nodes
          (Worker2.mkGraphV2 ⟨["a", "b"], [("a", "b")]⟩).degrees
          (Worker2.mkGraphV2 ⟨["a", "b"], [("a", "b")]⟩).m))).links
      = [("1", "1")] := by
  decide

/-! ## Centrality Engine (src/utils/centrality.ts) -/

namespace Cent

structure GraphRepresentation where
  adj : JsMap String (List String)
  revAdj : JsMap String (List String)
  outDegrees : JsMap String ℕ

def buildGraphRepresentation (g : GraphData) (isDirected : Bool) :
    GraphRepresentation :=
  let adj0 : JsMap String (List String) :=
    g.nodes.foldl (fun m n => m.set n []) JsMap.empty
  let rev0 : JsMap String (List String) :=
    g.nodes.foldl (fun m n => m.set n []) JsMap.empty
  let deg0 : JsMap String ℕ := g.nodes.foldl (fun m n => m.set n 0) JsMap.empty
  g.links.foldl (fun rep e =>
    if rep.adj.hasKey e.1 ∧ rep.adj.hasKey e.2 then
      let rep1 : GraphRepresentation :=
        ⟨rep.adj.set e.1 (rep.adj.getD e.1 [] ++ [e.2]),
         rep.revAdj.set e.2 (rep.revAdj.getD e.2 [] ++ [e.1]),
         rep.outDegrees.set e.1 (rep.outDegrees.getD e.1 0 + 1)⟩
      if isDirected = false then
        ⟨rep1.adj.set e.2 (rep1.adj.getD e.2 [] ++ [e.1]),
         rep1.revAdj.set e.1 (rep1.revAdj.getD e.1 [] ++ [e.2]),
         rep1.outDegrees.set e.2 (rep1.outDegrees.getD e.2 0 + 1)⟩
      else rep1
    else rep) ⟨adj0, rev0, deg0⟩

def calculateInDegreeCentrality (g : GraphData) : List (String × JsNum) :=
  if g.nodes.length ≤ 1 then g.nodes.map (fun node => (node, (0 : JsNum)))
  else
    let deg0 : JsMap String ℕ := g.nodes.foldl (fun m n => m.set n 0) JsMap.empty
    let inDegrees := g.links.foldl (fun m e =>
      if m.hasKey e.2 then m.set e.2 (m.getD e.2 0 + 1) else m) deg0
    inDegrees.map (fun pr =>
      (pr.1, JsNum.ofNat pr.2 / JsNum.ofNat (g.nodes.length - 1)))

def calculateOutDegreeCentrality (g : GraphData) : List (String × JsNum) :=
  if g.nodes.length ≤ 1 then g.nodes.map (fun node => (node, (0 : JsNum)))
  else
    let deg0 : JsMap String ℕ := g.nodes.foldl (fun m n => m.set n 0) JsMap.empty
    let outDegrees := g.links.foldl (fun m e =>
      if m.hasKey e.1 then m.set e.1 (m.getD e.1 0 + 1) else m) deg0
    outDegrees.map (fun pr =>
      (pr.1, JsNum.ofNat pr.2 / JsNum.ofNat (g.nodes.length - 1)))

/-- Breadth-first accumulation for closeness: processes `(node, distance)`
queue entries, accumulating total distance and the reached-node count. -/
def closenessBFS (adjm : JsMap String (List String)) :
    ℕ → List (String × ℕ) → List String → ℕ × ℕ → ℕ × ℕ
  | 0, _, _, acc => acc
  | _ + 1, [], _, acc => acc
  | fuel + 1, (u, dist) :: rest, visited, acc =>
    let acc' := if 0 < dist then (acc.1 + dist, acc.2 + 1) else acc
    let res := (adjm.getD u []).foldl
      (fun (st : List (String × ℕ) × List String) v =>
        if v ∈ st.2 then st else (st.1 ++ [(v, dist + 1)], st.2 ++ [v]))
      (rest, visited)
    closenessBFS adjm fuel res.1 res.2 acc'

def calculateClosenessCentrality (g : GraphData) (isDirected : Bool) :
    List (String × JsNum) :=
  let rep := buildGraphRepresentation g isDirected
  g.nodes.map (fun startNode =>
    let r := closenessBFS rep.adj (g.nodes.length + g.links.length + 1)
      [(startNode, 0)] [startNode] (0, 0)
    let score : JsNum :=
      if 0 < r.1 ∧ 0 < r.2 then JsNum.ofNat r.2 / JsNum.ofNat r.1 else 0
    (startNode, score))

/-- Node-betweenness accumulation over the reversed Brandes stack. -/
def centAccum (P : JsMap String (List String)) (sigma : JsMap String ℤ)
    (s : String) : List String → JsMap String JsNum → JsMap String JsNum →
    JsMap String JsNum
  | [], bw, _ => bw
  | w :: ws, bw, delta =>
    let delta' := (P.getD w []).foldl
      (fun (dl : JsMap String JsNum) v =>
        let c : JsNum := (JsNum.ofInt (sigma.getD v 0) / JsNum.ofInt (sigma.getD w 0)) *
          (JsNum.ofNat 1 + dl.getD w 0)
        dl.set v (dl.getD v 0 + c)) delta
    let bw' := if ¬ w = s then bw.set w (bw.getD w 0 + delta'.getD w 0) else bw
    centAccum P sigma s ws bw' delta'

def calculateBetweennessCentrality (g : GraphData) (isDirected : Bool) :
    List (String × JsNum) :=
  let rep := buildGraphRepresentation g isDirected
  let bfsFuel := g.nodes.length + 1
  let bw0 : JsMap String JsNum :=
    g.nodes.foldl (fun m n => m.set n 0) JsMap.empty
  let bw := g.nodes.foldl (fun bwacc s =>
    let P0 : JsMap String (List String) :=
      g.nodes.foldl (fun m n => m.set n []) JsMap.empty
    let sigma0 : JsMap String ℤ :=
      (g.nodes.foldl (fun m n => m.set n 0) JsMap.empty).set s 1
    let d0 : JsMap String ℤ :=
      (g.nodes.foldl (fun m n => m.set n (-1)) JsMap.empty).set s 0
    let st := Worker.gnBrandesBFS rep.adj bfsFuel [s] ⟨[], P0, sigma0, d0⟩
    let delta0 : JsMap String JsNum :=
      g.nodes.foldl (fun m n => m.set n 0) JsMap.empty
    centAccum st.P st.sigma s st.S.reverse bwacc delta0) bw0
  let n := g.nodes.length
  let scale : JsNum :=
    if 2 < n then
      if isDirected then
        JsNum.ofNat 1 / (JsNum.ofNat (n - 1) * JsNum.ofNat (n - 2))
      else JsNum.ofNat 2 / (JsNum.ofNat (n - 1) * JsNum.ofNat (n - 2))
    else JsNum.ofNat 1
  bw.map (fun pr => (pr.1, pr.2 * scale))

def pageRankRankSum (revAdj : JsMap String (List String))
    (outDegrees : JsMap String ℕ) (ranks : JsMap String JsNum)
    (node : String) : JsNum :=
  (revAdj.getD node []).foldl (fun rs nb =>
    if 0 < outDegrees.getD nb 0 then
      rs + ranks.getD nb 0 / JsNum.ofNat (outDegrees.getD nb 0)
    else rs) 0

def pageRankDangling (nodes : List String) (outDegrees : JsMap String ℕ)
    (ranks : JsMap String JsNum) : JsNum :=
  nodes.foldl (fun s node =>
    if outDegrees.getD node 0 = 0 then s + ranks.getD node 0 else s) 0

/-- The per-node rank update for one power-iteration step. -/
def pageRankNewRank (revAdj : JsMap String (List String))
    (outDegrees : JsMap String ℕ) (damping : JsNum) (n : ℕ)
    (danglingSum : JsNum) (ranks : JsMap String JsNum) (node : String) : JsNum :=
  (JsNum.ofNat 1 - damping) / JsNum.ofNat n +
    damping * (pageRankRankSum revAdj outDegrees ranks node +
      danglingSum / JsNum.ofNat n)

/-- One power-iteration step: a fresh rank map plus the accumulated absolute
difference (the just-set `newRanks.get(node)` is the computed new rank). -/
def pageRankStep (nodes : List String) (revAdj : JsMap String (List String))
    (outDegrees : JsMap String ℕ) (damping : JsNum) (n : ℕ)
    (ranks : JsMap String JsNum) : JsMap String JsNum × JsNum :=
  let danglingSum := pageRankDangling nodes outDegrees ranks
  nodes.foldl (fun (acc : JsMap String JsNum × JsNum) node =>
    let newRank := pageRankNewRank revAdj outDegrees damping n danglingSum ranks node
    (acc.1.set node newRank, acc.2 + (newRank - ranks.getD node 0).abs))
    (JsMap.empty, 0)

def pageRankLoop (nodes : List String) (revAdj : JsMap String (List String))
    (outDegrees : JsMap String ℕ) (damping tolerance : JsNum) (n : ℕ) :
    ℕ → JsMap String JsNum → JsMap String JsNum
  | 0, ranks => ranks
  | fuel + 1, ranks =>
    let res := pageRankStep nodes revAdj outDegrees damping n ranks
    if JsNum.ltB res.2 tolerance then res.1
    else pageRankLoop nodes revAdj outDegrees damping tolerance n fuel res.1

def calculatePageRank (g : GraphData) (isDirected : Bool) (damping : JsNum)
    (maxIterations : ℕ) (tolerance : JsNum) : List (String × JsNum) :=
  let rep := buildGraphRepresentation g isDirected
  let n := g.nodes.length
  if n = 0 then []
  else
    let ranks0 : JsMap String JsNum := g.nodes.foldl
      (fun m node => m.set node (JsNum.ofNat 1 / JsNum.ofNat n)) JsMap.empty
    let ranks := pageRankLoop g.nodes rep.revAdj rep.outDegrees damping
      tolerance n maxIterations ranks0
    let totalRank := ranks.values.foldl (fun s r => s + r) 0
    if JsNum.ltB (1e-9 : JsNum) totalRank then
      ranks.map (fun pr => (pr.1, pr.2 / totalRank))
    else []

/-- HITS; `jsSqrt` is an oracle for the float `Math.sqrt`, whose values no
theorem below depends on. `|| 1` guards the zero norm. -/
def calculateHITS (jsSqrt : JsNum → JsNum) (g : GraphData) (isDirected : Bool)
    (maxIterations : ℕ) (tolerance : JsNum) :
    List (String × JsNum) × List (String × JsNum) :=
  let rep := buildGraphRepresentation g isDirected
  if g.nodes.length = 0 then ([], [])
  else
    let auth0 : JsMap String JsNum :=
      g.nodes.foldl (fun m n => m.set n 1) JsMap.empty
    let hub0 : JsMap String JsNum :=
      g.nodes.foldl (fun m n => m.set n 1) JsMap.empty
    let iter := fun (st : JsMap String JsNum × JsMap String JsNum) =>
      let lastAuth := st.1
      let a1 := g.nodes.foldl (fun (acc : JsMap String JsNum × JsNum) node =>
        let score := (rep.revAdj.getD node []).foldl
          (fun s nb => s + st.2.getD nb 0) 0
        (acc.1.set node score, acc.2 + score * score)) (st.1, 0)
      let authNorm := if (jsSqrt a1.2).valEq 0 then (1 : JsNum) else jsSqrt a1.2
      let auth : JsMap String JsNum := a1.1.map (fun pr => (pr.1, pr.2 / authNorm))
      let h1 := g.nodes.foldl (fun (acc : JsMap String JsNum × JsNum) node =>
        let score := (rep.adj.getD node []).foldl
          (fun s nb => s + JsMap.getD auth nb 0) 0
        (acc.1.set node score, acc.2 + score * score)) (st.2, 0)
      let hubNorm := if (jsSqrt h1.2).valEq 0 then (1 : JsNum) else jsSqrt h1.2
      let hub : JsMap String JsNum := h1.1.map (fun pr => (pr.1, pr.2 / hubNorm))
      let diff := g.nodes.foldl (fun d node =>
        d + (JsMap.getD auth node 0 - lastAuth.getD node 0).abs) (0 : JsNum)
      (auth, hub, diff)
    let rec loop : ℕ → JsMap String JsNum × JsMap String JsNum →
        JsMap String JsNum × JsMap String JsNum
      | 0, st => st
      | fuel + 1, st =>
        let r := iter st
        if JsNum.ltB r.2.2 tolerance then (r.1, r.2.1)
        else loop fuel (r.1, r.2.1)
    let final := loop maxIterations (auth0, hub0)
    (final.1, final.2)

/-- Output of the centrality dispatcher: either a score list or the HITS
authority/hub pair. -/
inductive CentralityOutput where
  | scores : List (String × JsNum) → CentralityOutput
  | hits : List (String × JsNum) → List (String × JsNum) → CentralityOutput
deriving DecidableEq

/-- The `calculateCentrality` dispatcher; the default branch returns an
empty score list without raising. -/
def calculateCentrality (jsSqrt : JsNum → JsNum) (g : GraphData)
    (algorithm : String) (isDirected : Bool) : CentralityOutput :=
  if algorithm = "入度中心性 (In-Degree)" then
    .scores (calculateInDegreeCentrality g)
  else if algorithm = "出度中心性 (Out-Degree)" then
    .scores (calculateOutDegreeCentrality g)
  else if algorithm = "接近中心性 (Closeness)" then
    .scores (calculateClosenessCentrality g isDirected)
  else if algorithm = "介数中心性 (Betweenness)" then
    .scores (calculateBetweennessCentrality g isDirected)
  else if algorithm = "PageRank" then
    .scores (calculatePageRank g isDirected (0.85 : JsNum) 100 (1e-6 : JsNum))
  else if algorithm = "HITS (Authority Score)" ∨ algorithm = "HITS (Hub Score)" then
    .hits (calculateHITS jsSqrt g isDirected 100 (1e-6 : JsNum)).1
      (calculateHITS jsSqrt g isDirected 100 (1e-6 : JsNum)).2
  else .scores []

end Cent

/-! ## Interpretation lemmas for `JsNum` -/

theorem JsNum.q_ofNat (n : ℕ) : (JsNum.ofNat n).q = n := by
  unfold JsNum.ofNat JsNum.q
  norm_num

theorem JsNum.q_ofInt (n : ℤ) : (JsNum.ofInt n).q = n := by
  unfold JsNum.ofInt JsNum.q
  norm_num

theorem JsNum.q_zero : (0 : JsNum).q = 0 := by
  show (JsNum.mk 0 1).q = 0
  unfold JsNum.q
  norm_num

theorem JsNum.posDen_ofNat (n : ℕ) : 0 < (JsNum.ofNat n).den := by
  unfold JsNum.ofNat
  norm_num

theorem JsNum.posDen_ofInt (n : ℤ) : 0 < (JsNum.ofInt n).den := by
  unfold JsNum.ofInt
  norm_num

theorem JsNum.posDen_zero : 0 < (0 : JsNum).den := by
  show (0 : ℤ) < 1
  norm_num

theorem JsNum.posDen_add {x y : JsNum} (hx : 0 < x.den) (hy : 0 < y.den) :
    0 < (x + y).den := by
  show 0 < (JsNum.add x y).den
  unfold JsNum.add
  exact mul_pos hx hy

theorem JsNum.posDen_mul {x y : JsNum} (hx : 0 < x.den) (hy : 0 < y.den) :
    0 < (x * y).den := by
  show 0 < (JsNum.mul x y).den
  unfold JsNum.mul
  exact mul_pos hx hy

theorem JsNum.posDen_sub {x y : JsNum} (hx : 0 < x.den) (hy : 0 < y.den) :
    0 < (x - y).den := by
  show 0 < (JsNum.sub x y).den
  unfold JsNum.sub JsNum.add JsNum.neg
  exact mul_pos hx hy

theorem JsNum.posDen_div {x y : JsNum} (hx : 0 < x.den) (hy : y.num ≠ 0) :
    0 < (x / y).den := by
  show 0 < (JsNum.div x y).den
  unfold JsNum.div
  split
  · next h =>
    rcases lt_or_eq_of_le h with h' | h'
    · exact mul_pos hx h'
    · exact absurd h'.symm hy
  · next h =>
    push_neg at h
    simp only
    have : 0 < -y.num := by linarith
    exact mul_pos hx this

theorem JsNum.posDen_abs {x : JsNum} (hx : 0 < x.den) : 0 < (x.abs).den := hx

theorem JsNum.q_add {x y : JsNum} (hx : 0 < x.den) (hy : 0 < y.den) :
    (x + y).q = x.q + y.q := by
  show (JsNum.add x y).q = x.q + y.q
  unfold JsNum.add JsNum.q
  have hx' : (x.den : ℚ) ≠ 0 := by exact_mod_cast hx.ne'
  have hy' : (y.den : ℚ) ≠ 0 := by exact_mod_cast hy.ne'
  field_simp
  try ring

theorem JsNum.q_neg (x : JsNum) : (JsNum.neg x).q = -x.q := by
  unfold JsNum.neg JsNum.q
  push_cast
  rw [neg_div]

theorem JsNum.q_sub {x y : JsNum} (hx : 0 < x.den) (hy : 0 < y.den) :
    (x - y).q = x.q - y.q := by
  show (JsNum.add x (JsNum.neg y)).q = x.q - y.q
  have hy' : 0 < (JsNum.neg y).den := hy
  have h1 : (x + JsNum.neg y).q = x.q + (JsNum.neg y).q := JsNum.q_add hx hy'
  rw [show (JsNum.add x (JsNum.neg y)).q = (x + JsNum.neg y).q from rfl, h1,
    JsNum.q_neg]
  ring

theorem JsNum.q_mul (x y : JsNum) : (x * y).q = x.q * y.q := by
  show (JsNum.mul x y).q = x.q * y.q
  unfold JsNum.mul JsNum.q
  push_cast
  rw [div_mul_div_comm]

theorem JsNum.q_div (x y : JsNum) : (x / y).q = x.q / y.q := by
  show (JsNum.div x y).q = x.q / y.q
  unfold JsNum.div JsNum.q
  split
  · simp only
    push_cast
    rw [div_div_div_eq]
  · simp only
    push_cast
    rw [div_div_div_eq]
    rw [mul_neg, div_neg, neg_div, neg_neg]

theorem JsMap.set_eq_append {K V : Type} [DecidableEq K] (m : JsMap K V) (k : K)
    (v : V) (h : k ∉ m.keys) : m.set k v = m ++ [(k, v)] := by
  induction m with
  | nil => rfl
  | cons p rest ih =>
    obtain ⟨k', v'⟩ := p
    simp only [JsMap.keys, List.map_cons, List.mem_cons] at h
    push_neg at h
    show JsMap.set ((k', v') :: rest) k v = _
    unfold JsMap.set
    rw [if_neg (fun hc => h.1 hc.symm)]
    rw [List.cons_append]
    congr 1
    exact ih (by simpa [JsMap.keys] using h.2)

theorem JsMap.foldl_set_shape {V : Type} (F : String → V) :
    ∀ (l : List String) (m0 : JsMap String V), l.Nodup →
    (∀ x ∈ l, x ∉ m0.keys) →
    l.foldl (fun m node => m.set node (F node)) m0 =
      m0 ++ l.map (fun node => (node, F node))
  | [], m0 => by
    intro _ _
    simp
  | n :: rest, m0 => by
    intro hnd hdis
    rw [List.foldl_cons]
    have hn : n ∉ m0.keys := hdis n (List.mem_cons_self _ _)
    rw [JsMap.foldl_set_shape F rest (m0.set n (F n)) (List.nodup_cons.mp hnd).2]
    · rw [JsMap.set_eq_append m0 n (F n) hn]
      simp [List.map_cons]
    · intro x hx
      rw [JsMap.set_eq_append m0 n (F n) hn]
      simp only [JsMap.keys, List.map_append, List.mem_append]
      rintro (hmem | hmem)
      · exact hdis x (List.mem_cons_of_mem _ hx) hmem
      · simp at hmem
        rw [hmem] at hx
        exact (List.nodup_cons.mp hnd).1 hx

theorem JsMap.foldl_set_pair_fst {V D : Type} (F : String → V) (G : D → String → D) :
    ∀ (l : List String) (m0 : JsMap String V) (d0 : D), l.Nodup →
    (∀ x ∈ l, x ∉ m0.keys) →
    (l.foldl (fun (acc : JsMap String V × D) node =>
      (acc.1.set node (F node), G acc.2 node)) (m0, d0)).1 =
      m0 ++ l.map (fun node => (node, F node))
  | [], m0, d0 => by
    intro _ _
    simp
  | n :: rest, m0, d0 => by
    intro hnd hdis
    rw [List.foldl_cons]
    have hn : n ∉ m0.keys := hdis n (List.mem_cons_self _ _)
    rw [JsMap.foldl_set_pair_fst F G rest (m0.set n (F n)) (G d0 n)
      (List.nodup_cons.mp hnd).2]
    · rw [JsMap.set_eq_append m0 n (F n) hn]
      simp [List.map_cons]
    · intro x hx
      rw [JsMap.set_eq_append m0 n (F n) hn]
      simp only [JsMap.keys, List.map_append, List.mem_append]
      rintro (hmem | hmem)
      · exact hdis x (List.mem_cons_of_mem _ hx) hmem
      · simp at hmem
        rw [hmem] at hx
        exact (List.nodup_cons.mp hnd).1 hx

namespace Cent

/-- Shape of one power-iteration step: a fresh map with one entry per node in
node-list order, holding the per-node updated rank. -/
theorem pageRankStep_fst (nodes : List String) (revAdj : JsMap String (List String))
    (outDegrees : JsMap String ℕ) (damping : JsNum) (n : ℕ)
    (ranks : JsMap String JsNum) (hnd : nodes.Nodup) :
    (pageRankStep nodes revAdj outDegrees damping n ranks).1 =
      nodes.map (fun node => (node,
        pageRankNewRank revAdj outDegrees damping n
          (pageRankDangling nodes outDegrees ranks) ranks node)) := by
  show (nodes.foldl (fun (acc : JsMap String JsNum × JsNum) node =>
      (acc.1.set node (pageRankNewRank revAdj outDegrees damping n
        (pageRankDangling nodes outDegrees ranks) ranks node),
       (fun d node => d + (pageRankNewRank revAdj outDegrees damping n
        (pageRankDangling nodes outDegrees ranks) ranks node -
          ranks.getD node 0).abs) acc.2 node)) (JsMap.empty, 0)).1 = _
  have h := JsMap.foldl_set_pair_fst
    (fun node => pageRankNewRank revAdj outDegrees damping n
      (pageRankDangling nodes outDegrees ranks) ranks node)
    (fun d node => d + (pageRankNewRank revAdj outDegrees damping n
      (pageRankDangling nodes outDegrees ranks) ranks node -
        ranks.getD node 0).abs)
    nodes JsMap.empty 0 hnd (by intro x _; simp [JsMap.empty, JsMap.keys])
  exact h.trans (by simp [JsMap.empty])

end Cent

namespace Cent

theorem getD_bound {r : JsMap String JsNum}
    (h : ∀ pr ∈ r, 0 < pr.2.den ∧ 0 ≤ pr.2.q) (k : String) :
    0 < (r.getD k (0 : JsNum)).den ∧ 0 ≤ (r.getD k (0 : JsNum)).q := by
  unfold JsMap.getD JsMap.get
  cases hf : List.find? (fun p => p.1 = k) r with
  | none =>
    exact ⟨JsNum.posDen_zero, le_of_eq JsNum.q_zero.symm⟩
  | some p =>
    exact h p (List.mem_of_find?_eq_some hf)

theorem pageRankDangling_bound (nodes : List String) (out : JsMap String ℕ)
    (r : JsMap String JsNum) (h : ∀ pr ∈ r, 0 < pr.2.den ∧ 0 ≤ pr.2.q) :
    0 < (pageRankDangling nodes out r).den ∧ 0 ≤ (pageRankDangling nodes out r).q := by
  unfold pageRankDangling
  suffices hgen : ∀ (l : List String) (z : JsNum), 0 < z.den → 0 ≤ z.q →
      0 < (l.foldl (fun s node =>
        if out.getD node 0 = 0 then s + r.getD node 0 else s) z).den ∧
      0 ≤ (l.foldl (fun s node =>
        if out.getD node 0 = 0 then s + r.getD node 0 else s) z).q by
    exact hgen nodes 0 JsNum.posDen_zero (le_of_eq JsNum.q_zero.symm)
  intro l
  induction l with
  | nil => intro z hz1 hz2; exact ⟨hz1, hz2⟩
  | cons nd rest ih =>
    intro z hz1 hz2
    rw [List.foldl_cons]
    by_cases hc : out.getD nd 0 = 0
    · rw [if_pos hc]
      obtain ⟨hd1, hd2⟩ := getD_bound h nd
      refine ih _ (JsNum.posDen_add hz1 hd1) ?_
      rw [JsNum.q_add hz1 hd1]
      linarith
    · rw [if_neg hc]
      exact ih z hz1 hz2

theorem pageRankRankSum_bound (revAdj : JsMap String (List String))
    (out : JsMap String ℕ) (r : JsMap String JsNum)
    (h : ∀ pr ∈ r, 0 < pr.2.den ∧ 0 ≤ pr.2.q) (node : String) :
    0 < (pageRankRankSum revAdj out r node).den ∧
      0 ≤ (pageRankRankSum revAdj out r node).q := by
  unfold pageRankRankSum
  suffices hgen : ∀ (l : List String) (z : JsNum), 0 < z.den → 0 ≤ z.q →
      0 < (l.foldl (fun rs nb =>
        if 0 < out.getD nb 0 then rs + r.getD nb 0 / JsNum.ofNat (out.getD nb 0)
        else rs) z).den ∧
      0 ≤ (l.foldl (fun rs nb =>
        if 0 < out.getD nb 0 then rs + r.getD nb 0 / JsNum.ofNat (out.getD nb 0)
        else rs) z).q by
    exact hgen _ 0 JsNum.posDen_zero (le_of_eq JsNum.q_zero.symm)
  intro l
  induction l with
  | nil => intro z hz1 hz2; exact ⟨hz1, hz2⟩
  | cons nb rest ih =>
    intro z hz1 hz2
    rw [List.foldl_cons]
    by_cases hc : 0 < out.getD nb 0
    · rw [if_pos hc]
      obtain ⟨hd1, hd2⟩ := getD_bound h nb
      have hnum : (JsNum.ofNat (out.getD nb 0)).num ≠ 0 := by
        unfold JsNum.ofNat
        simpa using hc.ne'
      have hq1 : 0 < (r.getD nb 0 / JsNum.ofNat (out.getD nb 0)).den :=
        JsNum.posDen_div hd1 hnum
      refine ih _ (JsNum.posDen_add hz1 hq1) ?_
      rw [JsNum.q_add hz1 hq1, JsNum.q_div]
      have : 0 ≤ (r.getD nb 0).q / (JsNum.ofNat (out.getD nb 0)).q := by
        apply div_nonneg hd2
        rw [JsNum.q_ofNat]
        positivity
      linarith
    · rw [if_neg hc]
      exact ih z hz1 hz2

theorem pageRankNewRank_bound (revAdj : JsMap String (List String))
    (out : JsMap String ℕ) (n : ℕ) (hn : 0 < n) (ds : JsNum)
    (hds1 : 0 < ds.den) (hds2 : 0 ≤ ds.q) (r : JsMap String JsNum)
    (h : ∀ pr ∈ r, 0 < pr.2.den ∧ 0 ≤ pr.2.q) (node : String) :
    0 < (pageRankNewRank revAdj out (0.85 : JsNum) n ds r node).den ∧
      (15 / 100 : ℚ) / n ≤ (pageRankNewRank revAdj out (0.85 : JsNum) n ds r node).q := by
  have h085 : (0.85 : JsNum) = ⟨85, 100⟩ := by decide
  have h085d : 0 < (0.85 : JsNum).den := by rw [h085]; norm_num
  have h085q : (0.85 : JsNum).q = 85 / 100 := by
    rw [h085]
    unfold JsNum.q
    norm_num
  obtain ⟨hrs1, hrs2⟩ := pageRankRankSum_bound revAdj out r h node
  have hnn : (JsNum.ofNat n).num ≠ 0 := by
    unfold JsNum.ofNat
    simpa using hn.ne'
  have hsub1 : 0 < (JsNum.ofNat 1 - (0.85 : JsNum)).den :=
    JsNum.posDen_sub (JsNum.posDen_ofNat 1) h085d
  have hdiv1 : 0 < ((JsNum.ofNat 1 - (0.85 : JsNum)) / JsNum.ofNat n).den :=
    JsNum.posDen_div hsub1 hnn
  have hdsn : 0 < (ds / JsNum.ofNat n).den := JsNum.posDen_div hds1 hnn
  have hsum1 : 0 < (pageRankRankSum revAdj out r node + ds / JsNum.ofNat n).den :=
    JsNum.posDen_add hrs1 hdsn
  have hmul1 : 0 < ((0.85 : JsNum) *
      (pageRankRankSum revAdj out r node + ds / JsNum.ofNat n)).den :=
    JsNum.posDen_mul h085d hsum1
  constructor
  · exact JsNum.posDen_add hdiv1 hmul1
  · unfold pageRankNewRank
    rw [JsNum.q_add hdiv1 hmul1, JsNum.q_div, JsNum.q_mul,
      JsNum.q_add hrs1 hdsn, JsNum.q_div, JsNum.q_sub (JsNum.posDen_ofNat 1) h085d,
      JsNum.q_ofNat, JsNum.q_ofNat, h085q]
    have hnq : (0 : ℚ) < n := by exact_mod_cast hn
    have hterm : 0 ≤ (85 / 100 : ℚ) *
        ((pageRankRankSum revAdj out r node).q + ds.q / n) := by
      apply mul_nonneg (by norm_num)
      have : 0 ≤ ds.q / (n : ℚ) := div_nonneg hds2 (le_of_lt hnq)
      linarith
    have heq : ((1 : ℚ) - 85 / 100) / n = (15 / 100 : ℚ) / n := by norm_num
    linarith [heq]

end Cent

namespace Cent

theorem pageRankLoop_zero (nodes : List String) (revAdj : JsMap String (List String))
    (out : JsMap String ℕ) (damping tol : JsNum) (n : ℕ) (r : JsMap String JsNum) :
    pageRankLoop nodes revAdj out damping tol n 0 r = r := rfl

theorem pageRankLoop_succ (nodes : List String) (revAdj : JsMap String (List String))
    (out : JsMap String ℕ) (damping tol : JsNum) (n fuel : ℕ) (r : JsMap String JsNum) :
    pageRankLoop nodes revAdj out damping tol n (fuel + 1) r =
      if JsNum.ltB (pageRankStep nodes revAdj out damping n r).2 tol
      then (pageRankStep nodes revAdj out damping n r).1
      else pageRankLoop nodes revAdj out damping tol n fuel
        (pageRankStep nodes revAdj out damping n r).1 := rfl

theorem pageRankStep_inv (nodes : List String) (revAdj : JsMap String (List String))
    (out : JsMap String ℕ) (r : JsMap String JsNum) (hnd : nodes.Nodup)
    (hn : 0 < nodes.length) (h : ∀ pr ∈ r, 0 < pr.2.den ∧ 0 ≤ pr.2.q) :
    (pageRankStep nodes revAdj out (0.85 : JsNum) nodes.length r).1.keys = nodes ∧
    ∀ pr ∈ (pageRankStep nodes revAdj out (0.85 : JsNum) nodes.length r).1,
      0 < pr.2.den ∧ (15 / 100 : ℚ) / nodes.length ≤ pr.2.q := by
  rw [pageRankStep_fst nodes revAdj out (0.85 : JsNum) nodes.length r hnd]
  obtain ⟨hd1, hd2⟩ := pageRankDangling_bound nodes out r h
  constructor
  · simp only [JsMap.keys, List.map_map]
    exact List.map_congr_left (fun x _ => rfl) |>.trans (List.map_id _)
  · intro pr hpr
    simp only [List.mem_map] at hpr
    obtain ⟨node, hnode, hpr⟩ := hpr
    rw [← hpr]
    exact pageRankNewRank_bound revAdj out nodes.length hn _ hd1 hd2 r h node

theorem pageRankLoop_inv (nodes : List String) (revAdj : JsMap String (List String))
    (out : JsMap String ℕ) (tol : JsNum) (hnd : nodes.Nodup) (hn : 0 < nodes.length) :
    ∀ (fuel : ℕ) (r : JsMap String JsNum),
      (∀ pr ∈ r, 0 < pr.2.den ∧ 0 ≤ pr.2.q) →
      (pageRankLoop nodes revAdj out (0.85 : JsNum) tol nodes.length (fuel + 1) r).keys
        = nodes ∧
      ∀ pr ∈ pageRankLoop nodes revAdj out (0.85 : JsNum) tol nodes.length (fuel + 1) r,
        0 < pr.2.den ∧ (15 / 100 : ℚ) / nodes.length ≤ pr.2.q := by
  intro fuel
  induction fuel with
  | zero =>
    intro r h
    have hstep := pageRankStep_inv nodes revAdj out r hnd hn h
    rw [pageRankLoop_succ]
    by_cases hc : JsNum.ltB
        (pageRankStep nodes revAdj out (0.85 : JsNum) nodes.length r).2 tol = true
    · rw [if_pos hc]
      exact hstep
    · rw [if_neg hc, pageRankLoop_zero]
      exact hstep
  | succ fuel ih =>
    intro r h
    have hstep := pageRankStep_inv nodes revAdj out r hnd hn h
    rw [pageRankLoop_succ]
    by_cases hc : JsNum.ltB
        (pageRankStep nodes revAdj out (0.85 : JsNum) nodes.length r).2 tol = true
    · rw [if_pos hc]
      exact hstep
    · rw [if_neg hc]
      apply ih
      intro pr hpr
      obtain ⟨h1, h2⟩ := hstep.2 pr hpr
      refine ⟨h1, le_trans ?_ h2⟩
      positivity

end Cent

theorem JsNum.foldl_add_q : ∀ (l : List JsNum) (z : JsNum), 0 < z.den →
    (∀ x ∈ l, 0 < x.den) →
    0 < (l.foldl (fun s r => s + r) z).den ∧
    (l.foldl (fun s r => s + r) z).q = z.q + (l.map JsNum.q).sum
  | [], z => by
    intro hz _
    refine ⟨hz, ?_⟩
    simp
  | x :: rest, z => by
    intro hz hl
    have hx : 0 < x.den := hl x (List.mem_cons_self _ _)
    rw [List.foldl_cons]
    obtain ⟨h1, h2⟩ := JsNum.foldl_add_q rest (z + x) (JsNum.posDen_add hz hx)
      (fun y hy => hl y (List.mem_cons_of_mem _ hy))
    refine ⟨h1, ?_⟩
    rw [h2, JsNum.q_add hz hx]
    simp only [List.map_cons, List.sum_cons]
    ring

theorem list_sum_map_div (l : List ℚ) (c : ℚ) :
    (l.map (fun x => x / c)).sum = l.sum / c := by
  induction l with
  | nil => simp
  | cons x rest ih => simp [List.map_cons, List.sum_cons, ih, add_div]

theorem list_le_sum_of_forall_le (c : ℚ) : ∀ (l : List ℚ), (∀ x ∈ l, c ≤ x) →
    (l.length : ℚ) * c ≤ l.sum
  | [] => by simp
  | x :: rest => by
    intro h
    have hx := h x (List.mem_cons_self _ _)
    have hr := list_le_sum_of_forall_le c rest
      (fun y hy => h y (List.mem_cons_of_mem _ hy))
    simp only [List.length_cons, List.sum_cons]
    push_cast
    linarith

namespace Cent

theorem pageRank_post (r : JsMap String JsNum) (m : ℕ) (hm : 0 < m)
    (hlen : r.length = m)
    (h : ∀ pr ∈ r, 0 < pr.2.den ∧ (15 / 100 : ℚ) / m ≤ pr.2.q)
    (t : JsNum) (htdef : t = r.values.foldl (fun s x => s + x) 0) :
    (if JsNum.ltB (1e-9 : JsNum) t
      then r.map (fun pr => (pr.1, pr.2 / t))
      else []) ≠ [] ∧
    ((if JsNum.ltB (1e-9 : JsNum) t
      then r.map (fun pr => (pr.1, pr.2 / t))
      else []).map (fun pr => pr.2.q)).sum = 1 := by
  have hq0 : ∀ pr ∈ r, 0 ≤ pr.2.q := by
    intro pr hpr
    have hmq : (0 : ℚ) < m := by exact_mod_cast hm
    have := (h pr hpr).2
    have hnn : (0 : ℚ) ≤ (15 / 100 : ℚ) / m := by positivity
    linarith
  have hvden : ∀ x ∈ r.values, 0 < x.den := by
    intro x hx
    simp only [JsMap.values, List.mem_map] at hx
    obtain ⟨pr, hpr, hx⟩ := hx
    rw [← hx]
    exact (h pr hpr).1
  obtain ⟨ht1, ht2⟩ := JsNum.foldl_add_q r.values 0 JsNum.posDen_zero hvden
  rw [← htdef] at ht1 ht2
  rw [JsNum.q_zero, zero_add] at ht2
  have hlb : (15 / 100 : ℚ) ≤ t.q := by
    rw [ht2]
    have hforall : ∀ x ∈ r.values.map JsNum.q, (15 / 100 : ℚ) / m ≤ x := by
      intro x hx
      simp only [JsMap.values, List.map_map, List.mem_map] at hx
      obtain ⟨pr, hpr, hx⟩ := hx
      rw [← hx]
      exact (h pr hpr).2
    have hsum := list_le_sum_of_forall_le ((15 / 100 : ℚ) / m)
      (r.values.map JsNum.q) hforall
    have hlen2 : (r.values.map JsNum.q).length = m := by
      simp [JsMap.values, hlen]
    rw [hlen2] at hsum
    have hm' : (m : ℚ) ≠ 0 := by
      exact_mod_cast hm.ne'
    have hmul : (m : ℚ) * ((15 / 100 : ℚ) / m) = 15 / 100 := by
      field_simp
      ring
    rw [hmul] at hsum
    exact hsum
  have h19d : 0 < (1e-9 : JsNum).den := by decide
  have h19q : (1e-9 : JsNum).q = 1 / 1000000000 := by
    have he : (1e-9 : JsNum) = ⟨1, 1000000000⟩ := by decide
    rw [he]
    unfold JsNum.q
    norm_num
  have hguard : JsNum.ltB (1e-9 : JsNum) t = true := by
    rw [JsNum.ltB_iff h19d ht1, h19q]
    linarith
  rw [if_pos hguard]
  have hrne : r ≠ [] := by
    intro hr
    rw [hr] at hlen
    simp at hlen
    omega
  constructor
  · simp [hrne]
  · rw [List.map_map]
    have hcong : r.map ((fun pr : String × JsNum => pr.2.q) ∘
        (fun pr => (pr.1, pr.2 / t))) = r.map (fun pr => pr.2.q / t.q) := by
      apply List.map_congr_left
      intro pr _
      simp [Function.comp, JsNum.q_div]
    rw [hcong]
    have hmm : r.map (fun pr : String × JsNum => pr.2.q / t.q) =
        (r.map (fun pr : String × JsNum => pr.2.q)).map (fun x => x / t.q) := by
      rw [List.map_map]
      rfl
    rw [hmm, list_sum_map_div]
    have hsum_eq : (r.map (fun pr : String × JsNum => pr.2.q)).sum = t.q := by
      rw [ht2, JsMap.values, List.map_map]
      rfl
    rw [hsum_eq]
    have htpos : 0 < t.q := lt_of_lt_of_le (by norm_num) hlb
    field_simp

end Cent

/-- C3: for every non-empty graph with distinct node ids, `calculatePageRank`
returns a non-empty score list whose rational values sum to exactly 1: every
rank stays at least `(1-damping)/n`, so the total exceeds the `1e-9` guard and
the final division renormalizes the scores to total 1. -/
theorem C3_pagerank_sum_one (g : GraphData) (isDirected : Bool)
    (hne : g.nodes ≠ []) (hnd : g.nodes.Nodup) :
    Cent.calculatePageRank g isDirected (0.85 : JsNum) 100 (1e-6 : JsNum) ≠ [] ∧
    ((Cent.calculatePageRank g isDirected (0.85 : JsNum) 100 (1e-6 : JsNum)).map
      (fun pr => pr.2.q)).sum = 1 := by
  have hn0 : ¬ (g.nodes.length = 0) := by
    intro h
    exact hne (List.length_eq_zero.mp h)
  have hn : 0 < g.nodes.length := Nat.pos_of_ne_zero hn0
  have h0 : ∀ pr ∈ (g.nodes.foldl (fun m node =>
      m.set node (JsNum.ofNat 1 / JsNum.ofNat g.nodes.length)) JsMap.empty :
        JsMap String JsNum), 0 < pr.2.den ∧ 0 ≤ pr.2.q := by
    rw [JsMap.foldl_set_shape (fun _ => JsNum.ofNat 1 / JsNum.ofNat g.nodes.length)
      g.nodes JsMap.empty hnd (by intro x _; simp [JsMap.empty, JsMap.keys])]
    intro pr hpr
    simp only [JsMap.empty, List.nil_append, List.mem_map] at hpr
    obtain ⟨node, _, hpr⟩ := hpr
    rw [← hpr]
    have hnum : (JsNum.ofNat g.nodes.length).num ≠ 0 := by
      unfold JsNum.ofNat
      simpa using hn.ne'
    constructor
    · exact JsNum.posDen_div (JsNum.posDen_ofNat 1) hnum
    · rw [JsNum.q_div, JsNum.q_ofNat, JsNum.q_ofNat]
      positivity
  obtain ⟨hkeys, hvals⟩ := Cent.pageRankLoop_inv g.nodes
    (Cent.buildGraphRepresentation g isDirected).revAdj
    (Cent.buildGraphRepresentation g isDirected).outDegrees (1e-6 : JsNum) hnd hn 99
    (g.nodes.foldl (fun m node =>
      m.set node (JsNum.ofNat 1 / JsNum.ofNat g.nodes.length)) JsMap.empty) h0
  simp only [show (99 : ℕ) + 1 = 100 from rfl] at hkeys hvals
  have hlen : (Cent.pageRankLoop g.nodes
      (Cent.buildGraphRepresentation g isDirected).revAdj
      (Cent.buildGraphRepresentation g isDirected).outDegrees (0.85 : JsNum)
      (1e-6 : JsNum) g.nodes.length 100
      (g.nodes.foldl (fun m node =>
        m.set node (JsNum.ofNat 1 / JsNum.ofNat g.nodes.length))
        JsMap.empty)).length = g.nodes.length := by
    have hh := congrArg List.length hkeys
    simpa [JsMap.keys] using hh
  have hpost := Cent.pageRank_post _ g.nodes.length hn hlen hvals _ rfl
  unfold Cent.calculatePageRank
  simp only [if_neg hn0]
  exact hpost

/-- Closed witness for C3 on the two-node graph a—b. -/
theorem C3_witness :
    (["a", "b"] : List String) ≠ [] ∧ (["a", "b"] : List String).Nodup ∧
    Cent.calculatePageRank ⟨["a", "b"], [("a", "b")]⟩ false
      (0.85 : JsNum) 100 (1e-6 : JsNum) ≠ [] ∧
    ((Cent.calculatePageRank ⟨["a", "b"], [("a", "b")]⟩ false
      (0.85 : JsNum) 100 (1e-6 : JsNum)).map (fun pr => pr.2.q)).sum = 1 :=
  ⟨by decide, by decide,
   C3_pagerank_sum_one ⟨["a", "b"], [("a", "b")]⟩ false (by decide) (by decide)⟩

namespace Worker

/-- The worker's `onmessage` dispatcher (first variant): a thrown error is
modelled as `Except.error`, whose message the `catch` posts back verbatim as
the `ERROR` payload. The fuel parameter stands in for the source's unbounded
Louvain improvement loop. -/
def detectCommunities (g : GraphData) (algorithm : String) (resolution : JsNum)
    (targetCommunities louvainFuel : ℕ) :
    Except String (List (String × ℕ)) :=
  let graph := mkGraph g
  if algorithm = "Louvain 算法" then
    Except.ok (runLouvainV1 graph resolution louvainFuel)
  else if algorithm = "Girvan-Newman 算法" then
    if 100 < graph.nodes.length then
      Except.error "Girvan-Newman 算法对于超过100个节点的图来说太慢了。请选择一个更小的网络或不同的算法。"
    else Except.ok (runGirvanNewman graph targetCommunities)
  else if algorithm = "标签传播算法" then
    Except.ok (runLabelPropagation graph)
  else Except.error ("选择了未知的算法: " ++ algorithm)

end Worker

/-- C10 counterexample: an unknown centrality selector does not raise — the
dispatcher's default branch returns a normal empty score list. Likewise an
unknown link-prediction selector on a graph with fewer than two nodes
returns a normal empty result, because the size guard precedes the selector
switch. -/
theorem C10_counterexample_unknown_selector_empty :
    Cent.calculateCentrality (fun _ => 0) ⟨["a", "b"], [("a", "b")]⟩ "bogus" false =
      Cent.CentralityOutput.scores [] ∧
    LP.calculateLinkPrediction (fun _ => 0) ⟨["a"], []⟩ "bogus" = Except.ok [] :=
  ⟨rfl, rfl⟩

/-- C10 amended: only the community-detection worker raises on every unknown
selector. Link prediction raises only when the graph has at least two nodes
(otherwise the size guard returns an empty list first), and the centrality
dispatcher never raises — its default branch returns an empty score list. -/
theorem C10_unknown_selector_behaviour (algorithm : String) (g g2 : GraphData)
    (h1 : algorithm ≠ "Louvain 算法") (h2 : algorithm ≠ "Girvan-Newman 算法")
    (h3 : algorithm ≠ "标签传播算法")
    (h4 : algorithm ≠ "共同邻居") (h5 : algorithm ≠ "杰卡德系数")
    (h6 : algorithm ≠ "阿达姆/阿达尔指数") (h7 : algorithm ≠ "优先连接")
    (h8 : algorithm ≠ "入度中心性 (In-Degree)")
    (h9 : algorithm ≠ "出度中心性 (Out-Degree)")
    (h10 : algorithm ≠ "接近中心性 (Closeness)")
    (h11 : algorithm ≠ "介数中心性 (Betweenness)")
    (h12 : algorithm ≠ "PageRank")
    (h13 : algorithm ≠ "HITS (Authority Score)")
    (h14 : algorithm ≠ "HITS (Hub Score)")
    (hg2 : 2 ≤ g2.nodes.length)
    (resolution : JsNum) (target fuel : ℕ) (jsLn jsSqrt : JsNum → JsNum)
    (dir : Bool) :
    Worker.detectCommunities g algorithm resolution target fuel =
      Except.error ("选择了未知的算法: " ++ algorithm) ∧
    LP.calculateLinkPrediction jsLn g2 algorithm =
      Except.error ("未知的链路预测算法: " ++ algorithm) ∧
    Cent.calculateCentrality jsSqrt g algorithm dir =
      Cent.CentralityOutput.scores [] := by
  refine ⟨?_, ?_, ?_⟩
  · unfold Worker.detectCommunities
    simp only [if_neg h1, if_neg h2, if_neg h3]
  · unfold LP.calculateLinkPrediction
    simp only [if_neg (Nat.not_lt.mpr hg2), if_neg h4, if_neg h5, if_neg h6,
      if_neg h7]
  · unfold Cent.calculateCentrality
    simp only [if_neg h8, if_neg h9, if_neg h10, if_neg h11, if_neg h12,
      if_neg (not_or.mpr ⟨h13, h14⟩)]

/-- Closed witness for C10 at the selector "bogus". -/
theorem C10_witness :
    Worker.detectCommunities ⟨["a"], []⟩ "bogus" ⟨1, 1⟩ 2 4 =
      Except.error ("选择了未知的算法: " ++ "bogus") ∧
    LP.calculateLinkPrediction (fun _ => 0) ⟨["a", "b"], []⟩ "bogus" =
      Except.error ("未知的链路预测算法: " ++ "bogus") ∧
    Cent.calculateCentrality (fun _ => 0) ⟨["a"], []⟩ "bogus" false =
      Cent.CentralityOutput.scores [] :=
  C10_unknown_selector_behaviour "bogus" ⟨["a"], []⟩ ⟨["a", "b"], []⟩
    (by decide) (by decide) (by decide) (by decide) (by decide) (by decide)
    (by decide) (by decide) (by decide) (by decide) (by decide) (by decide)
    (by decide) (by decide) (by decide) ⟨1, 1⟩ 2 4 (fun _ => 0) (fun _ => 0)
    false

/-! ## Decimal representation of naturals: digit facts, injectivity,
pipe-freeness — needed to analyse the aggregation key strings
`counter.toString() + "|" + counter.toString()` -/

def parse10Acc (a : ℕ) (l : List Char) : ℕ :=
  l.foldl (fun acc c => acc * 10 + (c.toNat - 48)) a

theorem parse10Acc_nil (a : ℕ) : parse10Acc a [] = a := rfl

theorem parse10Acc_single (a : ℕ) (c : Char) :
    parse10Acc a [c] = a * 10 + (c.toNat - 48) := rfl

theorem parse10Acc_append (a : ℕ) (l1 l2 : List Char) :
    parse10Acc a (l1 ++ l2) = parse10Acc (parse10Acc a l1) l2 := by
  unfold parse10Acc
  rw [List.foldl_append]

theorem digitChar_toNat (d : ℕ) (hd : d < 10) :
    (Nat.digitChar d).toNat - 48 = d := by
  interval_cases d <;> decide

theorem digitChar_ne_pipe (d : ℕ) (hd : d < 10) : Nat.digitChar d ≠ '|' := by
  interval_cases d <;> decide

theorem toDigitsCore_append : ∀ (fuel n : ℕ) (ds : List Char),
    Nat.toDigitsCore 10 fuel n ds = Nat.toDigitsCore 10 fuel n [] ++ ds
  | 0, n, ds => rfl
  | fuel + 1, n, ds => by
    by_cases h : n / 10 = 0
    · simp [Nat.toDigitsCore, h]
    · simp only [Nat.toDigitsCore, h, if_false]
      rw [toDigitsCore_append fuel (n / 10) (Nat.digitChar (n % 10) :: ds),
        toDigitsCore_append fuel (n / 10) [Nat.digitChar (n % 10)]]
      simp

theorem toDigitsCore_pipe_free : ∀ (fuel n : ℕ) (ds : List Char),
    (∀ c ∈ ds, c ≠ '|') → ∀ c ∈ Nat.toDigitsCore 10 fuel n ds, c ≠ '|'
  | 0, n, ds => by
    intro h
    simpa [Nat.toDigitsCore] using h
  | fuel + 1, n, ds => by
    intro h
    have hd : ∀ c ∈ Nat.digitChar (n % 10) :: ds, c ≠ '|' := by
      intro c hc
      rcases List.mem_cons.mp hc with hc | hc
      · rw [hc]
        exact digitChar_ne_pipe (n % 10) (Nat.mod_lt n (by norm_num))
      · exact h c hc
    by_cases h0 : n / 10 = 0
    · simpa [Nat.toDigitsCore, h0] using hd
    · simpa [Nat.toDigitsCore, h0] using
        toDigitsCore_pipe_free fuel (n / 10) _ hd

theorem parse10Acc_toDigits : ∀ (fuel n : ℕ), n < fuel → ∀ (a : ℕ),
    parse10Acc a (Nat.toDigitsCore 10 fuel n []) =
      a * 10 ^ (Nat.toDigitsCore 10 fuel n []).length + n := by
  intro fuel
  induction fuel with
  | zero =>
    intro n hn
    omega
  | succ fuel ih =>
    intro n hn a
    by_cases h0 : n / 10 = 0
    · have hn10 : n < 10 := by omega
      have hcore : Nat.toDigitsCore 10 (fuel + 1) n [] =
          [Nat.digitChar (n % 10)] := by
        simp [Nat.toDigitsCore, h0]
      rw [hcore, parse10Acc_single,
        digitChar_toNat _ (Nat.mod_lt n (by norm_num)), Nat.mod_eq_of_lt hn10]
      simp
    · have hrec : Nat.toDigitsCore 10 (fuel + 1) n [] =
          Nat.toDigitsCore 10 fuel (n / 10) [] ++ [Nat.digitChar (n % 10)] := by
        simp only [Nat.toDigitsCore, h0, if_false]
        exact toDigitsCore_append fuel (n / 10) [Nat.digitChar (n % 10)]
      have hnz : n ≠ 0 := by
        intro hz
        rw [hz] at h0
        simp at h0
      have hdiv : n / 10 < fuel := by
        have h1 : n / 10 < n := Nat.div_lt_self (Nat.pos_of_ne_zero hnz) (by norm_num)
        omega
      rw [hrec, parse10Acc_append, ih (n / 10) hdiv a, parse10Acc_single,
        digitChar_toNat _ (Nat.mod_lt n (by norm_num)), List.length_append]
      simp only [List.length_singleton]
      rw [pow_succ]
      have hm : a * (10 ^ (Nat.toDigitsCore 10 fuel (n / 10) []).length * 10) =
          (a * 10 ^ (Nat.toDigitsCore 10 fuel (n / 10) []).length) * 10 := by
        ring
      rw [hm]
      generalize a * 10 ^ (Nat.toDigitsCore 10 fuel (n / 10) []).length = m
      omega

theorem natRepr_injective : Function.Injective Nat.repr := by
  intro m n h
  have hdata : Nat.toDigitsCore 10 (m + 1) m [] = Nat.toDigitsCore 10 (n + 1) n [] :=
    congrArg String.data h
  have hm := parse10Acc_toDigits (m + 1) m (Nat.lt_succ_self m) 0
  have hn := parse10Acc_toDigits (n + 1) n (Nat.lt_succ_self n) 0
  rw [hdata] at hm
  simp only [zero_mul, zero_add] at hm hn
  omega

theorem natRepr_pipe_free (n : ℕ) : ∀ c ∈ (Nat.repr n).data, c ≠ '|' := by
  intro c hc
  exact toDigitsCore_pipe_free (n + 1) n [] (by simp) c hc

theorem toString_nat_eq (n : ℕ) : toString n = Nat.repr n := rfl

namespace Worker

theorem splitPipeAux_nil_eq (cur : List Char) :
    splitPipeAux cur [] = [String.mk cur.reverse] := rfl

theorem splitPipeAux_cons_eq (cur : List Char) (c : Char) (cs : List Char) :
    splitPipeAux cur (c :: cs) =
      if c = '|' then String.mk cur.reverse :: splitPipeAux [] cs
      else splitPipeAux (c :: cur) cs := rfl

theorem splitPipeAux_no_pipe : ∀ (r cur : List Char), (∀ c ∈ r, c ≠ '|') →
    splitPipeAux cur r = [String.mk (cur.reverse ++ r)]
  | [], cur => by
    intro _
    rw [splitPipeAux_nil_eq]
    simp
  | c :: cs, cur => by
    intro h
    have hc : c ≠ '|' := h c (List.mem_cons_self _ _)
    rw [splitPipeAux_cons_eq, if_neg hc,
      splitPipeAux_no_pipe cs (c :: cur) (fun x hx => h x (List.mem_cons_of_mem _ hx))]
    simp

theorem splitPipeAux_pipe : ∀ (l cur r : List Char), (∀ c ∈ l, c ≠ '|') →
    splitPipeAux cur (l ++ '|' :: r) =
      String.mk (cur.reverse ++ l) :: splitPipeAux [] r
  | [], cur, r => by
    intro _
    show splitPipeAux cur ('|' :: r) = _
    rw [splitPipeAux_cons_eq, if_pos rfl]
    simp
  | c :: cs, cur, r => by
    intro h
    have hc : c ≠ '|' := h c (List.mem_cons_self _ _)
    show splitPipeAux cur (c :: (cs ++ '|' :: r)) = _
    rw [splitPipeAux_cons_eq, if_neg hc,
      splitPipeAux_pipe cs (c :: cur) r (fun x hx => h x (List.mem_cons_of_mem _ hx))]
    simp

theorem splitPipe_concat (a b : String) (ha : ∀ c ∈ a.data, c ≠ '|')
    (hb : ∀ c ∈ b.data, c ≠ '|') :
    splitPipe (a ++ "|" ++ b) = [a, b] := by
  show splitPipeAux [] (a ++ "|" ++ b).data = [a, b]
  have hdata : (a ++ "|" ++ b).data = a.data ++ '|' :: b.data := by
    rw [String.data_append, String.data_append]
    simp
  rw [hdata, splitPipeAux_pipe a.data [] b.data ha,
    splitPipeAux_no_pipe b.data [] hb]
  simp only [List.reverse_nil, List.nil_append]

theorem pipeKey_inj (a b c d : String) (ha : ∀ x ∈ a.data, x ≠ '|')
    (hb : ∀ x ∈ b.data, x ≠ '|') (hc : ∀ x ∈ c.data, x ≠ '|')
    (hd : ∀ x ∈ d.data, x ≠ '|')
    (h : a ++ "|" ++ b = c ++ "|" ++ d) : a = c ∧ b = d := by
  have hsp := congrArg splitPipe h
  rw [splitPipe_concat a b ha hb, splitPipe_concat c d hc hd] at hsp
  injection hsp with h1 h2
  injection h2 with h2 _
  exact ⟨h1, h2⟩

end Worker

/-! ## Association-list lemmas for the aggregation analysis -/

theorem JsMap.nodup_keys_set {K V : Type} [DecidableEq K] (m : JsMap K V) (k : K)
    (v : V) (h : m.keys.Nodup) : (m.set k v).keys.Nodup := by
  induction m with
  | nil => simp [JsMap.set, JsMap.keys]
  | cons p rest ih =>
    obtain ⟨k', v'⟩ := p
    simp only [JsMap.keys, List.map_cons, List.nodup_cons] at h
    by_cases hk : k' = k
    · show ((if k' = k then (k, v) :: rest else (k', v') :: JsMap.set rest k v) :
        JsMap K V).keys.Nodup
      rw [if_pos hk]
      simp only [JsMap.keys, List.map_cons, List.nodup_cons]
      subst hk
      exact h
    · show ((if k' = k then (k, v) :: rest else (k', v') :: JsMap.set rest k v) :
        JsMap K V).keys.Nodup
      rw [if_neg hk]
      simp only [JsMap.keys, List.map_cons, List.nodup_cons]
      refine ⟨?_, ih h.2⟩
      intro hmem
      rw [show (JsMap.set rest k v).map Prod.fst = (JsMap.set rest k v).keys from rfl]
        at hmem
      rcases (JsMap.mem_keys_set rest k v k').mp hmem with hmem | hmem
      · exact h.1 hmem
      · exact hk hmem

theorem JsMap.getD_mem {K V : Type} [DecidableEq K] :
    ∀ (m : JsMap K V) (k : K) (d : V), k ∈ m.keys → (k, m.getD k d) ∈ m
  | [], k, d => by simp [JsMap.keys]
  | p :: rest, k, d => by
    intro hk
    by_cases hp : p.1 = k
    · have hget : JsMap.getD (p :: rest) k d = p.2 := by
        unfold JsMap.getD JsMap.get
        rw [List.find?_cons_of_pos _ (by simpa using hp)]
        rfl
      rw [hget]
      rw [← hp]
      exact List.mem_cons_self _ _
    · have hget : JsMap.getD (p :: rest) k d = JsMap.getD rest k d := by
        unfold JsMap.getD JsMap.get
        rw [List.find?_cons_of_neg _ (by simpa using hp)]
      rw [hget]
      have hkr : k ∈ JsMap.keys rest := by
        simp only [JsMap.keys, List.map_cons, List.mem_cons] at hk
        rcases hk with hk | hk
        · exact absurd hk.symm hp
        · exact hk
      exact List.mem_cons_of_mem _ (JsMap.getD_mem rest k d hkr)

theorem JsMap.getD_inj {K V : Type} [DecidableEq K] (m : JsMap K V)
    (hv : (m.map Prod.snd).Nodup) (k1 k2 : K) (d : V)
    (h1 : k1 ∈ m.keys) (h2 : k2 ∈ m.keys) (hne : k1 ≠ k2) :
    m.getD k1 d ≠ m.getD k2 d := by
  intro heq
  have he1 := JsMap.getD_mem m k1 d h1
  have he2 := JsMap.getD_mem m k2 d h2
  have := List.inj_on_of_nodup_map hv he1 he2 heq
  exact hne (congrArg Prod.fst this)

theorem JsMap.foldl_set_pairs {K V : Type} [DecidableEq K] :
    ∀ (L : List (K × V)) (m0 : JsMap K V), (L.map Prod.fst).Nodup →
    (∀ x ∈ L.map Prod.fst, x ∉ m0.keys) →
    L.foldl (fun m pr => m.set pr.1 pr.2) m0 = m0 ++ L
  | [], m0 => by
    intro _ _
    simp
  | p :: rest, m0 => by
    intro hnd hdis
    rw [List.foldl_cons]
    have hp : p.1 ∉ m0.keys := hdis p.1 (by simp)
    simp only [List.map_cons, List.nodup_cons] at hnd
    rw [JsMap.foldl_set_pairs rest (m0.set p.1 p.2) hnd.2]
    · rw [JsMap.set_eq_append m0 p.1 p.2 hp]
      simp
    · intro x hx
      rw [JsMap.set_eq_append m0 p.1 p.2 hp]
      simp only [JsMap.keys, List.map_append, List.mem_append]
      rintro (hmem | hmem)
      · exact hdis x (List.mem_cons_of_mem _ (by simpa using hx)) hmem
      · simp at hmem
        rw [hmem] at hx
        exact hnd.1 hx

theorem JsMap.counter_getD {K E : Type} [DecidableEq K] (P : E → Prop) [DecidablePred P] (F : E → K) :
    ∀ (l : List E) (m0 : JsMap K ℕ) (k : K),
    (l.foldl (fun m e => if P e then m.set (F e) (m.getD (F e) 0 + 1) else m)
        m0).getD k 0 =
      m0.getD k 0 + (l.filter (fun e => P e ∧ F e = k)).length
  | [], m0, k => by simp
  | e :: rest, m0, k => by
    rw [List.foldl_cons]
    by_cases hp : P e
    · rw [if_pos hp]
      by_cases hk : F e = k
      · rw [JsMap.counter_getD P F rest _ k, JsMap.getD_set]
        rw [if_pos hk.symm]
        have hfe : decide (P e ∧ F e = k) = true := by
          simp [hp, hk]
        simp only [List.filter_cons]
        rw [if_pos hfe]
        simp only [List.length_cons]
        rw [hk]
        omega
      · rw [JsMap.counter_getD P F rest _ k, JsMap.getD_set]
        rw [if_neg (fun h => hk h.symm)]
        have hfe : ¬ (decide (P e ∧ F e = k) = true) := by
          simp [hp, hk]
        simp only [List.filter_cons]
        rw [if_neg hfe]
    · rw [if_neg hp]
      rw [JsMap.counter_getD P F rest m0 k]
      have hfe : ¬ (decide (P e ∧ F e = k) = true) := by
        simp [hp]
      simp only [List.filter_cons]
      rw [if_neg hfe]

theorem JsMap.counter_keys {K E : Type} [DecidableEq K] (P : E → Prop) [DecidablePred P] (F : E → K) :
    ∀ (l : List E) (m0 : JsMap K ℕ) (k : K),
    k ∈ (l.foldl (fun m e => if P e then m.set (F e) (m.getD (F e) 0 + 1) else m)
        m0).keys →
      k ∈ m0.keys ∨ ∃ e ∈ l, P e ∧ F e = k
  | [], m0, k => by
    intro h
    exact Or.inl h
  | e :: rest, m0, k => by
    intro h
    rw [List.foldl_cons] at h
    by_cases hp : P e
    · rw [if_pos hp] at h
      rcases JsMap.counter_keys P F rest _ k h with hm | ⟨e', he', hpe⟩
      · rcases (JsMap.mem_keys_set m0 (F e) _ k).mp hm with hm | hm
        · exact Or.inl hm
        · exact Or.inr ⟨e, List.mem_cons_self _ _, hp, hm.symm⟩
      · exact Or.inr ⟨e', List.mem_cons_of_mem _ he', hpe⟩
    · rw [if_neg hp] at h
      rcases JsMap.counter_keys P F rest m0 k h with hm | ⟨e', he', hpe⟩
      · exact Or.inl hm
      · exact Or.inr ⟨e', List.mem_cons_of_mem _ he', hpe⟩

theorem JsMap.counter_nodup {K E : Type} [DecidableEq K] (P : E → Prop) [DecidablePred P] (F : E → K) :
    ∀ (l : List E) (m0 : JsMap K ℕ), m0.keys.Nodup →
    (l.foldl (fun m e => if P e then m.set (F e) (m.getD (F e) 0 + 1) else m)
        m0).keys.Nodup
  | [], m0 => fun h => h
  | e :: rest, m0 => by
    intro h
    rw [List.foldl_cons]
    by_cases hp : P e
    · rw [if_pos hp]
      exact JsMap.counter_nodup P F rest _ (JsMap.nodup_keys_set m0 _ _ h)
    · rw [if_neg hp]
      exact JsMap.counter_nodup P F rest m0 h

theorem count_flatMap {A B : Type} [BEq B] (f : A → List B) (x : B) :
    ∀ (l : List A), (l.flatMap f).count x = (l.map (fun a => (f a).count x)).sum
  | [] => rfl
  | a :: rest => by
    rw [List.flatMap_cons, List.count_append, List.map_cons, List.sum_cons,
      count_flatMap f x rest]

namespace Worker

/-- The name `communityMap.get(commId)` that the first variant's
`aggregateCommunities` assigns to community `commId`: its position in
`partition.communities` key order, rendered with `counter.toString()`. -/
def aggName (p : LouvPart) (c : ℤ) : String :=
  ((p.comms.keys.enum.map (fun pr => (pr.2, toString pr.1))).foldl
    (fun m pr => m.set pr.1 pr.2) JsMap.empty).getD c ""

/-- The normalized key under which an edge between communities `c1` and `c2`
is tallied by `aggregateCommunities`. -/
def aggKey (p : LouvPart) (c1 c2 : ℤ) : String :=
  if jsLt (aggName p c1) (aggName p c2) then
    aggName p c1 ++ "|" ++ aggName p c2
  else aggName p c2 ++ "|" ++ aggName p c1

/-- The link `aggregateCommunities` emits for an edge between communities
`c1` and `c2`, recovered from the tally key by `key.split('|')`. -/
def aggLink (p : LouvPart) (c1 c2 : ℤ) : String × String :=
  ((splitPipe (aggKey p c1 c2)).getD 0 "", (splitPipe (aggKey p c1 c2)).getD 1 "")

theorem aggregateV1_links_eq (graph : WGraph) (p : LouvPart) :
    (aggregateV1 graph p).links =
      (graph.edges.foldl (fun m e =>
        if ¬ p.ntc.getD e.1 0 = p.ntc.getD e.2 0 then
          m.set (aggKey p (p.ntc.getD e.1 0) (p.ntc.getD e.2 0))
            (m.getD (aggKey p (p.ntc.getD e.1 0) (p.ntc.getD e.2 0)) 0 + 1)
        else m) JsMap.empty).flatMap (fun pr =>
          List.replicate pr.2
            ((splitPipe pr.1).getD 0 "", (splitPipe pr.1).getD 1 "")) := rfl

theorem aggName_toString (p : LouvPart) (c : ℤ) (hnd : p.comms.keys.Nodup)
    (hc : c ∈ p.comms.keys) : ∃ i : ℕ, aggName p c = toString i := by
  have hLfst : ((p.comms.keys.enum.map (fun pr => (pr.2, toString pr.1))).map
      Prod.fst) = p.comms.keys := by
    rw [List.map_map]
    exact (List.map_congr_left (fun x _ => rfl)).trans (List.enum_map_snd _)
  have hshape := JsMap.foldl_set_pairs
    (p.comms.keys.enum.map (fun pr => (pr.2, toString pr.1))) JsMap.empty
    (by rw [hLfst]; exact hnd)
    (by intro x _; simp [JsMap.empty, JsMap.keys])
  unfold aggName
  rw [hshape]
  simp only [JsMap.empty, List.nil_append]
  have hck : c ∈ (JsMap.keys
      (p.comms.keys.enum.map (fun pr => (pr.2, toString pr.1)))) := by
    show c ∈ (p.comms.keys.enum.map (fun pr => (pr.2, toString pr.1))).map Prod.fst
    rw [hLfst]
    exact hc
  have hm := JsMap.getD_mem
    (p.comms.keys.enum.map (fun pr => (pr.2, toString pr.1))) c "" hck
  rcases List.mem_map.mp hm with ⟨pr, _, hpr⟩
  exact ⟨pr.1, (congrArg Prod.snd hpr).symm⟩

theorem aggName_pipe_free (p : LouvPart) (c : ℤ) (hnd : p.comms.keys.Nodup)
    (hc : c ∈ p.comms.keys) : ∀ ch ∈ (aggName p c).data, ch ≠ '|' := by
  obtain ⟨i, hi⟩ := aggName_toString p c hnd hc
  rw [hi, toString_nat_eq]
  exact natRepr_pipe_free i

theorem aggName_inj (p : LouvPart) (hnd : p.comms.keys.Nodup)
    (c1 c2 : ℤ) (h1 : c1 ∈ p.comms.keys) (h2 : c2 ∈ p.comms.keys)
    (hne : c1 ≠ c2) : aggName p c1 ≠ aggName p c2 := by
  have hLfst : ((p.comms.keys.enum.map (fun pr => (pr.2, toString pr.1))).map
      Prod.fst) = p.comms.keys := by
    rw [List.map_map]
    exact (List.map_congr_left (fun x _ => rfl)).trans (List.enum_map_snd _)
  have hshape := JsMap.foldl_set_pairs
    (p.comms.keys.enum.map (fun pr => (pr.2, toString pr.1))) JsMap.empty
    (by rw [hLfst]; exact hnd)
    (by intro x _; simp [JsMap.empty, JsMap.keys])
  have hvals : ((p.comms.keys.enum.map (fun pr => (pr.2, toString pr.1))).map
      Prod.snd).Nodup := by
    have hEq : ((p.comms.keys.enum.map (fun pr => (pr.2, toString pr.1))).map
        Prod.snd) = (List.range p.comms.keys.length).map (fun i => toString i) := by
      rw [List.map_map, ← List.enum_map_fst p.comms.keys, List.map_map]
      exact List.map_congr_left (fun x _ => rfl)
    rw [hEq]
    refine List.Nodup.map ?_ (List.nodup_range _)
    intro a b hab
    have hab' : toString a = toString b := hab
    rw [toString_nat_eq, toString_nat_eq] at hab'
    exact natRepr_injective hab'
  unfold aggName
  rw [hshape]
  simp only [JsMap.empty, List.nil_append]
  refine JsMap.getD_inj _ hvals c1 c2 "" ?_ ?_ hne
  · show c1 ∈ (p.comms.keys.enum.map (fun pr => (pr.2, toString pr.1))).map Prod.fst
    rw [hLfst]
    exact h1
  · show c2 ∈ (p.comms.keys.enum.map (fun pr => (pr.2, toString pr.1))).map Prod.fst
    rw [hLfst]
    exact h2

end Worker

theorem JsMap.getD_not_mem {K V : Type} [DecidableEq K] (m : JsMap K V) (k : K)
    (d : V) (h : k ∉ m.keys) : m.getD k d = d := by
  unfold JsMap.getD JsMap.get
  rw [List.find?_eq_none.mpr]
  · rfl
  · intro p hp
    simp only [decide_eq_true_eq]
    intro hpk
    exact h (hpk ▸ List.mem_map_of_mem Prod.fst hp)

theorem JsMap.sum_single {K : Type} [DecidableEq K] :
    ∀ (m : JsMap K ℕ) (k : K), m.keys.Nodup →
    (m.map (fun pr => if pr.1 = k then pr.2 else 0)).sum = m.getD k 0
  | [], k => by
    intro _
    simp [JsMap.getD, JsMap.get]
  | (k', v) :: rest, k => by
    intro hnd
    simp only [JsMap.keys, List.map_cons, List.nodup_cons] at hnd
    rw [List.map_cons, List.sum_cons]
    by_cases hk : k' = k
    · subst hk
      rw [if_pos rfl]
      have hzero : (rest.map (fun pr => if pr.1 = k' then pr.2 else 0)).sum = 0 := by
        rw [JsMap.sum_single rest k' hnd.2, JsMap.getD_not_mem rest k' 0 hnd.1]
      rw [hzero]
      have hget : JsMap.getD ((k', v) :: rest) k' 0 = v := by
        unfold JsMap.getD JsMap.get
        rw [List.find?_cons_of_pos _ (by simp)]
        rfl
      rw [hget]
      simp
    · rw [if_neg hk]
      have hget : JsMap.getD ((k', v) :: rest) k 0 = JsMap.getD rest k 0 := by
        unfold JsMap.getD JsMap.get
        rw [List.find?_cons_of_neg _ (by simpa using hk)]
      rw [hget, zero_add]
      exact JsMap.sum_single rest k hnd.2

namespace Worker

theorem aggKey_symm (p : LouvPart) (c1 c2 : ℤ)
    (hne : aggName p c1 ≠ aggName p c2) : aggKey p c1 c2 = aggKey p c2 c1 := by
  unfold aggKey
  by_cases h : jsLt (aggName p c1) (aggName p c2) = true
  · have h2 : ¬ (jsLt (aggName p c2) (aggName p c1) = true) := by
      rw [jsLt_asymm h]
      simp
  -- the reversed comparison is false, so both sides pick the same ordered key
    rw [if_pos h, if_neg h2]
  · have h1 : jsLt (aggName p c1) (aggName p c2) = false :=
      Bool.eq_false_iff.mpr h
    have h2 : jsLt (aggName p c2) (aggName p c1) = true := by
      cases hh : jsLt (aggName p c2) (aggName p c1)
      · exact absurd (jsLt_connex h1 hh) hne
      · rfl
    rw [if_neg h, if_pos h2]

theorem aggLink_eq (p : LouvPart) (c1 c2 : ℤ)
    (hp1 : ∀ ch ∈ (aggName p c1).data, ch ≠ '|')
    (hp2 : ∀ ch ∈ (aggName p c2).data, ch ≠ '|') :
    aggLink p c1 c2 =
      if jsLt (aggName p c1) (aggName p c2) then (aggName p c1, aggName p c2)
      else (aggName p c2, aggName p c1) := by
  unfold aggLink aggKey
  by_cases h : jsLt (aggName p c1) (aggName p c2) = true
  · rw [if_pos h, if_pos h, splitPipe_concat _ _ hp1 hp2]
    rfl
  · rw [if_neg h, if_neg h, splitPipe_concat _ _ hp2 hp1]
    rfl

theorem aggLink_ne (p : LouvPart) (c1 c2 : ℤ)
    (hp1 : ∀ ch ∈ (aggName p c1).data, ch ≠ '|')
    (hp2 : ∀ ch ∈ (aggName p c2).data, ch ≠ '|')
    (hne : aggName p c1 ≠ aggName p c2) :
    (aggLink p c1 c2).1 ≠ (aggLink p c1 c2).2 := by
  rw [aggLink_eq p c1 c2 hp1 hp2]
  by_cases h : jsLt (aggName p c1) (aggName p c2) = true
  · rw [if_pos h]
    exact hne
  · rw [if_neg h]
    exact hne.symm

theorem aggKey_recon (p : LouvPart) (c1 c2 : ℤ)
    (hp1 : ∀ ch ∈ (aggName p c1).data, ch ≠ '|')
    (hp2 : ∀ ch ∈ (aggName p c2).data, ch ≠ '|') :
    aggKey p c1 c2 = (aggLink p c1 c2).1 ++ "|" ++ (aggLink p c1 c2).2 := by
  rw [aggLink_eq p c1 c2 hp1 hp2]
  unfold aggKey
  by_cases h : jsLt (aggName p c1) (aggName p c2) = true
  · rw [if_pos h, if_pos h]
  · rw [if_neg h, if_neg h]

end Worker

/-- C9, corrected for the first variant: `aggregateCommunities` skips
intra-community edges, so the aggregated graph has no self-edges, and for any
two distinct communities the multiplicity of the aggregated link equals the
number of original edges between their members. (The second variant instead
keeps intra-community edges as self-loops; see the counterexample.) -/
theorem C9_aggregation_no_self_loops (graph : Worker.WGraph) (p : Worker.LouvPart)
    (hnd : p.comms.keys.Nodup)
    (hmem : ∀ e ∈ graph.edges, p.ntc.getD e.1 0 ∈ p.comms.keys ∧
      p.ntc.getD e.2 0 ∈ p.comms.keys) :
    (∀ l ∈ (Worker.aggregateV1 graph p).links, l.1 ≠ l.2) ∧
    (∀ c1 c2 : ℤ, c1 ∈ p.comms.keys → c2 ∈ p.comms.keys → c1 ≠ c2 →
      (Worker.aggregateV1 graph p).links.count (Worker.aggLink p c1 c2) =
        (graph.edges.filter (fun e =>
          (p.ntc.getD e.1 0 = c1 ∧ p.ntc.getD e.2 0 = c2) ∨
          (p.ntc.getD e.1 0 = c2 ∧ p.ntc.getD e.2 0 = c1))).length) := by
  rw [Worker.aggregateV1_links_eq]
  set cw := graph.edges.foldl (fun m e =>
    if ¬ p.ntc.getD e.1 0 = p.ntc.getD e.2 0 then
      m.set (Worker.aggKey p (p.ntc.getD e.1 0) (p.ntc.getD e.2 0))
        (m.getD (Worker.aggKey p (p.ntc.getD e.1 0) (p.ntc.getD e.2 0)) 0 + 1)
    else m) JsMap.empty with hcw
  have hkeysfact : ∀ k ∈ cw.keys, ∃ a b, a ∈ p.comms.keys ∧ b ∈ p.comms.keys ∧
      ¬ a = b ∧ k = Worker.aggKey p a b := by
    intro k hk
    rw [hcw] at hk
    rcases JsMap.counter_keys
        (fun e => ¬ p.ntc.getD e.1 0 = p.ntc.getD e.2 0)
        (fun e => Worker.aggKey p (p.ntc.getD e.1 0) (p.ntc.getD e.2 0))
        graph.edges JsMap.empty k hk with hk0 | ⟨e, he, hPe, hKe⟩
    · simp [JsMap.empty, JsMap.keys] at hk0
    · obtain ⟨ha, hb⟩ := hmem e he
      exact ⟨_, _, ha, hb, hPe, hKe.symm⟩
  have hnodup : cw.keys.Nodup := by
    rw [hcw]
    exact JsMap.counter_nodup
      (fun e => ¬ p.ntc.getD e.1 0 = p.ntc.getD e.2 0)
      (fun e => Worker.aggKey p (p.ntc.getD e.1 0) (p.ntc.getD e.2 0))
      graph.edges JsMap.empty (by simp [JsMap.empty, JsMap.keys])
  have hback : ∀ a, a ∈ p.comms.keys → ∀ b, b ∈ p.comms.keys →
      Worker.aggName p a = Worker.aggName p b → a = b := by
    intro a ha' b hb' hEq
    by_contra hne'
    exact Worker.aggName_inj p hnd a b ha' hb' hne' hEq
  constructor
  · intro l hl
    rcases List.mem_flatMap.mp hl with ⟨pr, hpr, hlr⟩
    have hlpr := List.eq_of_mem_replicate hlr
    obtain ⟨a, b, ha, hb, hab, hk⟩ :=
      hkeysfact pr.1 (List.mem_map_of_mem Prod.fst hpr)
    have hl2 : l = Worker.aggLink p a b := by
      rw [hlpr, hk]
      rfl
    rw [hl2]
    exact Worker.aggLink_ne p a b (Worker.aggName_pipe_free p a hnd ha)
      (Worker.aggName_pipe_free p b hnd hb)
      (Worker.aggName_inj p hnd a b ha hb hab)
  · intro c1 c2 hc1 hc2 hcc
    have hn1 := Worker.aggName_pipe_free p c1 hnd hc1
    have hn2 := Worker.aggName_pipe_free p c2 hnd hc2
    have hnne := Worker.aggName_inj p hnd c1 c2 hc1 hc2 hcc
    rw [count_flatMap]
    have hmapcong : cw.map (fun pr => (List.replicate pr.2
        ((Worker.splitPipe pr.1).getD 0 "", (Worker.splitPipe pr.1).getD 1 "")).count
          (Worker.aggLink p c1 c2)) =
        cw.map (fun pr => if pr.1 = Worker.aggKey p c1 c2 then pr.2 else 0) := by
      apply List.map_congr_left
      intro pr hpr
      rw [List.count_replicate]
      obtain ⟨a, b, ha, hb, hab, hk⟩ :=
        hkeysfact pr.1 (List.mem_map_of_mem Prod.fst hpr)
      have hpa := Worker.aggName_pipe_free p a hnd ha
      have hpb := Worker.aggName_pipe_free p b hnd hb
      have hne' := Worker.aggName_inj p hnd a b ha hb hab
      have hpair : ((Worker.splitPipe pr.1).getD 0 "",
          (Worker.splitPipe pr.1).getD 1 "") = Worker.aggLink p a b := by
        rw [hk]
        rfl
      by_cases hkey : pr.1 = Worker.aggKey p c1 c2
      · rw [if_pos hkey]
        rw [hkey]
        simp [Worker.aggLink]
      · rw [if_neg hkey]
        rw [hpair]
        have hlinkne : ¬ (Worker.aggLink p a b = Worker.aggLink p c1 c2) := by
          intro heq
          apply hkey
          rw [hk, Worker.aggKey_recon p a b hpa hpb,
            Worker.aggKey_recon p c1 c2 hn1 hn2, heq]
        simp [hlinkne]
    rw [hmapcong, JsMap.sum_single cw (Worker.aggKey p c1 c2) hnodup, hcw]
    rw [JsMap.counter_getD
      (fun e => ¬ p.ntc.getD e.1 0 = p.ntc.getD e.2 0)
      (fun e => Worker.aggKey p (p.ntc.getD e.1 0) (p.ntc.getD e.2 0))
      graph.edges JsMap.empty (Worker.aggKey p c1 c2)]
    rw [show (JsMap.empty : JsMap String ℕ).getD (Worker.aggKey p c1 c2) 0 = 0
      from rfl, zero_add]
    have hfc : ∀ e ∈ graph.edges,
        (decide ((¬ p.ntc.getD e.1 0 = p.ntc.getD e.2 0) ∧
          Worker.aggKey p (p.ntc.getD e.1 0) (p.ntc.getD e.2 0) =
            Worker.aggKey p c1 c2)) =
        (decide ((p.ntc.getD e.1 0 = c1 ∧ p.ntc.getD e.2 0 = c2) ∨
          (p.ntc.getD e.1 0 = c2 ∧ p.ntc.getD e.2 0 = c1))) := by
      intro e he
      obtain ⟨ha, hb⟩ := hmem e he
      apply decide_eq_decide.mpr
      constructor
      · rintro ⟨hne, hkeq⟩
        have hd1 := Worker.aggName_pipe_free p _ hnd ha
        have hd2 := Worker.aggName_pipe_free p _ hnd hb
        unfold Worker.aggKey at hkeq
        by_cases hab : jsLt (Worker.aggName p (p.ntc.getD e.1 0))
            (Worker.aggName p (p.ntc.getD e.2 0)) = true <;>
          by_cases hcd : jsLt (Worker.aggName p c1) (Worker.aggName p c2) = true
        · rw [if_pos hab, if_pos hcd] at hkeq
          obtain ⟨hx, hy⟩ := Worker.pipeKey_inj _ _ _ _ hd1 hd2 hn1 hn2 hkeq
          exact Or.inl ⟨hback _ ha _ hc1 hx, hback _ hb _ hc2 hy⟩
        · rw [if_pos hab, if_neg hcd] at hkeq
          obtain ⟨hx, hy⟩ := Worker.pipeKey_inj _ _ _ _ hd1 hd2 hn2 hn1 hkeq
          exact Or.inr ⟨hback _ ha _ hc2 hx, hback _ hb _ hc1 hy⟩
        · rw [if_neg hab, if_pos hcd] at hkeq
          obtain ⟨hx, hy⟩ := Worker.pipeKey_inj _ _ _ _ hd2 hd1 hn1 hn2 hkeq
          exact Or.inr ⟨hback _ ha _ hc2 hy, hback _ hb _ hc1 hx⟩
        · rw [if_neg hab, if_neg hcd] at hkeq
          obtain ⟨hx, hy⟩ := Worker.pipeKey_inj _ _ _ _ hd2 hd1 hn2 hn1 hkeq
          exact Or.inl ⟨hback _ ha _ hc1 hy, hback _ hb _ hc2 hx⟩
      · rintro (⟨h1, h2⟩ | ⟨h1, h2⟩)
        · rw [h1, h2]
          exact ⟨hcc, rfl⟩
        · rw [h1, h2]
          exact ⟨fun hq => hcc hq.symm,
            Worker.aggKey_symm p c2 c1 (fun hq => hnne hq.symm)⟩
    rw [List.filter_congr hfc]

/-- Closed witness for C9 on a 4-node path split into communities
`{a}` (id 0) and `{b, c, d}` (id 1): one crossing edge, two internal ones. -/
theorem C9_witness :
    ((⟨[("a", 0), ("b", 1), ("c", 1), ("d", 1)],
        [(0, ["a"]), (1, ["b", "c", "d"])], JsMap.empty, 6⟩ :
      Worker.LouvPart).comms.keys).Nodup ∧
    (∀ e ∈ (⟨["a", "b", "c", "d"], [("a", "b"), ("b", "c"), ("c", "d")],
        JsMap.empty, JsMap.empty, 3⟩ : Worker.WGraph).edges,
      (⟨[("a", 0), ("b", 1), ("c", 1), ("d", 1)],
          [(0, ["a"]), (1, ["b", "c", "d"])], JsMap.empty, 6⟩ :
        Worker.LouvPart).ntc.getD e.1 0 ∈
          (⟨[("a", 0), ("b", 1), ("c", 1), ("d", 1)],
            [(0, ["a"]), (1, ["b", "c", "d"])], JsMap.empty, 6⟩ :
          Worker.LouvPart).comms.keys ∧
      (⟨[("a", 0), ("b", 1), ("c", 1), ("d", 1)],
          [(0, ["a"]), (1, ["b", "c", "d"])], JsMap.empty, 6⟩ :
        Worker.LouvPart).ntc.getD e.2 0 ∈
          (⟨[("a", 0), ("b", 1), ("c", 1), ("d", 1)],
            [(0, ["a"]), (1, ["b", "c", "d"])], JsMap.empty, 6⟩ :
          Worker.LouvPart).comms.keys) ∧
    ((∀ l ∈ (Worker.aggregateV1
        ⟨["a", "b", "c", "d"], [("a", "b"), ("b", "c"), ("c", "d")],
          JsMap.empty, JsMap.empty, 3⟩
        ⟨[("a", 0), ("b", 1), ("c", 1), ("d", 1)],
          [(0, ["a"]), (1, ["b", "c", "d"])], JsMap.empty, 6⟩).links,
        l.1 ≠ l.2) ∧
    (∀ c1 c2 : ℤ,
      c1 ∈ (⟨[("a", 0), ("b", 1), ("c", 1), ("d", 1)],
          [(0, ["a"]), (1, ["b", "c", "d"])], JsMap.empty, 6⟩ :
        Worker.LouvPart).comms.keys →
      c2 ∈ (⟨[("a", 0), ("b", 1), ("c", 1), ("d", 1)],
          [(0, ["a"]), (1, ["b", "c", "d"])], JsMap.empty, 6⟩ :
        Worker.LouvPart).comms.keys → c1 ≠ c2 →
      (Worker.aggregateV1
        ⟨["a", "b", "c", "d"], [("a", "b"), ("b", "c"), ("c", "d")],
          JsMap.empty, JsMap.empty, 3⟩
        ⟨[("a", 0), ("b", 1), ("c", 1), ("d", 1)],
          [(0, ["a"]), (1, ["b", "c", "d"])], JsMap.empty, 6⟩).links.count
        (Worker.aggLink
          ⟨[("a", 0), ("b", 1), ("c", 1), ("d", 1)],
            [(0, ["a"]), (1, ["b", "c", "d"])], JsMap.empty, 6⟩ c1 c2) =
      ((⟨["a", "b", "c", "d"], [("a", "b"), ("b", "c"), ("c", "d")],
          JsMap.empty, JsMap.empty, 3⟩ : Worker.WGraph).edges.filter (fun e =>
        ((⟨[("a", 0), ("b", 1), ("c", 1), ("d", 1)],
            [(0, ["a"]), (1, ["b", "c", "d"])], JsMap.empty, 6⟩ :
          Worker.LouvPart).ntc.getD e.1 0 = c1 ∧
         (⟨[("a", 0), ("b", 1), ("c", 1), ("d", 1)],
            [(0, ["a"]), (1, ["b", "c", "d"])], JsMap.empty, 6⟩ :
          Worker.LouvPart).ntc.getD e.2 0 = c2) ∨
        ((⟨[("a", 0), ("b", 1), ("c", 1), ("d", 1)],
            [(0, ["a"]), (1, ["b", "c", "d"])], JsMap.empty, 6⟩ :
          Worker.LouvPart).ntc.getD e.1 0 = c2 ∧
         (⟨[("a", 0), ("b", 1), ("c", 1), ("d", 1)],
            [(0, ["a"]), (1, ["b", "c", "d"])], JsMap.empty, 6⟩ :
          Worker.LouvPart).ntc.getD e.2 0 = c1))).length)) :=
  ⟨by decide, by decide,
   C9_aggregation_no_self_loops
     ⟨["a", "b", "c", "d"], [("a", "b"), ("b", "c"), ("c", "d")],
       JsMap.empty, JsMap.empty, 3⟩
     ⟨[("a", 0), ("b", 1), ("c", 1), ("d", 1)],
       [(0, ["a"]), (1, ["b", "c", "d"])], JsMap.empty, 6⟩
     (by decide) (by decide)⟩

/-! ## The LFR benchmark generator (src/utils/centrality.ts)

`Math.pow` is the oracle `jsPow`; `Math.random` is modelled by the stream
`rng` of pre-drawn values, consumed one per call in call order (an exhausted
stream yields 0). An array index computed from a draw that breaks the
`Math.random` contract would read `undefined` in JavaScript; here an
out-of-range swap index leaves the array unchanged and an out-of-range pick
falls back to the empty string. -/

namespace Cent

def powerLawSample (jsPow : JsNum → JsNum → JsNum) (minv maxv : ℤ)
    (exponent : JsNum) (y : JsNum) : ℤ :=
  let alpha := JsNum.ofNat 1 - exponent
  let minAlpha := jsPow (JsNum.ofInt minv) alpha
  let maxAlpha := jsPow (JsNum.ofInt maxv) alpha
  JsNum.round (jsPow ((maxAlpha - minAlpha) * y + minAlpha)
    (JsNum.ofNat 1 / alpha))

def lfrListMax : List ℤ → ℤ
  | [] => 0
  | x :: xs => xs.foldl max x

/-- Step 1: community sizes; the fuel bounds the `while (nRemaining > 0)`
iterations (each well-formed iteration removes at least one node, so `n + 1`
suffices; a non-positive sample would loop forever in the source and yields
`none` here). -/
def lfrSizesLoop (jsPow : JsNum → JsNum → JsNum) (minC maxC : ℤ)
    (commExp : JsNum) : ℕ → ℤ → List ℤ → List JsNum →
      Option (List ℤ × List JsNum)
  | 0, nRemaining, acc, rng =>
    if 0 < nRemaining then none else some (acc, rng)
  | fuel + 1, nRemaining, acc, rng =>
    if 0 < nRemaining then
      let maxCSize := min maxC nRemaining
      if maxCSize < minC then
        if 0 < acc.length then
          let maxIndex := acc.findIdx (fun x => x = lfrListMax acc)
          some (acc.set maxIndex (acc.getD maxIndex 0 + nRemaining), rng)
        else some (acc, rng)
      else
        let size0 := powerLawSample jsPow minC maxCSize commExp (rng.headD 0)
        let size := if 0 < nRemaining - size0 ∧ nRemaining - size0 < minC
          then nRemaining else size0
        lfrSizesLoop jsPow minC maxC commExp fuel (nRemaining - size)
          (acc ++ [size]) rng.tail
    else some (acc, rng)

/-- Step 2: nodes `n0, n1, …` grouped into communities of the sampled
sizes. -/
def lfrCommunities (sizes : List ℤ) : List (List String) :=
  (sizes.foldl (fun (acc : List (List String) × ℕ) size =>
    (acc.1 ++ [(List.range size.toNat).map
      (fun i => "n" ++ toString (acc.2 + i))], acc.2 + size.toNat))
    ([], 0)).1

def lfrGroundTruth (comms : List (List String)) : List (String × ℕ) :=
  comms.enum.flatMap (fun pr => pr.2.map (fun nd => (nd, pr.1)))

/-- Step 3, per node: degree bounded by the community constraint, drawn from
the power law only when the effective bounds leave room. -/
def lfrDegreesStep (jsPow : JsNum → JsNum → JsNum) (n : ℕ) (mu : JsNum)
    (minD maxD : ℤ) (degExp : JsNum) (sizeMap : JsMap String ℕ)
    (acc : JsMap String ℤ × ℤ × List JsNum) (nodeId : String) :
    JsMap String ℤ × ℤ × List JsNum :=
  let communitySize := sizeMap.getD nodeId 0
  let maxDegreeFromCommunity :=
    if JsNum.ltB (1e-9 : JsNum) (JsNum.ofNat 1 - mu) then
      JsNum.floor (JsNum.ofInt ((communitySize : ℤ) - 1) / (JsNum.ofNat 1 - mu))
    else (n : ℤ) - 1
  let effectiveMaxDegree := min maxD (min ((n : ℤ) - 1) maxDegreeFromCommunity)
  let effectiveMinDegree := min minD effectiveMaxDegree
  if effectiveMinDegree < effectiveMaxDegree then
    (acc.1.set nodeId (powerLawSample jsPow effectiveMinDegree
        effectiveMaxDegree degExp (acc.2.2.headD 0)),
     acc.2.1 + powerLawSample jsPow effectiveMinDegree effectiveMaxDegree
        degExp (acc.2.2.headD 0),
     acc.2.2.tail)
  else (acc.1.set nodeId effectiveMinDegree,
    acc.2.1 + effectiveMinDegree, acc.2.2)

/-- If the total degree is odd, bump a random node's degree. -/
def lfrDegreesFix (nodes : List String)
    (dt : JsMap String ℤ × ℤ × List JsNum) : JsMap String ℤ × List JsNum :=
  if dt.2.1 % 2 ≠ 0 then
    let idx := (JsNum.floor (dt.2.2.headD 0 * JsNum.ofNat nodes.length)).toNat
    let randNodeId := nodes.getD idx ""
    (dt.1.set randNodeId (dt.1.getD randNodeId 0 + 1), dt.2.2.tail)
  else (dt.1, dt.2.2)

/-- Step 4: split each degree into internal/external stubs,
`external = Math.round(k * mu)`. -/
def lfrProps0 (mu : JsNum) (degrees : JsMap String ℤ) (nodes : List String) :
    JsMap String (ℤ × ℤ) :=
  nodes.foldl (fun m nodeId =>
    (m.set nodeId (degrees.getD nodeId 0 -
        JsNum.round (JsNum.ofInt (degrees.getD nodeId 0) * mu),
      JsNum.round (JsNum.ofInt (degrees.getD nodeId 0) * mu)))) JsMap.empty

/-- Per community, if the internal-degree sum is odd, swap one stub on a
random node. -/
def lfrParityFix (props : JsMap String (ℤ × ℤ))
    (comms : List (List String)) (rng : List JsNum) :
    JsMap String (ℤ × ℤ) × List JsNum :=
  comms.foldl (fun (acc : JsMap String (ℤ × ℤ) × List JsNum) communityNodes =>
    let s := communityNodes.foldl
      (fun sum nodeId => sum + (acc.1.getD nodeId (0, 0)).1) 0
    if s % 2 ≠ 0 then
      let idx := (JsNum.floor (acc.2.headD 0 *
        JsNum.ofNat communityNodes.length)).toNat
      let nodeToFixId := communityNodes.getD idx ""
      let props0 := acc.1.getD nodeToFixId (0, 0)
      if 0 < props0.1 then
        (acc.1.set nodeToFixId (props0.1 - 1, props0.2 + 1), acc.2.tail)
      else (acc.1.set nodeToFixId (props0.1 + 1, props0.2 - 1), acc.2.tail)
    else acc) (props, rng)

/-- Step 5: one stub per unit of internal (per community) / external
degree. -/
def lfrStubs (props : JsMap String (ℤ × ℤ)) (comms : List (List String)) :
    List (List String) × List String :=
  comms.foldl (fun (acc : List (List String) × List String) communityNodes =>
    let built := communityNodes.foldl
      (fun (b : List String × List String) nodeId =>
        (b.1 ++ List.replicate (props.getD nodeId (0, 0)).1.toNat nodeId,
         b.2 ++ List.replicate (props.getD nodeId (0, 0)).2.toNat nodeId))
      ([], acc.2)
    (acc.1 ++ [built.1], built.2)) ([], [])

def swapIdx {α : Type} (l : List α) (i j : ℕ) : List α :=
  match l.get? i, l.get? j with
  | some a, some b => (l.set i b).set j a
  | _, _ => l

/-- Fisher-Yates `shuffle`; the argument counts the remaining loop
iterations (`i` runs from `length - 1` down to `1`). -/
def jsShuffleAux {α : Type} : ℕ → List α → List JsNum → List α × List JsNum
  | 0, l, rng => (l, rng)
  | i + 1, l, rng =>
    let j := (JsNum.floor (rng.headD 0 * JsNum.ofNat (i + 2))).toNat
    jsShuffleAux i (swapIdx l (i + 1) j) rng.tail

/-- `addLink`: skip self-loops and already-present pairs (either
orientation), else append the key `u|v`. -/
def lfrAddLink (links : List String) (u v : String) : List String :=
  if u = v then links
  else if (u ++ "|" ++ v) ∈ links ∨ (v ++ "|" ++ u) ∈ links then links
  else links ++ [u ++ "|" ++ v]

/-- The pairing loop `for (i = 0; i < stubs.length; i += 2)` guarded by
`if (stubs[i + 1])`. -/
def lfrPairUp : List String → List (String × String)
  | a :: b :: rest => (a, b) :: lfrPairUp rest
  | _ => []

/-- Step 6: connect internal stubs per community, then external stubs. -/
def lfrLinks (internalStubs : List (List String)) (externalStubs : List String)
    (rng : List JsNum) : List String × List JsNum :=
  let afterInternal := internalStubs.foldl
    (fun (acc : List String × List JsNum) stubs =>
      let sh := jsShuffleAux (stubs.length - 1) stubs acc.2
      ((lfrPairUp sh.1).foldl (fun ls pr => lfrAddLink ls pr.1 pr.2) acc.1,
       sh.2)) ([], rng)
  let shExt := jsShuffleAux (externalStubs.length - 1) externalStubs
    afterInternal.2
  ((lfrPairUp shExt.1).foldl (fun ls pr => lfrAddLink ls pr.1 pr.2)
    afterInternal.1, shExt.2)

/-- The generator's output, together with the intermediate tables the
statements below constrain. -/
structure LFRResult where
  communities : List (List String)
  groundTruth : List (String × ℕ)
  degrees : JsMap String ℤ
  props : JsMap String (ℤ × ℤ)
  internalStubs : List (List String)
  externalStubs : List String
  links : List (String × String)
deriving Repr, DecidableEq

def lfrNodes (sizes : List ℤ) : List String := (lfrCommunities sizes).flatten

/-- The `nodeToCommunitySize` map. -/
def lfrSizeMap (sizes : List ℤ) : JsMap String ℕ :=
  (lfrCommunities sizes).foldl (fun m c =>
    c.foldl (fun m2 nd => m2.set nd c.length) m) JsMap.empty

def lfrDT (jsPow : JsNum → JsNum → JsNum) (n : ℕ) (mu degreeExponent : JsNum)
    (minDegree maxDegree : ℤ) (sizes : List ℤ) (rng1 : List JsNum) :
    JsMap String ℤ × ℤ × List JsNum :=
  (lfrNodes sizes).foldl
    (lfrDegreesStep jsPow n mu minDegree maxDegree degreeExponent
      (lfrSizeMap sizes))
    (JsMap.empty, 0, rng1)

def lfrFixed (jsPow : JsNum → JsNum → JsNum) (n : ℕ)
    (mu degreeExponent : JsNum) (minDegree maxDegree : ℤ) (sizes : List ℤ)
    (rng1 : List JsNum) : JsMap String ℤ × List JsNum :=
  lfrDegreesFix (lfrNodes sizes)
    (lfrDT jsPow n mu degreeExponent minDegree maxDegree sizes rng1)

def lfrPF (jsPow : JsNum → JsNum → JsNum) (n : ℕ) (mu degreeExponent : JsNum)
    (minDegree maxDegree : ℤ) (sizes : List ℤ) (rng1 : List JsNum) :
    JsMap String (ℤ × ℤ) × List JsNum :=
  lfrParityFix
    (lfrProps0 mu
      (lfrFixed jsPow n mu degreeExponent minDegree maxDegree sizes rng1).1
      (lfrNodes sizes))
    (lfrCommunities sizes)
    (lfrFixed jsPow n mu degreeExponent minDegree maxDegree sizes rng1).2

def lfrStubsOf (jsPow : JsNum → JsNum → JsNum) (n : ℕ)
    (mu degreeExponent : JsNum) (minDegree maxDegree : ℤ) (sizes : List ℤ)
    (rng1 : List JsNum) : List (List String) × List String :=
  lfrStubs (lfrPF jsPow n mu degreeExponent minDegree maxDegree sizes rng1).1
    (lfrCommunities sizes)

def lfrLinksOf (jsPow : JsNum → JsNum → JsNum) (n : ℕ)
    (mu degreeExponent : JsNum) (minDegree maxDegree : ℤ) (sizes : List ℤ)
    (rng1 : List JsNum) : List String × List JsNum :=
  lfrLinks
    (lfrStubsOf jsPow n mu degreeExponent minDegree maxDegree sizes rng1).1
    (lfrStubsOf jsPow n mu degreeExponent minDegree maxDegree sizes rng1).2
    (lfrPF jsPow n mu degreeExponent minDegree maxDegree sizes rng1).2

/-- The body of the `some` branch of `generateLFRNetwork`. -/
def lfrAssemble (jsPow : JsNum → JsNum → JsNum) (n : ℕ)
    (mu degreeExponent : JsNum) (minDegree maxDegree : ℤ) (sizes : List ℤ)
    (rng1 : List JsNum) : LFRResult :=
  ⟨lfrCommunities sizes, lfrGroundTruth (lfrCommunities sizes),
    (lfrFixed jsPow n mu degreeExponent minDegree maxDegree sizes rng1).1,
    (lfrPF jsPow n mu degreeExponent minDegree maxDegree sizes rng1).1,
    (lfrStubsOf jsPow n mu degreeExponent minDegree maxDegree sizes rng1).1,
    (lfrStubsOf jsPow n mu degreeExponent minDegree maxDegree sizes rng1).2,
    (lfrLinksOf jsPow n mu degreeExponent minDegree maxDegree sizes rng1).1.map
      (fun key =>
        ((Worker.splitPipe key).getD 0 "", (Worker.splitPipe key).getD 1 ""))⟩

/-- `generateLFRNetwork`; `none` only when the community-size loop would not
terminate. -/
def generateLFRNetwork (jsPow : JsNum → JsNum → JsNum) (rng : List JsNum)
    (n : ℕ) (mu degreeExponent communityExponent : JsNum)
    (minCommunity0 maxCommunity0 minDegree0 maxDegree0 : ℤ) :
    Option LFRResult :=
  match lfrSizesLoop jsPow (min minCommunity0 maxCommunity0)
      (max minCommunity0 maxCommunity0) communityExponent
      (n + 1) (n : ℤ) [] rng with
  | none => none
  | some (sizes, rng1) =>
    some (lfrAssemble jsPow n mu degreeExponent
      (min minDegree0 maxDegree0) (max minDegree0 maxDegree0) sizes rng1)

end Cent

theorem JsNum.round_mul_zero (k : ℤ) :
    JsNum.round (JsNum.ofInt k * (0 : JsNum)) = 0 := by
  have h : JsNum.ofInt k * (0 : JsNum) = ⟨0, 1⟩ := by
    show JsNum.mul _ _ = _
    unfold JsNum.mul JsNum.ofInt
    show (⟨k * (0 : JsNum).num, 1 * (0 : JsNum).den⟩ : JsNum) = _
    have h0 : (0 : JsNum).num = 0 := rfl
    have h1 : (0 : JsNum).den = 1 := rfl
    rw [h0, h1]
    simp
  rw [h]
  decide

theorem JsNum.round_mul_one (k : ℤ) :
    JsNum.round (JsNum.ofInt k * (1 : JsNum)) = k := by
  have h : JsNum.ofInt k * (1 : JsNum) = ⟨k, 1⟩ := by
    show JsNum.mul _ _ = _
    unfold JsNum.mul JsNum.ofInt
    show (⟨k * (1 : JsNum).num, 1 * (1 : JsNum).den⟩ : JsNum) = _
    have h0 : (1 : JsNum).num = 1 := rfl
    have h1 : (1 : JsNum).den = 1 := rfl
    rw [h0, h1]
    simp
  rw [h]
  show Int.fdiv (k * 2 + 1 * 1) (1 * 2) = k
  simp only [one_mul, mul_one]
  rw [Int.fdiv_eq_ediv _ (by norm_num)]
  omega

theorem JsMap.set_cons_eq {K V : Type} [DecidableEq K] (k' : K) (v' : V)
    (rest : JsMap K V) (k : K) (v : V) :
    JsMap.set ((k', v') :: rest) k v =
      if k' = k then (k, v) :: rest else (k', v') :: JsMap.set rest k v := rfl

theorem JsMap.mem_set_elim {K V : Type} [DecidableEq K] :
    ∀ (m : JsMap K V) (k : K) (v : V) (pr : K × V),
    pr ∈ m.set k v → pr = (k, v) ∨ pr ∈ m
  | [], k, v, pr => by
    intro h
    simp [JsMap.set] at h
    exact Or.inl h
  | (k', v') :: rest, k, v, pr => by
    intro h
    show pr = (k, v) ∨ pr ∈ (k', v') :: rest
    by_cases hk : k' = k
    · rw [JsMap.set_cons_eq, if_pos hk] at h
      rcases List.mem_cons.mp h with h | h
      · exact Or.inl h
      · exact Or.inr (List.mem_cons_of_mem _ h)
    · rw [JsMap.set_cons_eq, if_neg hk] at h
      rcases List.mem_cons.mp h with h | h
      · exact Or.inr (h ▸ List.mem_cons_self _ _)
      · rcases JsMap.mem_set_elim rest k v pr h with h | h
        · exact Or.inl h
        · exact Or.inr (List.mem_cons_of_mem _ h)

theorem JsMap.mem_foldl_set {K V : Type} [DecidableEq K] (F : K → V) :
    ∀ (l : List K) (m0 : JsMap K V) (pr : K × V),
    pr ∈ l.foldl (fun m nd => m.set nd (F nd)) m0 →
    pr ∈ m0 ∨ ∃ nd ∈ l, pr = (nd, F nd)
  | [], m0, pr => by
    intro h
    exact Or.inl h
  | nd :: rest, m0, pr => by
    intro h
    rw [List.foldl_cons] at h
    rcases JsMap.mem_foldl_set F rest (m0.set nd (F nd)) pr h with h | ⟨nd', h1, h2⟩
    · rcases JsMap.mem_set_elim m0 nd (F nd) pr h with h | h
      · exact Or.inr ⟨nd, List.mem_cons_self _ _, h⟩
      · exact Or.inl h
    · exact Or.inr ⟨nd', List.mem_cons_of_mem _ h1, h2⟩

theorem JsMap.getD_foldl_set {K V : Type} [DecidableEq K] (F : K → V) :
    ∀ (l : List K) (m0 : JsMap K V) (k : K) (d : V),
    (l.foldl (fun m nd => m.set nd (F nd)) m0).getD k d =
      if k ∈ l then F k else m0.getD k d
  | [], m0, k, d => by simp
  | nd :: rest, m0, k, d => by
    rw [List.foldl_cons, JsMap.getD_foldl_set F rest (m0.set nd (F nd)) k d]
    by_cases hr : k ∈ rest
    · rw [if_pos hr, if_pos (List.mem_cons_of_mem _ hr)]
    · rw [if_neg hr, JsMap.getD_set]
      by_cases hk : k = nd
      · rw [if_pos hk, if_pos (by rw [hk]; exact List.mem_cons_self _ _), hk]
      · rw [if_neg hk, if_neg (by
          intro hm
          rcases List.mem_cons.mp hm with hm | hm
          · exact hk hm
          · exact hr hm)]

theorem foldl_add_congr {α : Type} (f g : α → ℤ) :
    ∀ (l : List α) (z : ℤ), (∀ x ∈ l, f x = g x) →
    l.foldl (fun s x => s + f x) z = l.foldl (fun s x => s + g x) z
  | [], z => by intro _; rfl
  | x :: rest, z => by
    intro h
    rw [List.foldl_cons, List.foldl_cons, h x (List.mem_cons_self _ _),
      foldl_add_congr f g rest (z + g x) (fun y hy => h y (List.mem_cons_of_mem _ hy))]

theorem foldl_add_zero {α : Type} (f : α → ℤ) :
    ∀ (l : List α) (z : ℤ), (∀ x ∈ l, f x = 0) →
    l.foldl (fun s x => s + f x) z = z
  | [], z => by intro _; rfl
  | x :: rest, z => by
    intro h
    rw [List.foldl_cons, h x (List.mem_cons_self _ _), add_zero,
      foldl_add_zero f rest z (fun y hy => h y (List.mem_cons_of_mem _ hy))]

namespace Cent

theorem lfrCommunities_mem (sizes : List ℤ) :
    ∀ c ∈ lfrCommunities sizes, ∀ nd ∈ c, ∃ i : ℕ, nd = "n" ++ toString i := by
  unfold lfrCommunities
  suffices hgen : ∀ (l : List ℤ) (acc : List (List String) × ℕ),
      (∀ c ∈ acc.1, ∀ nd ∈ c, ∃ i : ℕ, nd = "n" ++ toString i) →
      ∀ c ∈ (l.foldl (fun (acc : List (List String) × ℕ) size =>
        (acc.1 ++ [(List.range size.toNat).map
          (fun i => "n" ++ toString (acc.2 + i))], acc.2 + size.toNat)) acc).1,
      ∀ nd ∈ c, ∃ i : ℕ, nd = "n" ++ toString i by
    exact hgen sizes ([], 0) (by simp)
  intro l
  induction l with
  | nil => intro acc h; exact h
  | cons size rest ih =>
    intro acc h
    rw [List.foldl_cons]
    apply ih
    intro c hc
    rcases List.mem_append.mp hc with hc | hc
    · exact h c hc
    · intro nd hnd
      rw [List.mem_singleton.mp hc] at hnd
      rcases List.mem_map.mp hnd with ⟨i, _, hi⟩
      exact ⟨acc.2 + i, hi.symm⟩

theorem nodeId_pipe_free (i : ℕ) : ∀ ch ∈ ("n" ++ toString i).data, ch ≠ '|' := by
  intro ch hch
  rw [String.data_append] at hch
  rcases List.mem_append.mp hch with hch | hch
  · simp only [List.mem_singleton.mp (by simpa using hch)]
    decide
  · rw [toString_nat_eq] at hch
    exact natRepr_pipe_free i ch hch

theorem swapIdx_mem {α : Type} (l : List α) (i j : ℕ) :
    ∀ x ∈ swapIdx l i j, x ∈ l := by
  unfold swapIdx
  cases hi : l.get? i with
  | none => intro x hx; exact hx
  | some a =>
    cases hj : l.get? j with
    | none => intro x hx; exact hx
    | some b =>
      intro x hx
      rcases List.mem_or_eq_of_mem_set hx with hx | hx
      · rcases List.mem_or_eq_of_mem_set hx with hx | hx
        · exact hx
        · rw [hx]
          exact List.get?_mem hj
      · rw [hx]
        exact List.get?_mem hi

theorem jsShuffleAux_mem {α : Type} :
    ∀ (fuel : ℕ) (l : List α) (rng : List JsNum),
    ∀ x ∈ (jsShuffleAux fuel l rng).1, x ∈ l
  | 0, l, rng => by intro x hx; exact hx
  | i + 1, l, rng => by
    intro x hx
    exact swapIdx_mem l (i + 1) _ x
      (jsShuffleAux_mem i _ rng.tail x hx)

theorem lfrPairUp_mem : ∀ (l : List String) (pr : String × String),
    pr ∈ lfrPairUp l → pr.1 ∈ l ∧ pr.2 ∈ l
  | [], pr => by intro h; cases h
  | [a], pr => by intro h; cases h
  | a :: b :: rest, pr => by
    intro h
    rcases List.mem_cons.mp h with h | h
    · rw [h]
      exact ⟨List.mem_cons_self _ _,
        List.mem_cons_of_mem _ (List.mem_cons_self _ _)⟩
    · obtain ⟨h1, h2⟩ := lfrPairUp_mem rest pr h
      exact ⟨List.mem_cons_of_mem _ (List.mem_cons_of_mem _ h1),
        List.mem_cons_of_mem _ (List.mem_cons_of_mem _ h2)⟩

theorem lfrAddLink_mem (links : List String) (u v : String) :
    ∀ k ∈ lfrAddLink links u v, k ∈ links ∨ k = u ++ "|" ++ v := by
  unfold lfrAddLink
  intro k hk
  split at hk
  · exact Or.inl hk
  · split at hk
    · exact Or.inl hk
    · rcases List.mem_append.mp hk with hk | hk
      · exact Or.inl hk
      · exact Or.inr (List.mem_singleton.mp hk)

theorem lfrAddLink_fold_mem (pairs : List (String × String)) :
    ∀ (links : List String) (k : String),
    k ∈ pairs.foldl (fun ls pr => lfrAddLink ls pr.1 pr.2) links →
    k ∈ links ∨ ∃ pr ∈ pairs, k = pr.1 ++ "|" ++ pr.2 := by
  induction pairs with
  | nil => intro links k hk; exact Or.inl hk
  | cons pr rest ih =>
    intro links k hk
    rw [List.foldl_cons] at hk
    rcases ih _ k hk with hk | ⟨pr', h1, h2⟩
    · rcases lfrAddLink_mem links pr.1 pr.2 k hk with hk | hk
      · exact Or.inl hk
      · exact Or.inr ⟨pr, List.mem_cons_self _ _, hk⟩
    · exact Or.inr ⟨pr', List.mem_cons_of_mem _ h1, h2⟩

theorem lfrStubs_inner_mem (props : JsMap String (ℤ × ℤ)) :
    ∀ (c : List String) (b0 : List String × List String),
    ∀ x ∈ (c.foldl (fun (b : List String × List String) nodeId =>
      (b.1 ++ List.replicate (props.getD nodeId (0, 0)).1.toNat nodeId,
       b.2 ++ List.replicate (props.getD nodeId (0, 0)).2.toNat nodeId)) b0).1,
    x ∈ b0.1 ∨ x ∈ c
  | [], b0 => by intro x hx; exact Or.inl hx
  | nd :: rest, b0 => by
    intro x hx
    rw [List.foldl_cons] at hx
    rcases lfrStubs_inner_mem props rest _ x hx with hx | hx
    · rcases List.mem_append.mp hx with hx | hx
      · exact Or.inl hx
      · exact Or.inr (by
          rw [List.eq_of_mem_replicate hx]
          exact List.mem_cons_self _ _)
    · exact Or.inr (List.mem_cons_of_mem _ hx)

theorem lfrStubs_inner_ext (props : JsMap String (ℤ × ℤ)) :
    ∀ (c : List String) (b0 : List String × List String),
    (∀ nd ∈ c, (props.getD nd (0, 0)).2 = 0) →
    (c.foldl (fun (b : List String × List String) nodeId =>
      (b.1 ++ List.replicate (props.getD nodeId (0, 0)).1.toNat nodeId,
       b.2 ++ List.replicate (props.getD nodeId (0, 0)).2.toNat nodeId)) b0).2
      = b0.2
  | [], b0 => by intro _; rfl
  | nd :: rest, b0 => by
    intro h
    rw [List.foldl_cons,
      lfrStubs_inner_ext props rest _ (fun x hx => h x (List.mem_cons_of_mem _ hx))]
    rw [h nd (List.mem_cons_self _ _)]
    simp

theorem lfrStubs_inner_int (props : JsMap String (ℤ × ℤ)) :
    ∀ (c : List String) (b0 : List String × List String),
    (∀ nd ∈ c, (props.getD nd (0, 0)).1 = 0) →
    (c.foldl (fun (b : List String × List String) nodeId =>
      (b.1 ++ List.replicate (props.getD nodeId (0, 0)).1.toNat nodeId,
       b.2 ++ List.replicate (props.getD nodeId (0, 0)).2.toNat nodeId)) b0).1
      = b0.1
  | [], b0 => by intro _; rfl
  | nd :: rest, b0 => by
    intro h
    rw [List.foldl_cons,
      lfrStubs_inner_int props rest _ (fun x hx => h x (List.mem_cons_of_mem _ hx))]
    rw [h nd (List.mem_cons_self _ _)]
    simp

theorem lfrStubs_ext_empty (props : JsMap String (ℤ × ℤ))
    (comms : List (List String))
    (h : ∀ c ∈ comms, ∀ nd ∈ c, (props.getD nd (0, 0)).2 = 0) :
    (lfrStubs props comms).2 = [] := by
  unfold lfrStubs
  suffices hgen : ∀ (l : List (List String)) (acc : List (List String) × List String),
      (∀ c ∈ l, ∀ nd ∈ c, (props.getD nd (0, 0)).2 = 0) → acc.2 = [] →
      (l.foldl (fun (acc : List (List String) × List String) communityNodes =>
        (acc.1 ++ [(communityNodes.foldl (fun (b : List String × List String) nodeId =>
          (b.1 ++ List.replicate (props.getD nodeId (0, 0)).1.toNat nodeId,
           b.2 ++ List.replicate (props.getD nodeId (0, 0)).2.toNat nodeId))
          ([], acc.2)).1],
         (communityNodes.foldl (fun (b : List String × List String) nodeId =>
          (b.1 ++ List.replicate (props.getD nodeId (0, 0)).1.toNat nodeId,
           b.2 ++ List.replicate (props.getD nodeId (0, 0)).2.toNat nodeId))
          ([], acc.2)).2)) acc).2 = [] by
    exact hgen comms ([], []) h rfl
  intro l
  induction l with
  | nil => intro acc _ h2; exact h2
  | cons c rest ih =>
    intro acc h h2
    rw [List.foldl_cons]
    apply ih
    · intro c' hc'
      exact h c' (List.mem_cons_of_mem _ hc')
    · rw [lfrStubs_inner_ext props c ([], acc.2) (h c (List.mem_cons_self _ _))]
      exact h2

theorem lfrStubs_int_mem (props : JsMap String (ℤ × ℤ))
    (comms : List (List String)) :
    ∀ s ∈ (lfrStubs props comms).1, ∃ c ∈ comms, ∀ nd ∈ s, nd ∈ c := by
  unfold lfrStubs
  suffices hgen : ∀ (l : List (List String)) (acc : List (List String) × List String),
      (∀ c ∈ l, c ∈ comms) →
      (∀ s ∈ acc.1, ∃ c ∈ comms, ∀ nd ∈ s, nd ∈ c) →
      ∀ s ∈ (l.foldl (fun (acc : List (List String) × List String) communityNodes =>
        (acc.1 ++ [(communityNodes.foldl (fun (b : List String × List String) nodeId =>
          (b.1 ++ List.replicate (props.getD nodeId (0, 0)).1.toNat nodeId,
           b.2 ++ List.replicate (props.getD nodeId (0, 0)).2.toNat nodeId))
          ([], acc.2)).1],
         (communityNodes.foldl (fun (b : List String × List String) nodeId =>
          (b.1 ++ List.replicate (props.getD nodeId (0, 0)).1.toNat nodeId,
           b.2 ++ List.replicate (props.getD nodeId (0, 0)).2.toNat nodeId))
          ([], acc.2)).2)) acc).1,
      ∃ c ∈ comms, ∀ nd ∈ s, nd ∈ c by
    exact hgen comms ([], []) (fun c hc => hc) (by simp)
  intro l
  induction l with
  | nil => intro acc _ h; exact h
  | cons c rest ih =>
    intro acc hsub h
    rw [List.foldl_cons]
    apply ih
    · intro c' hc'
      exact hsub c' (List.mem_cons_of_mem _ hc')
    · intro s' hs'
      rcases List.mem_append.mp hs' with hs' | hs'
      · exact h s' hs'
      · refine ⟨c, hsub c (List.mem_cons_self _ _), ?_⟩
        intro nd hnd
        rw [List.mem_singleton.mp hs'] at hnd
        rcases lfrStubs_inner_mem props c ([], acc.2) nd hnd with hnd | hnd
        · cases hnd
        · exact hnd

theorem lfrStubs_int_empty (props : JsMap String (ℤ × ℤ))
    (comms : List (List String))
    (h : ∀ c ∈ comms, ∀ nd ∈ c, (props.getD nd (0, 0)).1 = 0) :
    ∀ s ∈ (lfrStubs props comms).1, s = [] := by
  unfold lfrStubs
  suffices hgen : ∀ (l : List (List String)) (acc : List (List String) × List String),
      (∀ c ∈ l, ∀ nd ∈ c, (props.getD nd (0, 0)).1 = 0) →
      (∀ s ∈ acc.1, s = []) →
      ∀ s ∈ (l.foldl (fun (acc : List (List String) × List String) communityNodes =>
        (acc.1 ++ [(communityNodes.foldl (fun (b : List String × List String) nodeId =>
          (b.1 ++ List.replicate (props.getD nodeId (0, 0)).1.toNat nodeId,
           b.2 ++ List.replicate (props.getD nodeId (0, 0)).2.toNat nodeId))
          ([], acc.2)).1],
         (communityNodes.foldl (fun (b : List String × List String) nodeId =>
          (b.1 ++ List.replicate (props.getD nodeId (0, 0)).1.toNat nodeId,
           b.2 ++ List.replicate (props.getD nodeId (0, 0)).2.toNat nodeId))
          ([], acc.2)).2)) acc).1, s = [] by
    exact hgen comms ([], []) h (by simp)
  intro l
  induction l with
  | nil => intro acc _ h2; exact h2
  | cons c rest ih =>
    intro acc h h2
    rw [List.foldl_cons]
    apply ih
    · intro c' hc'
      exact h c' (List.mem_cons_of_mem _ hc')
    · intro s hs
      rcases List.mem_append.mp hs with hs | hs
      · exact h2 s hs
      · rw [List.mem_singleton.mp hs,
          lfrStubs_inner_int props c ([], acc.2) (h c (List.mem_cons_self _ _))]

theorem lfrParityFix_id (props : JsMap String (ℤ × ℤ)) :
    ∀ (comms : List (List String)) (rng : List JsNum),
    (∀ c ∈ comms,
      (c.foldl (fun sum nodeId => sum + (props.getD nodeId (0, 0)).1) 0) % 2 = 0) →
    lfrParityFix props comms rng = (props, rng)
  | [], rng => by intro _; rfl
  | c :: rest, rng => by
    intro h
    have hc := h c (List.mem_cons_self _ _)
    unfold lfrParityFix
    rw [List.foldl_cons]
    have hstep :
        (let s := List.foldl (fun sum nodeId =>
          sum + (((props, rng) :
            JsMap String (ℤ × ℤ) × List JsNum).1.getD nodeId (0, 0)).1) 0 c
         if s % 2 ≠ 0 then
          let idx := ((props, rng).2.headD 0 * JsNum.ofNat c.length).floor.toNat
          let nodeToFixId := c.getD idx ""
          let props0 := (props, rng).1.getD nodeToFixId (0, 0)
          if 0 < props0.1 then
            ((props, rng).1.set nodeToFixId (props0.1 - 1, props0.2 + 1),
              (props, rng).2.tail)
          else ((props, rng).1.set nodeToFixId (props0.1 + 1, props0.2 - 1),
            (props, rng).2.tail)
         else (props, rng)) = (props, rng) := by
      show (if (c.foldl (fun sum nodeId => sum + (props.getD nodeId (0, 0)).1) 0)
          % 2 ≠ 0 then _ else (props, rng)) = (props, rng)
      rw [if_neg (not_not_intro hc)]
    rw [hstep]
    exact lfrParityFix_id props rest rng
      (fun c' hc' => h c' (List.mem_cons_of_mem _ hc'))


theorem lfrProps0_getD (mu : JsNum) (degrees : JsMap String ℤ)
    (nodes : List String) (nd : String) (hnd : nd ∈ nodes) :
    (lfrProps0 mu degrees nodes).getD nd (0, 0) =
      (degrees.getD nd 0 - JsNum.round (JsNum.ofInt (degrees.getD nd 0) * mu),
       JsNum.round (JsNum.ofInt (degrees.getD nd 0) * mu)) := by
  unfold lfrProps0
  rw [JsMap.getD_foldl_set (fun nodeId =>
    (degrees.getD nodeId 0 -
      JsNum.round (JsNum.ofInt (degrees.getD nodeId 0) * mu),
     JsNum.round (JsNum.ofInt (degrees.getD nodeId 0) * mu)))
    nodes JsMap.empty nd (0, 0)]
  rw [if_pos hnd]

theorem lfrProps0_mem (mu : JsNum) (degrees : JsMap String ℤ)
    (nodes : List String) : ∀ pr ∈ lfrProps0 mu degrees nodes,
    pr.2 = (degrees.getD pr.1 0 -
        JsNum.round (JsNum.ofInt (degrees.getD pr.1 0) * mu),
      JsNum.round (JsNum.ofInt (degrees.getD pr.1 0) * mu)) := by
  intro pr hpr
  unfold lfrProps0 at hpr
  rcases JsMap.mem_foldl_set (fun nodeId =>
      (degrees.getD nodeId 0 -
        JsNum.round (JsNum.ofInt (degrees.getD nodeId 0) * mu),
       JsNum.round (JsNum.ofInt (degrees.getD nodeId 0) * mu)))
      nodes JsMap.empty pr hpr with h | ⟨nd, _, h⟩
  · cases h
  · rw [h]

theorem lfrLinks_internal_mem (comms : List (List String)) :
    ∀ (internalStubs : List (List String)),
    (∀ s ∈ internalStubs, ∃ c ∈ comms, ∀ nd ∈ s, nd ∈ c) →
    ∀ (rng : List JsNum) (init : List String),
    (∀ k ∈ init, ∃ u v c, c ∈ comms ∧ u ∈ c ∧ v ∈ c ∧ k = u ++ "|" ++ v) →
    ∀ k ∈ (internalStubs.foldl (fun (acc : List String × List JsNum) stubs =>
      let sh := jsShuffleAux (stubs.length - 1) stubs acc.2
      ((lfrPairUp sh.1).foldl (fun ls pr => lfrAddLink ls pr.1 pr.2) acc.1,
       sh.2)) (init, rng)).1,
    ∃ u v c, c ∈ comms ∧ u ∈ c ∧ v ∈ c ∧ k = u ++ "|" ++ v
  | [] => by
    intro _ rng init hinit k hk
    exact hinit k hk
  | stubs :: rest => by
    intro hstub rng init hinit k hk
    rw [List.foldl_cons] at hk
    refine lfrLinks_internal_mem comms rest
      (fun s hs => hstub s (List.mem_cons_of_mem _ hs)) _ _ ?_ k hk
    intro k' hk'
    rcases lfrAddLink_fold_mem _ _ k' hk' with hk' | ⟨pr, hpr, hkey⟩
    · exact hinit k' hk'
    · obtain ⟨c, hc, hmem⟩ := hstub stubs (List.mem_cons_self _ _)
      obtain ⟨h1, h2⟩ := lfrPairUp_mem _ pr hpr
      exact ⟨pr.1, pr.2, c, hc,
        hmem _ (jsShuffleAux_mem _ _ _ _ h1),
        hmem _ (jsShuffleAux_mem _ _ _ _ h2), hkey⟩

end Cent

/-- C6, corrected: with `mu = 0`, all stubs stay internal only when every
community's degree sum is even — otherwise the per-community parity fix
swaps an internal stub for an external one and the generator can emit an
inter-community edge (see the counterexample). Under the evenness
hypothesis the external stub list is empty and every generated link joins
two nodes of one ground-truth community; with `mu = 1` every node's
internal degree is 0 and every internal stub list is empty,
unconditionally. -/
theorem C6_lfr_mu_extremes (jsPow : JsNum → JsNum → JsNum) (rng : List JsNum)
    (n : ℕ) (degE commE : JsNum) (minC maxC minD maxD : ℤ)
    (res0 res1 : Cent.LFRResult) :
    (Cent.generateLFRNetwork jsPow rng n 0 degE commE minC maxC minD maxD =
        some res0 →
      (∀ c ∈ res0.communities,
        (c.foldl (fun s nd => s + res0.degrees.getD nd 0) 0) % 2 = 0) →
      res0.externalStubs = [] ∧
      (∀ l ∈ res0.links, ∃ comm ∈ res0.communities, l.1 ∈ comm ∧ l.2 ∈ comm)) ∧
    (Cent.generateLFRNetwork jsPow rng n 1 degE commE minC maxC minD maxD =
        some res1 →
      (∀ pr ∈ res1.props, pr.2.1 = 0) ∧
      (∀ s ∈ res1.internalStubs, s = [])) := by
  constructor
  · intro hres heven
    unfold Cent.generateLFRNetwork at hres
    cases hsz : Cent.lfrSizesLoop jsPow (min minC maxC) (max minC maxC) commE
        (n + 1) (n : ℤ) [] rng with
    | none =>
      rw [hsz] at hres
      exact Option.noConfusion hres
    | some pr =>
      rw [hsz] at hres
      obtain ⟨sizes, rng1⟩ := pr
      have hres' : some (Cent.lfrAssemble jsPow n 0 degE (min minD maxD)
          (max minD maxD) sizes rng1) = some res0 := hres
      injection hres' with h
      subst h
      have hP0 : ∀ nd ∈ Cent.lfrNodes sizes,
          (Cent.lfrProps0 0
            (Cent.lfrFixed jsPow n 0 degE (min minD maxD) (max minD maxD)
              sizes rng1).1 (Cent.lfrNodes sizes)).getD nd (0, 0) =
          ((Cent.lfrFixed jsPow n 0 degE (min minD maxD) (max minD maxD)
              sizes rng1).1.getD nd 0, 0) := by
        intro nd hnd
        rw [Cent.lfrProps0_getD 0 _ _ nd hnd, JsNum.round_mul_zero, sub_zero]
      have hsum : ∀ c ∈ Cent.lfrCommunities sizes,
          (c.foldl (fun sum nodeId => sum +
            ((Cent.lfrProps0 0
              (Cent.lfrFixed jsPow n 0 degE (min minD maxD) (max minD maxD)
                sizes rng1).1 (Cent.lfrNodes sizes)).getD nodeId (0, 0)).1) 0)
            % 2 = 0 := by
        intro c hc
        have hpt : ∀ nd ∈ c,
            ((Cent.lfrProps0 0
              (Cent.lfrFixed jsPow n 0 degE (min minD maxD) (max minD maxD)
                sizes rng1).1 (Cent.lfrNodes sizes)).getD nd (0, 0)).1 =
            (Cent.lfrFixed jsPow n 0 degE (min minD maxD) (max minD maxD)
                sizes rng1).1.getD nd 0 := by
          intro nd hnd
          rw [hP0 nd (List.mem_flatten.mpr ⟨c, hc, hnd⟩)]
        rw [foldl_add_congr _ _ c 0 hpt]
        exact heven c hc
      have hpf : Cent.lfrPF jsPow n 0 degE (min minD maxD) (max minD maxD)
          sizes rng1 =
          (Cent.lfrProps0 0
            (Cent.lfrFixed jsPow n 0 degE (min minD maxD) (max minD maxD)
              sizes rng1).1 (Cent.lfrNodes sizes),
           (Cent.lfrFixed jsPow n 0 degE (min minD maxD) (max minD maxD)
              sizes rng1).2) := by
        unfold Cent.lfrPF
        exact Cent.lfrParityFix_id _ _ _ hsum
      have hext : (Cent.lfrStubsOf jsPow n 0 degE (min minD maxD)
          (max minD maxD) sizes rng1).2 = [] := by
        unfold Cent.lfrStubsOf
        rw [hpf]
        refine Cent.lfrStubs_ext_empty _ _ ?_
        intro c hc nd hnd
        rw [hP0 nd (List.mem_flatten.mpr ⟨c, hc, hnd⟩)]
      refine ⟨hext, ?_⟩
      show ∀ l ∈ (Cent.lfrLinksOf jsPow n 0 degE (min minD maxD)
          (max minD maxD) sizes rng1).1.map (fun key =>
            ((Worker.splitPipe key).getD 0 "", (Worker.splitPipe key).getD 1 "")),
        ∃ comm ∈ Cent.lfrCommunities sizes, l.1 ∈ comm ∧ l.2 ∈ comm
      have hlinks1 : (Cent.lfrLinksOf jsPow n 0 degE (min minD maxD)
          (max minD maxD) sizes rng1).1 =
          ((Cent.lfrStubsOf jsPow n 0 degE (min minD maxD) (max minD maxD)
            sizes rng1).1.foldl
            (fun (acc : List String × List JsNum) stubs =>
              let sh := Cent.jsShuffleAux (stubs.length - 1) stubs acc.2
              ((Cent.lfrPairUp sh.1).foldl
                (fun ls pr => Cent.lfrAddLink ls pr.1 pr.2) acc.1, sh.2))
            ([], (Cent.lfrPF jsPow n 0 degE (min minD maxD) (max minD maxD)
              sizes rng1).2)).1 := by
        unfold Cent.lfrLinksOf Cent.lfrLinks
        rw [hext]
        rfl
      intro l hl
      rcases List.mem_map.mp hl with ⟨key, hkey, hdec⟩
      rw [hlinks1] at hkey
      have hchar := Cent.lfrLinks_internal_mem (Cent.lfrCommunities sizes) _
        (Cent.lfrStubs_int_mem _ _)
        (Cent.lfrPF jsPow n 0 degE (min minD maxD) (max minD maxD)
          sizes rng1).2 []
        (by intro k hk; cases hk) key hkey
      obtain ⟨u, v, c, hc, hu, hv, hkuv⟩ := hchar
      obtain ⟨iu, hiu⟩ := Cent.lfrCommunities_mem sizes c hc u hu
      obtain ⟨iv, hiv⟩ := Cent.lfrCommunities_mem sizes c hc v hv
      have hupf : ∀ ch ∈ u.data, ch ≠ '|' := by
        rw [hiu]
        exact Cent.nodeId_pipe_free iu
      have hvpf : ∀ ch ∈ v.data, ch ≠ '|' := by
        rw [hiv]
        exact Cent.nodeId_pipe_free iv
      refine ⟨c, hc, ?_, ?_⟩
      · rw [← hdec, hkuv, Worker.splitPipe_concat u v hupf hvpf]
        exact hu
      · rw [← hdec, hkuv, Worker.splitPipe_concat u v hupf hvpf]
        exact hv
  · intro hres
    unfold Cent.generateLFRNetwork at hres
    cases hsz : Cent.lfrSizesLoop jsPow (min minC maxC) (max minC maxC) commE
        (n + 1) (n : ℤ) [] rng with
    | none =>
      rw [hsz] at hres
      exact Option.noConfusion hres
    | some pr =>
      rw [hsz] at hres
      obtain ⟨sizes, rng1⟩ := pr
      have hres' : some (Cent.lfrAssemble jsPow n 1 degE (min minD maxD)
          (max minD maxD) sizes rng1) = some res1 := hres
      injection hres' with h
      subst h
      have hP0 : ∀ nd ∈ Cent.lfrNodes sizes,
          (Cent.lfrProps0 1
            (Cent.lfrFixed jsPow n 1 degE (min minD maxD) (max minD maxD)
              sizes rng1).1 (Cent.lfrNodes sizes)).getD nd (0, 0) =
          (0, (Cent.lfrFixed jsPow n 1 degE (min minD maxD) (max minD maxD)
              sizes rng1).1.getD nd 0) := by
        intro nd hnd
        rw [Cent.lfrProps0_getD 1 _ _ nd hnd, JsNum.round_mul_one, sub_self]
      have hsum : ∀ c ∈ Cent.lfrCommunities sizes,
          (c.foldl (fun sum nodeId => sum +
            ((Cent.lfrProps0 1
              (Cent.lfrFixed jsPow n 1 degE (min minD maxD) (max minD maxD)
                sizes rng1).1 (Cent.lfrNodes sizes)).getD nodeId (0, 0)).1) 0)
            % 2 = 0 := by
        intro c hc
        rw [foldl_add_zero _ c 0 (fun nd hnd => by
          rw [hP0 nd (List.mem_flatten.mpr ⟨c, hc, hnd⟩)])]
        rfl
      have hpf : Cent.lfrPF jsPow n 1 degE (min minD maxD) (max minD maxD)
          sizes rng1 =
          (Cent.lfrProps0 1
            (Cent.lfrFixed jsPow n 1 degE (min minD maxD) (max minD maxD)
              sizes rng1).1 (Cent.lfrNodes sizes),
           (Cent.lfrFixed jsPow n 1 degE (min minD maxD) (max minD maxD)
              sizes rng1).2) := by
        unfold Cent.lfrPF
        exact Cent.lfrParityFix_id _ _ _ hsum
      constructor
      · show ∀ pr ∈ (Cent.lfrPF jsPow n 1 degE (min minD maxD) (max minD maxD)
            sizes rng1).1, pr.2.1 = 0
        rw [hpf]
        intro pr hpr
        have hmem := Cent.lfrProps0_mem 1
          (Cent.lfrFixed jsPow n 1 degE (min minD maxD) (max minD maxD)
            sizes rng1).1 (Cent.lfrNodes sizes) pr hpr
        rw [hmem]
        show (Cent.lfrFixed jsPow n 1 degE (min minD maxD) (max minD maxD)
            sizes rng1).1.getD pr.1 0 - JsNum.round
          (JsNum.ofInt ((Cent.lfrFixed jsPow n 1 degE (min minD maxD)
            (max minD maxD) sizes rng1).1.getD pr.1 0) * 1) = 0
        rw [JsNum.round_mul_one]
        exact sub_self _
      · show ∀ s ∈ (Cent.lfrStubsOf jsPow n 1 degE (min minD maxD)
            (max minD maxD) sizes rng1).1, s = []
        unfold Cent.lfrStubsOf
        rw [hpf]
        refine Cent.lfrStubs_int_empty _ _ ?_
        intro c hc nd hnd
        rw [hP0 nd (List.mem_flatten.mpr ⟨c, hc, hnd⟩)]

/-- C6 counterexample: with `mu = 0` (n = 6, two communities of three nodes,
all degrees 1) each community's internal-degree sum is odd, the parity fix
gives one node per community an external stub, and the external pairing emits
the inter-community link `(n3, n0)` — the endpoints' ground-truth communities
are 1 and 0. -/
theorem C6_counterexample_parity_fix_crossing_edge :
    (Cent.generateLFRNetwork (fun _ _ => ⟨3, 1⟩) (List.replicate 16 0) 6 0 2 2
        3 3 1 1).map (fun r => (r.links, r.groundTruth)) =
      some ([("n2", "n1"), ("n5", "n4"), ("n3", "n0")],
        [("n0", 0), ("n1", 0), ("n2", 0), ("n3", 1), ("n4", 1), ("n5", 1)]) ∧
    ("n3", "n0") ∈ [("n2", "n1"), ("n5", "n4"), ("n3", "n0")] ∧
    ("n3", (1 : ℕ)) ∈ ([("n0", 0), ("n1", 0), ("n2", 0), ("n3", 1), ("n4", 1),
      ("n5", 1)] : List (String × ℕ)) ∧
    ("n0", (0 : ℕ)) ∈ ([("n0", 0), ("n1", 0), ("n2", 0), ("n3", 1), ("n4", 1),
      ("n5", 1)] : List (String × ℕ)) := by
  exact ⟨by decide, by decide, by decide, by decide⟩

/-- Closed witness for C6: two communities of two nodes, all degrees 1. With
`mu = 0` the degree sums are even, the external stub list is empty and both
links are intra-community; with `mu = 1` all internal degrees are 0 and the
internal stub lists are empty. -/
theorem C6_witness :
    ((⟨[["n0", "n1"], ["n2", "n3"]],
        [("n0", 0), ("n1", 0), ("n2", 1), ("n3", 1)],
        [("n0", 1), ("n1", 1), ("n2", 1), ("n3", 1)],
        [("n0", (1, 0)), ("n1", (1, 0)), ("n2", (1, 0)), ("n3", (1, 0))],
        [["n0", "n1"], ["n2", "n3"]], [],
        [("n1", "n0"), ("n3", "n2")]⟩ : Cent.LFRResult).externalStubs = [] ∧
      (∀ l ∈ (⟨[["n0", "n1"], ["n2", "n3"]],
        [("n0", 0), ("n1", 0), ("n2", 1), ("n3", 1)],
        [("n0", 1), ("n1", 1), ("n2", 1), ("n3", 1)],
        [("n0", (1, 0)), ("n1", (1, 0)), ("n2", (1, 0)), ("n3", (1, 0))],
        [["n0", "n1"], ["n2", "n3"]], [],
        [("n1", "n0"), ("n3", "n2")]⟩ : Cent.LFRResult).links,
        ∃ comm ∈ (⟨[["n0", "n1"], ["n2", "n3"]],
          [("n0", 0), ("n1", 0), ("n2", 1), ("n3", 1)],
          [("n0", 1), ("n1", 1), ("n2", 1), ("n3", 1)],
          [("n0", (1, 0)), ("n1", (1, 0)), ("n2", (1, 0)), ("n3", (1, 0))],
          [["n0", "n1"], ["n2", "n3"]], [],
          [("n1", "n0"), ("n3", "n2")]⟩ : Cent.LFRResult).communities,
          l.1 ∈ comm ∧ l.2 ∈ comm)) ∧
    ((∀ pr ∈ (⟨[["n0", "n1"], ["n2", "n3"]],
        [("n0", 0), ("n1", 0), ("n2", 1), ("n3", 1)],
        [("n0", 1), ("n1", 1), ("n2", 1), ("n3", 1)],
        [("n0", (0, 1)), ("n1", (0, 1)), ("n2", (0, 1)), ("n3", (0, 1))],
        [[], []], ["n0", "n1", "n2", "n3"],
        [("n1", "n2"), ("n3", "n0")]⟩ : Cent.LFRResult).props, pr.2.1 = 0) ∧
      (∀ s ∈ (⟨[["n0", "n1"], ["n2", "n3"]],
        [("n0", 0), ("n1", 0), ("n2", 1), ("n3", 1)],
        [("n0", 1), ("n1", 1), ("n2", 1), ("n3", 1)],
        [("n0", (0, 1)), ("n1", (0, 1)), ("n2", (0, 1)), ("n3", (0, 1))],
        [[], []], ["n0", "n1", "n2", "n3"],
        [("n1", "n2"), ("n3", "n0")]⟩ : Cent.LFRResult).internalStubs,
        s = [])) :=
  ⟨(C6_lfr_mu_extremes (fun _ _ => ⟨2, 1⟩) (List.replicate 16 0) 4 2 2 2 2 1 1
      ⟨[["n0", "n1"], ["n2", "n3"]],
        [("n0", 0), ("n1", 0), ("n2", 1), ("n3", 1)],
        [("n0", 1), ("n1", 1), ("n2", 1), ("n3", 1)],
        [("n0", (1, 0)), ("n1", (1, 0)), ("n2", (1, 0)), ("n3", (1, 0))],
        [["n0", "n1"], ["n2", "n3"]], [],
        [("n1", "n0"), ("n3", "n2")]⟩
      ⟨[["n0", "n1"], ["n2", "n3"]],
        [("n0", 0), ("n1", 0), ("n2", 1), ("n3", 1)],
        [("n0", 1), ("n1", 1), ("n2", 1), ("n3", 1)],
        [("n0", (0, 1)), ("n1", (0, 1)), ("n2", (0, 1)), ("n3", (0, 1))],
        [[], []], ["n0", "n1", "n2", "n3"],
        [("n1", "n2"), ("n3", "n0")]⟩).1 (by decide) (by decide),
   (C6_lfr_mu_extremes (fun _ _ => ⟨2, 1⟩) (List.replicate 16 0) 4 2 2 2 2 1 1
      ⟨[["n0", "n1"], ["n2", "n3"]],
        [("n0", 0), ("n1", 0), ("n2", 1), ("n3", 1)],
        [("n0", 1), ("n1", 1), ("n2", 1), ("n3", 1)],
        [("n0", (1, 0)), ("n1", (1, 0)), ("n2", (1, 0)), ("n3", (1, 0))],
        [["n0", "n1"], ["n2", "n3"]], [],
        [("n1", "n0"), ("n3", "n2")]⟩
      ⟨[["n0", "n1"], ["n2", "n3"]],
        [("n0", 0), ("n1", 0), ("n2", 1), ("n3", 1)],
        [("n0", 1), ("n1", 1), ("n2", 1), ("n3", 1)],
        [("n0", (0, 1)), ("n1", (0, 1)), ("n2", (0, 1)), ("n3", (0, 1))],
        [[], []], ["n0", "n1", "n2", "n3"],
        [("n1", "n2"), ("n3", "n0")]⟩).2 (by decide)⟩

/-! ## NMI (src/utils/performance.ts)

`Math.log2` is the oracle `log2`; float arithmetic is modelled by exact
rationals. -/

namespace Perf

def nmiMap (l : List (String × ℤ)) : JsMap String ℤ :=
  l.foldl (fun m pr => m.set pr.1 pr.2) JsMap.empty

def nmiLabels (l : List (String × ℤ)) : List ℤ := jsDedup (l.map (fun pr => pr.2))

def nmiEntry (t : List (List ℚ)) (i j : ℕ) : ℚ := (t.getD i []).getD j 0

/-- One node of the contingency-table loop: both lookups must be defined and
both labels present (`indexOf ≠ -1`), then `contingencyTable[gt][dt]++`. -/
def nmiStep (gtMap dtMap : JsMap String ℤ) (gtLabels dtLabels : List ℤ)
    (table : List (List ℚ)) (nd : String) : List (List ℚ) :=
  match gtMap.get nd, dtMap.get nd with
  | some gtc, some dtc =>
    if gtc ∈ gtLabels ∧ dtc ∈ dtLabels then
      table.set (gtLabels.findIdx (fun x => x = gtc))
        ((table.getD (gtLabels.findIdx (fun x => x = gtc)) []).set
          (dtLabels.findIdx (fun x => x = dtc))
          ((table.getD (gtLabels.findIdx (fun x => x = gtc)) []).getD
            (dtLabels.findIdx (fun x => x = dtc)) 0 + 1))
    else table
  | _, _ => table

def nmiTable (a b : List (String × ℤ)) (nodes : List String) : List (List ℚ) :=
  nodes.foldl (nmiStep (nmiMap a) (nmiMap b) (nmiLabels a) (nmiLabels b))
    (List.replicate (nmiLabels a).length
      (List.replicate (nmiLabels b).length 0))

def nmiRowSum (t : List (List ℚ)) (i : ℕ) : ℚ :=
  (t.getD i []).foldl (fun x y => x + y) 0

def nmiColSum (t : List (List ℚ)) (j : ℕ) : ℚ :=
  t.foldl (fun sum row => sum + row.getD j 0) 0

def nmiEps : ℚ := 1 / 10 ^ 15

def nmiMI (log2 : ℚ → ℚ) (a b : List (String × ℤ)) (nodes : List String) : ℚ :=
  (List.range (nmiLabels a).length).foldl (fun mi i =>
    (List.range (nmiLabels b).length).foldl (fun mi j =>
      if 0 < nmiEntry (nmiTable a b nodes) i j then
        mi + (nmiEntry (nmiTable a b nodes) i j / (nodes.length : ℚ)) *
          log2 ((nmiEntry (nmiTable a b nodes) i j / (nodes.length : ℚ)) /
            ((nmiRowSum (nmiTable a b nodes) i / (nodes.length : ℚ)) *
             (nmiColSum (nmiTable a b nodes) j / (nodes.length : ℚ))) + nmiEps)
      else mi) mi) 0

def nmiH1 (log2 : ℚ → ℚ) (a b : List (String × ℤ)) (nodes : List String) : ℚ :=
  (List.range (nmiLabels a).length).foldl (fun h i =>
    if 0 < nmiRowSum (nmiTable a b nodes) i / (nodes.length : ℚ) then
      h - (nmiRowSum (nmiTable a b nodes) i / (nodes.length : ℚ)) *
        log2 (nmiRowSum (nmiTable a b nodes) i / (nodes.length : ℚ) + nmiEps)
    else h) 0

def nmiH2 (log2 : ℚ → ℚ) (a b : List (String × ℤ)) (nodes : List String) : ℚ :=
  (List.range (nmiLabels b).length).foldl (fun h j =>
    if 0 < nmiColSum (nmiTable a b nodes) j / (nodes.length : ℚ) then
      h - (nmiColSum (nmiTable a b nodes) j / (nodes.length : ℚ)) *
        log2 (nmiColSum (nmiTable a b nodes) j / (nodes.length : ℚ) + nmiEps)
    else h) 0

/-- `calculateNMI`: both-trivial branch, else `2·MI/(H1+H2)` clamped to
`[0, 1]`. -/
def calculateNMI (log2 : ℚ → ℚ) (groundTruth detected : List (String × ℤ))
    (nodes : List String) : ℚ :=
  if nmiH1 log2 groundTruth detected nodes = 0 ∧
      nmiH2 log2 groundTruth detected nodes = 0 then 1
  else max 0 (min 1 ((2 * nmiMI log2 groundTruth detected nodes) /
    (nmiH1 log2 groundTruth detected nodes +
     nmiH2 log2 groundTruth detected nodes)))

end Perf

theorem list_getD_set_self {α : Type} (l : List α) (i : ℕ) (h : i < l.length)
    (x d : α) : (l.set i x).getD i d = x := by
  simp [List.getD_eq_getElem?_getD, List.getElem?_set_self h]

theorem list_getD_set_ne {α : Type} (l : List α) {i j : ℕ} (h : i ≠ j)
    (x d : α) : (l.set i x).getD j d = l.getD j d := by
  simp [List.getD_eq_getElem?_getD, List.getElem?_set_ne h]

theorem list_getD_replicate {α : Type} (n : ℕ) (x : α) (i : ℕ) (d : α) :
    (List.replicate n x).getD i d = if i < n then x else d := by
  by_cases h : i < n
  · rw [if_pos h]
    simp [List.getD_eq_getElem?_getD, List.getElem?_replicate, h]
  · rw [if_neg h]
    have : (List.replicate n x)[i]? = none := by
      rw [List.getElem?_eq_none]
      simpa using Nat.le_of_not_lt h
    simp [List.getD_eq_getElem?_getD, this]

theorem foldlq_add_eq {α : Type} (f : α → ℚ) :
    ∀ (l : List α) (z : ℚ), l.foldl (fun s x => s + f x) z = z + (l.map f).sum
  | [], z => by simp
  | x :: rest, z => by
    rw [List.foldl_cons, foldlq_add_eq f rest (z + f x)]
    simp [add_assoc]

theorem foldlq_addif_eq {α : Type} (P : α → Prop) [DecidablePred P] (f : α → ℚ) :
    ∀ (l : List α) (z : ℚ), l.foldl (fun s x => if P x then s + f x else s) z =
      z + (l.map (fun x => if P x then f x else 0)).sum
  | [], z => by simp
  | x :: rest, z => by
    rw [List.foldl_cons, List.map_cons, List.sum_cons]
    by_cases h : P x
    · rw [if_pos h, if_pos h, foldlq_addif_eq P f rest (z + f x)]
      ring
    · rw [if_neg h, if_neg h, foldlq_addif_eq P f rest z]
      ring

theorem foldlq_subif_eq {α : Type} (P : α → Prop) [DecidablePred P] (f : α → ℚ) :
    ∀ (l : List α) (z : ℚ), l.foldl (fun s x => if P x then s - f x else s) z =
      z - (l.map (fun x => if P x then f x else 0)).sum
  | [], z => by simp
  | x :: rest, z => by
    rw [List.foldl_cons, List.map_cons, List.sum_cons]
    by_cases h : P x
    · rw [if_pos h, if_pos h, foldlq_subif_eq P f rest (z - f x)]
      ring
    · rw [if_neg h, if_neg h, foldlq_subif_eq P f rest z]
      ring

theorem foldlq_plain_add : ∀ (l : List ℚ) (z : ℚ),
    l.foldl (fun x y => x + y) z = z + l.sum
  | [], z => by simp
  | x :: rest, z => by
    rw [List.foldl_cons, foldlq_plain_add rest (z + x)]
    simp [add_assoc]

theorem list_range_map_sum (f : ℕ → ℚ) :
    ∀ n : ℕ, ((List.range n).map f).sum = ∑ i ∈ Finset.range n, f i
  | 0 => by simp
  | n + 1 => by
    rw [List.range_succ, List.map_append, List.sum_append,
      Finset.sum_range_succ, list_range_map_sum f n]
    simp

theorem list_map_sum_eq_range {α : Type} (f : α → ℚ) (d : α) :
    ∀ l : List α, (l.map f).sum =
      ((List.range l.length).map (fun i => f (l.getD i d))).sum
  | [] => by simp
  | x :: rest => by
    rw [List.map_cons, List.sum_cons, list_map_sum_eq_range f d rest]
    rw [List.length_cons, List.range_succ_eq_map, List.map_cons, List.sum_cons,
      List.map_map]
    rfl

theorem list_sum_eq_range_getD : ∀ l : List ℚ,
    l.sum = ((List.range l.length).map (fun j => l.getD j 0)).sum := by
  intro l
  have h := list_map_sum_eq_range (fun x : ℚ => x) 0 l
  simpa using h

theorem foldl_congr_list {α β : Type} (S T : β → α → β) :
    ∀ (l : List α) (z : β), (∀ acc x, x ∈ l → S acc x = T acc x) →
    l.foldl S z = l.foldl T z
  | [], z => by intro _; rfl
  | x :: rest, z => by
    intro h
    rw [List.foldl_cons, List.foldl_cons, h z x (List.mem_cons_self _ _)]
    exact foldl_congr_list S T rest _
      (fun acc y hy => h acc y (List.mem_cons_of_mem _ hy))

theorem foldlq_general_add {α : Type} (S : ℚ → α → ℚ) (g : α → ℚ)
    (hS : ∀ z x, S z x = z + g x) :
    ∀ (l : List α) (z : ℚ), l.foldl S z = z + (l.map g).sum
  | [], z => by simp
  | x :: rest, z => by
    rw [List.foldl_cons, hS, foldlq_general_add S g hS rest]
    simp [add_assoc]

namespace Perf

theorem nmiEntry_update (t : List (List ℚ)) (i j : ℕ) (hi : i < t.length)
    (hj : j < (t.getD i []).length) (i' j' : ℕ) :
    nmiEntry (t.set i ((t.getD i []).set j (nmiEntry t i j + 1))) i' j' =
      if i' = i ∧ j' = j then nmiEntry t i j + 1 else nmiEntry t i' j' := by
  unfold nmiEntry
  by_cases hii : i' = i
  · subst hii
    rw [list_getD_set_self t i' hi]
    by_cases hjj : j' = j
    · subst hjj
      rw [list_getD_set_self _ j' hj, if_pos ⟨rfl, rfl⟩]
    · rw [list_getD_set_ne _ (fun hh => hjj hh.symm),
        if_neg (fun hc => hjj hc.2)]
  · rw [list_getD_set_ne t (fun hh => hii hh.symm),
      if_neg (fun hc => hii hc.1)]

theorem nmiEntry_replicate (m k : ℕ) (i j : ℕ) :
    nmiEntry (List.replicate m (List.replicate k (0 : ℚ))) i j = 0 := by
  unfold nmiEntry
  rw [list_getD_replicate]
  by_cases h : i < m
  · rw [if_pos h, list_getD_replicate]
    by_cases h2 : j < k
    · rw [if_pos h2]
    · rw [if_neg h2]
  · rw [if_neg h]
    rfl

theorem nmiFold_trans (mA mB : JsMap String ℤ) (LA LB : List ℤ) :
    ∀ (nodes : List String) (tA tB : List (List ℚ)),
    tA.length = LA.length → (∀ row ∈ tA, row.length = LB.length) →
    tB.length = LB.length → (∀ row ∈ tB, row.length = LA.length) →
    (∀ i j, nmiEntry tA i j = nmiEntry tB j i) →
    (nodes.foldl (nmiStep mA mB LA LB) tA).length = LA.length ∧
    (∀ row ∈ nodes.foldl (nmiStep mA mB LA LB) tA,
      row.length = LB.length) ∧
    (nodes.foldl (nmiStep mB mA LB LA) tB).length = LB.length ∧
    (∀ row ∈ nodes.foldl (nmiStep mB mA LB LA) tB,
      row.length = LA.length) ∧
    (∀ i j, nmiEntry (nodes.foldl (nmiStep mA mB LA LB) tA) i j =
      nmiEntry (nodes.foldl (nmiStep mB mA LB LA) tB) j i)
  | [], tA, tB => by
    intro h1 h2 h3 h4 h5
    exact ⟨h1, h2, h3, h4, h5⟩
  | nd :: nodes, tA, tB => by
    intro h1 h2 h3 h4 h5
    rw [List.foldl_cons, List.foldl_cons]
    cases hga : mA.get nd with
    | none =>
      have eA : nmiStep mA mB LA LB tA nd = tA := by
        unfold nmiStep
        rw [hga]
      have eB : nmiStep mB mA LB LA tB nd = tB := by
        unfold nmiStep
        rw [hga]
        cases mB.get nd <;> rfl
      rw [eA, eB]
      exact nmiFold_trans mA mB LA LB nodes tA tB h1 h2 h3 h4 h5
    | some gtc =>
      cases hgb : mB.get nd with
      | none =>
        have eA : nmiStep mA mB LA LB tA nd = tA := by
          unfold nmiStep
          rw [hga, hgb]
        have eB : nmiStep mB mA LB LA tB nd = tB := by
          unfold nmiStep
          rw [hgb]
        rw [eA, eB]
        exact nmiFold_trans mA mB LA LB nodes tA tB h1 h2 h3 h4 h5
      | some dtc =>
        by_cases hmem : gtc ∈ LA ∧ dtc ∈ LB
        · have hiA : LA.findIdx (fun x => x = gtc) < LA.length :=
            List.findIdx_lt_length_of_exists ⟨gtc, hmem.1, by simp⟩
          have hjB : LB.findIdx (fun x => x = dtc) < LB.length :=
            List.findIdx_lt_length_of_exists ⟨dtc, hmem.2, by simp⟩
          have hiA' : LA.findIdx (fun x => x = gtc) < tA.length := by
            rw [h1]
            exact hiA
          have hjB' : LB.findIdx (fun x => x = dtc) < tB.length := by
            rw [h3]
            exact hjB
          have hrowA : (tA.getD (LA.findIdx (fun x => x = gtc)) []).length =
              LB.length := by
            apply h2
            rw [List.getD_eq_getElem tA [] hiA']
            exact List.getElem_mem _
          have hrowB : (tB.getD (LB.findIdx (fun x => x = dtc)) []).length =
              LA.length := by
            apply h4
            rw [List.getD_eq_getElem tB [] hjB']
            exact List.getElem_mem _
          have eA : nmiStep mA mB LA LB tA nd =
              tA.set (LA.findIdx (fun x => x = gtc))
                ((tA.getD (LA.findIdx (fun x => x = gtc)) []).set
                  (LB.findIdx (fun x => x = dtc))
                  (nmiEntry tA (LA.findIdx (fun x => x = gtc))
                    (LB.findIdx (fun x => x = dtc)) + 1)) := by
            unfold nmiStep
            rw [hga, hgb]
            show (if gtc ∈ LA ∧ dtc ∈ LB then _ else _) = _
            rw [if_pos hmem]
            rfl
          have eB : nmiStep mB mA LB LA tB nd =
              tB.set (LB.findIdx (fun x => x = dtc))
                ((tB.getD (LB.findIdx (fun x => x = dtc)) []).set
                  (LA.findIdx (fun x => x = gtc))
                  (nmiEntry tB (LB.findIdx (fun x => x = dtc))
                    (LA.findIdx (fun x => x = gtc)) + 1)) := by
            unfold nmiStep
            rw [hgb, hga]
            show (if dtc ∈ LB ∧ gtc ∈ LA then _ else _) = _
            rw [if_pos ⟨hmem.2, hmem.1⟩]
            rfl
          rw [eA, eB]
          apply nmiFold_trans mA mB LA LB nodes
          · rw [List.length_set]
            exact h1
          · intro row hrow
            rcases List.mem_or_eq_of_mem_set hrow with hrow | hrow
            · exact h2 row hrow
            · rw [hrow, List.length_set]
              exact hrowA
          · rw [List.length_set]
            exact h3
          · intro row hrow
            rcases List.mem_or_eq_of_mem_set hrow with hrow | hrow
            · exact h4 row hrow
            · rw [hrow, List.length_set]
              exact hrowB
          · intro i j
            rw [nmiEntry_update tA _ _ hiA' (by rw [hrowA]; exact hjB) i j,
              nmiEntry_update tB _ _ hjB' (by rw [hrowB]; exact hiA) j i]
            by_cases hc : i = LA.findIdx (fun x => x = gtc) ∧
                j = LB.findIdx (fun x => x = dtc)
            · rw [if_pos hc, if_pos ⟨hc.2, hc.1⟩, h5]
            · rw [if_neg hc, if_neg (fun hcc => hc ⟨hcc.2, hcc.1⟩), h5]
        · have eA : nmiStep mA mB LA LB tA nd = tA := by
            unfold nmiStep
            rw [hga, hgb]
            show (if gtc ∈ LA ∧ dtc ∈ LB then _ else _) = _
            rw [if_neg hmem]
          have eB : nmiStep mB mA LB LA tB nd = tB := by
            unfold nmiStep
            rw [hgb, hga]
            show (if dtc ∈ LB ∧ gtc ∈ LA then _ else _) = _
            rw [if_neg (fun hc => hmem ⟨hc.2, hc.1⟩)]
          rw [eA, eB]
          exact nmiFold_trans mA mB LA LB nodes tA tB h1 h2 h3 h4 h5

theorem nmiTable_trans (a b : List (String × ℤ)) (nodes : List String) :
    (nmiTable a b nodes).length = (nmiLabels a).length ∧
    (∀ row ∈ nmiTable a b nodes, row.length = (nmiLabels b).length) ∧
    (∀ i j, nmiEntry (nmiTable a b nodes) i j =
      nmiEntry (nmiTable b a nodes) j i) := by
  have h := nmiFold_trans (nmiMap a) (nmiMap b) (nmiLabels a) (nmiLabels b)
    nodes
    (List.replicate (nmiLabels a).length
      (List.replicate (nmiLabels b).length 0))
    (List.replicate (nmiLabels b).length
      (List.replicate (nmiLabels a).length 0))
    (by simp)
    (by
      intro row hrow
      rw [List.eq_of_mem_replicate hrow]
      simp)
    (by simp)
    (by
      intro row hrow
      rw [List.eq_of_mem_replicate hrow]
      simp)
    (by
      intro i j
      rw [nmiEntry_replicate, nmiEntry_replicate])
  exact ⟨h.1, h.2.1, h.2.2.2.2⟩

theorem nmiRowSum_eq (t : List (List ℚ)) (i : ℕ) :
    nmiRowSum t i = ∑ j ∈ Finset.range (t.getD i []).length, nmiEntry t i j := by
  unfold nmiRowSum nmiEntry
  rw [foldlq_plain_add, zero_add, list_sum_eq_range_getD, list_range_map_sum]

theorem nmiColSum_eq (t : List (List ℚ)) (j : ℕ) :
    nmiColSum t j = ∑ i ∈ Finset.range t.length, nmiEntry t i j := by
  unfold nmiColSum nmiEntry
  rw [foldlq_add_eq (fun row : List ℚ => row.getD j 0) t 0, zero_add,
    list_map_sum_eq_range (fun row : List ℚ => row.getD j 0) ([] : List ℚ) t,
    list_range_map_sum]

theorem nmiRowColSwap (a b : List (String × ℤ)) (nodes : List String) (j : ℕ)
    (hj : j < (nmiLabels b).length) :
    nmiRowSum (nmiTable b a nodes) j = nmiColSum (nmiTable a b nodes) j := by
  obtain ⟨hlenAB, _, htrans⟩ := nmiTable_trans a b nodes
  obtain ⟨hlenBA, hrowBA, _⟩ := nmiTable_trans b a nodes
  rw [nmiRowSum_eq, nmiColSum_eq, hlenAB]
  have hrlen : ((nmiTable b a nodes).getD j []).length = (nmiLabels a).length := by
    apply hrowBA
    rw [List.getD_eq_getElem _ [] (by rw [hlenBA]; exact hj)]
    exact List.getElem_mem _
  rw [hrlen]
  apply Finset.sum_congr rfl
  intro i _
  exact (htrans i j).symm

end Perf

theorem foldlq_double {α β : Type} (C : α → β → Prop)
    [inst : ∀ i j, Decidable (C i j)] (f : α → β → ℚ) (l1 : List α)
    (l2 : List β) :
    l1.foldl (fun s i => l2.foldl
      (fun s j => if C i j then s + f i j else s) s) 0 =
      (l1.map (fun i => (l2.map (fun j => if C i j then f i j else 0)).sum)).sum := by
  rw [foldlq_general_add
    (fun s i => l2.foldl (fun s j => if C i j then s + f i j else s) s)
    (fun i => (l2.map (fun j => if C i j then f i j else 0)).sum)
    (fun z i => foldlq_addif_eq (C i) (f i) l2 z) l1 0, zero_add]

namespace Perf

theorem nmiColRowSwap (a b : List (String × ℤ)) (nodes : List String) (i : ℕ)
    (hi : i < (nmiLabels a).length) :
    nmiColSum (nmiTable b a nodes) i = nmiRowSum (nmiTable a b nodes) i := by
  obtain ⟨hlenAB, hrowAB, htrans⟩ := nmiTable_trans a b nodes
  obtain ⟨hlenBA, _, _⟩ := nmiTable_trans b a nodes
  rw [nmiColSum_eq, nmiRowSum_eq, hlenBA]
  have hrlen : ((nmiTable a b nodes).getD i []).length = (nmiLabels b).length := by
    apply hrowAB
    rw [List.getD_eq_getElem _ [] (by rw [hlenAB]; exact hi)]
    exact List.getElem_mem _
  rw [hrlen]
  apply Finset.sum_congr rfl
  intro j _
  exact (htrans i j).symm

theorem nmiMI_symm (log2 : ℚ → ℚ) (a b : List (String × ℤ))
    (nodes : List String) :
    nmiMI log2 b a nodes = nmiMI log2 a b nodes := by
  obtain ⟨_, _, htrans⟩ := nmiTable_trans a b nodes
  unfold nmiMI
  rw [foldlq_double (fun i j => 0 < nmiEntry (nmiTable b a nodes) i j)
    (fun i j => (nmiEntry (nmiTable b a nodes) i j / (nodes.length : ℚ)) *
      log2 ((nmiEntry (nmiTable b a nodes) i j / (nodes.length : ℚ)) /
        ((nmiRowSum (nmiTable b a nodes) i / (nodes.length : ℚ)) *
         (nmiColSum (nmiTable b a nodes) j / (nodes.length : ℚ))) + nmiEps))
    (List.range (nmiLabels b).length) (List.range (nmiLabels a).length)]
  rw [foldlq_double (fun i j => 0 < nmiEntry (nmiTable a b nodes) i j)
    (fun i j => (nmiEntry (nmiTable a b nodes) i j / (nodes.length : ℚ)) *
      log2 ((nmiEntry (nmiTable a b nodes) i j / (nodes.length : ℚ)) /
        ((nmiRowSum (nmiTable a b nodes) i / (nodes.length : ℚ)) *
         (nmiColSum (nmiTable a b nodes) j / (nodes.length : ℚ))) + nmiEps))
    (List.range (nmiLabels a).length) (List.range (nmiLabels b).length)]
  simp only [list_range_map_sum]
  rw [Finset.sum_comm]
  apply Finset.sum_congr rfl
  intro i hi
  apply Finset.sum_congr rfl
  intro j hj
  rw [← htrans i j, nmiRowColSwap a b nodes j (Finset.mem_range.mp hj),
    nmiColRowSwap a b nodes i (Finset.mem_range.mp hi),
    mul_comm (nmiColSum (nmiTable a b nodes) j / (nodes.length : ℚ))
      (nmiRowSum (nmiTable a b nodes) i / (nodes.length : ℚ))]

theorem nmiH1_swap (log2 : ℚ → ℚ) (a b : List (String × ℤ))
    (nodes : List String) :
    nmiH1 log2 b a nodes = nmiH2 log2 a b nodes := by
  unfold nmiH1 nmiH2
  apply foldl_congr_list
  intro acc j hj
  rw [nmiRowColSwap a b nodes j (List.mem_range.mp hj)]

theorem nmiH2_swap (log2 : ℚ → ℚ) (a b : List (String × ℤ))
    (nodes : List String) :
    nmiH2 log2 b a nodes = nmiH1 log2 a b nodes := by
  unfold nmiH1 nmiH2
  apply foldl_congr_list
  intro acc i hi
  rw [nmiColRowSwap a b nodes i (List.mem_range.mp hi)]

end Perf

namespace Perf

theorem calculateNMI_symm (log2 : ℚ → ℚ) (a b : List (String × ℤ))
    (nodes : List String) :
    calculateNMI log2 a b nodes = calculateNMI log2 b a nodes := by
  unfold calculateNMI
  rw [nmiMI_symm log2 a b nodes, nmiH1_swap log2 a b nodes,
    nmiH2_swap log2 a b nodes]
  apply if_congr and_comm rfl
  rw [add_comm (nmiH2 log2 a b nodes) (nmiH1 log2 a b nodes)]

theorem calculateNMI_range (log2 : ℚ → ℚ) (a b : List (String × ℤ))
    (nodes : List String) :
    0 ≤ calculateNMI log2 a b nodes ∧ calculateNMI log2 a b nodes ≤ 1 := by
  unfold calculateNMI
  by_cases hc : nmiH1 log2 a b nodes = 0 ∧ nmiH2 log2 a b nodes = 0
  · rw [if_pos hc]; norm_num
  · rw [if_neg hc]
    refine ⟨le_max_left _ _, max_le (by norm_num) (min_le_left _ _)⟩

theorem calculateNMI_trivial_branch (log2 : ℚ → ℚ) (a b : List (String × ℤ))
    (nodes : List String) (h1 : nmiH1 log2 a b nodes = 0)
    (h2 : nmiH2 log2 a b nodes = 0) :
    calculateNMI log2 a b nodes = 1 := by
  unfold calculateNMI
  rw [if_pos ⟨h1, h2⟩]

end Perf

namespace Perf

theorem nmi_single_labels : nmiLabels [("a", (0 : ℤ))] = [0] := by
  unfold nmiLabels jsDedup
  simp [jsSetAdd]

theorem nmi_single_get : (nmiMap [("a", (0 : ℤ))]).get "a" = some 0 := by
  unfold nmiMap
  simp [JsMap.empty, JsMap.set, JsMap.get, List.find?]

theorem nmi_single_table :
    nmiTable [("a", 0)] [("a", 0)] ["a"] = [[1]] := by
  unfold nmiTable
  rw [nmi_single_labels]
  have hstep : nmiStep (nmiMap [("a", 0)]) (nmiMap [("a", 0)]) [0] [0]
      [[0]] "a" = [[1]] := by
    unfold nmiStep
    rw [nmi_single_get]
    show (if (0 : ℤ) ∈ [(0 : ℤ)] ∧ (0 : ℤ) ∈ [(0 : ℤ)] then _ else _) = _
    rw [if_pos ⟨List.mem_singleton.mpr rfl, List.mem_singleton.mpr rfl⟩]
    norm_num [List.findIdx_cons, List.getD]
  simp only [List.length_singleton, List.replicate_one]
  rw [List.foldl_cons, List.foldl_nil, hstep]

end Perf

namespace Perf

theorem nmi_single_MI (log2 : ℚ → ℚ) :
    nmiMI log2 [("a", 0)] [("a", 0)] ["a"] = log2 (1 + 1 / 10 ^ 15) := by
  unfold nmiMI
  rw [nmi_single_labels]
  simp only [List.length_singleton, show List.range 1 = [0] from rfl,
    List.foldl_cons, List.foldl_nil]
  rw [nmi_single_table]
  norm_num [nmiEntry, nmiRowSum, nmiColSum, nmiEps, List.getD,
    List.foldl_cons, List.foldl_nil]

theorem nmi_single_H1 (log2 : ℚ → ℚ) :
    nmiH1 log2 [("a", 0)] [("a", 0)] ["a"] = -log2 (1 + 1 / 10 ^ 15) := by
  unfold nmiH1
  rw [nmi_single_labels]
  simp only [List.length_singleton, show List.range 1 = [0] from rfl,
    List.foldl_cons, List.foldl_nil]
  rw [nmi_single_table]
  norm_num [nmiRowSum, nmiEps, List.getD, List.foldl_cons, List.foldl_nil]

theorem nmi_single_H2 (log2 : ℚ → ℚ) :
    nmiH2 log2 [("a", 0)] [("a", 0)] ["a"] = -log2 (1 + 1 / 10 ^ 15) := by
  unfold nmiH2
  rw [nmi_single_labels]
  simp only [List.length_singleton, show List.range 1 = [0] from rfl,
    List.foldl_cons, List.foldl_nil]
  rw [nmi_single_table]
  norm_num [nmiColSum, nmiEps, List.getD, List.foldl_cons, List.foldl_nil]

end Perf

namespace Perf

theorem nmi_single_single (log2 : ℚ → ℚ)
    (h : log2 (1 + 1 / 10 ^ 15) ≠ 0) :
    calculateNMI log2 [("a", 0)] [("a", 0)] ["a"] = 0 := by
  unfold calculateNMI
  rw [nmi_single_H1, nmi_single_H2, nmi_single_MI]
  rw [if_neg (fun hc => h (neg_eq_zero.mp (And.left hc)))]
  have hval : 2 * log2 (1 + 1 / 10 ^ 15) /
      (-log2 (1 + 1 / 10 ^ 15) + -log2 (1 + 1 / 10 ^ 15)) = -1 := by
    rw [show -log2 (1 + 1 / 10 ^ 15) + -log2 (1 + 1 / 10 ^ 15) =
      -(2 * log2 (1 + 1 / 10 ^ 15)) from by ring, div_neg,
      div_self (mul_ne_zero two_ne_zero h)]
  rw [hval, min_eq_right (by norm_num : (-1 : ℚ) ≤ 1),
    max_eq_left (by norm_num : (-1 : ℚ) ≤ 0)]

/-- A rational stand-in for `Math.log2`, agreeing with its sign: negative
below 1, zero at 1, positive above 1. -/
def log2Stub (q : ℚ) : ℚ := if q < 1 then -1 else if q = 1 then 0 else 1

theorem log2Stub_eps_ne : log2Stub (1 + 1 / 10 ^ 15) ≠ 0 := by
  unfold log2Stub
  norm_num

end Perf


theorem JsMap.get_some_mem {K V : Type} [DecidableEq K] (m : JsMap K V)
    (k : K) (v : V) (h : m.get k = some v) : (k, v) ∈ m := by
  unfold JsMap.get at h
  cases hf : List.find? (fun p => p.1 = k) m with
  | none => rw [hf] at h; simp at h
  | some pr =>
    rw [hf] at h
    have hv : pr.2 = v := by simpa using h
    have hmem := List.mem_of_find?_eq_some hf
    have hk : pr.1 = k := by simpa using List.find?_some hf
    have hpr : pr = (k, v) := by
      cases pr
      cases hv
      cases hk
      rfl
    rw [← hpr]
    exact hmem

theorem JsMap.mem_foldl_set_pairs2 {K V : Type} [DecidableEq K] :
    ∀ (l : List (K × V)) (m0 : JsMap K V) (pr : K × V),
    pr ∈ l.foldl (fun m q => m.set q.1 q.2) m0 → pr ∈ m0 ∨ pr ∈ l
  | [], _, _ => fun h => Or.inl h
  | q :: rest, m0, pr => by
    intro h
    rw [List.foldl_cons] at h
    rcases JsMap.mem_foldl_set_pairs2 rest (m0.set q.1 q.2) pr h with h | h
    · rcases JsMap.mem_set_elim m0 q.1 q.2 pr h with h | h
      · right
        rw [h, Prod.mk.eta]
        exact List.mem_cons_self _ _
      · exact Or.inl h
    · exact Or.inr (List.mem_cons_of_mem _ h)

theorem mem_jsDedup_aux {α : Type} [DecidableEq α] :
    ∀ (l acc : List α) (x : α), x ∈ l ∨ x ∈ acc → x ∈ l.foldl jsSetAdd acc
  | [], _, x => fun h => h.resolve_left (fun hc => absurd hc (List.not_mem_nil x))
  | a :: as, acc, x => by
    intro h
    rw [List.foldl_cons]
    apply mem_jsDedup_aux as (jsSetAdd acc a) x
    rcases h with h | h
    · rcases List.mem_cons.mp h with rfl | h
      · exact Or.inr (mem_jsSetAdd_self acc x)
      · exact Or.inl h
    · exact Or.inr (mem_jsSetAdd_of_mem a h)

namespace Perf

theorem mem_nmiLabels_of_get (x : List (String × ℤ)) (u : String) (c : ℤ)
    (h : (nmiMap x).get u = some c) : c ∈ nmiLabels x := by
  have hpr : (u, c) ∈ nmiMap x := JsMap.get_some_mem _ _ _ h
  have hx : (u, c) ∈ x := by
    rcases JsMap.mem_foldl_set_pairs2 x JsMap.empty (u, c) hpr with h0 | h0
    · exact absurd h0 (List.not_mem_nil _)
    · exact h0
  unfold nmiLabels jsDedup
  exact mem_jsDedup_aux (x.map (fun pr => pr.2)) [] c
    (Or.inl (List.mem_map_of_mem _ hx))

end Perf

namespace Perf

theorem nmiSelfStep_none (M : JsMap String ℤ) (L : List ℤ)
    (t : List (List ℚ)) (nd : String) (hM : M.get nd = none) :
    nmiStep M M L L t nd = t := by
  unfold nmiStep
  rw [hM]

theorem nmiSelfStep_some_mem (M : JsMap String ℤ) (L : List ℤ)
    (t : List (List ℚ)) (nd : String) (c : ℤ) (hM : M.get nd = some c)
    (hc : c ∈ L) :
    nmiStep M M L L t nd = t.set (L.findIdx (fun x => x = c))
      ((t.getD (L.findIdx (fun x => x = c)) []).set
        (L.findIdx (fun x => x = c))
        ((t.getD (L.findIdx (fun x => x = c)) []).getD
          (L.findIdx (fun x => x = c)) 0 + 1)) := by
  unfold nmiStep
  rw [hM]
  show (if c ∈ L ∧ c ∈ L then _ else _) = _
  rw [if_pos ⟨hc, hc⟩]

theorem nmiSelfStep_some_not_mem (M : JsMap String ℤ) (L : List ℤ)
    (t : List (List ℚ)) (nd : String) (c : ℤ) (hM : M.get nd = some c)
    (hc : c ∉ L) :
    nmiStep M M L L t nd = t := by
  unfold nmiStep
  rw [hM]
  show (if c ∈ L ∧ c ∈ L then _ else _) = _
  rw [if_neg (fun hcc => hc hcc.1)]

end Perf

namespace Perf

theorem entry_le_update (t : List (List ℚ)) (a b : ℕ) (i j : ℕ) :
    nmiEntry t i j ≤
      nmiEntry (t.set a ((t.getD a []).set b
        ((t.getD a []).getD b 0 + 1))) i j := by
  unfold nmiEntry
  by_cases hia : i = a
  · subst hia
    by_cases hat : i < t.length
    · rw [list_getD_set_self t i hat]
      by_cases hjb : j = b
      · subst hjb
        by_cases hbr : j < (t.getD i []).length
        · rw [list_getD_set_self _ j hbr]
          exact le_add_of_nonneg_right zero_le_one
        · rw [List.set_eq_of_length_le (Nat.le_of_not_lt hbr)]
      · rw [list_getD_set_ne _ (fun hh => hjb hh.symm)]
    · rw [List.set_eq_of_length_le (Nat.le_of_not_lt hat)]
  · rw [list_getD_set_ne t (fun hh => hia hh.symm)]

theorem nmiStep_cases (gtMap dtMap : JsMap String ℤ) (LA LB : List ℤ)
    (t : List (List ℚ)) (nd : String) :
    nmiStep gtMap dtMap LA LB t nd = t ∨
    ∃ a b, nmiStep gtMap dtMap LA LB t nd =
      t.set a ((t.getD a []).set b ((t.getD a []).getD b 0 + 1)) := by
  unfold nmiStep
  cases hg : gtMap.get nd with
  | none => exact Or.inl rfl
  | some gtc =>
    cases hd : dtMap.get nd with
    | none => exact Or.inl rfl
    | some dtc =>
      by_cases hmem : gtc ∈ LA ∧ dtc ∈ LB
      · right
        refine ⟨LA.findIdx (fun x => x = gtc), LB.findIdx (fun x => x = dtc), ?_⟩
        show (if gtc ∈ LA ∧ dtc ∈ LB then _ else _) = _
        rw [if_pos hmem]
      · left
        show (if gtc ∈ LA ∧ dtc ∈ LB then _ else _) = _
        rw [if_neg hmem]

theorem nmiStep_entry_le (gtMap dtMap : JsMap String ℤ) (LA LB : List ℤ)
    (t : List (List ℚ)) (nd : String) (i j : ℕ) :
    nmiEntry t i j ≤ nmiEntry (nmiStep gtMap dtMap LA LB t nd) i j := by
  rcases nmiStep_cases gtMap dtMap LA LB t nd with h | ⟨a, b, h⟩
  · rw [h]
  · rw [h]
    exact entry_le_update t a b i j

theorem nmiFold_entry_le (gtMap dtMap : JsMap String ℤ) (LA LB : List ℤ) :
    ∀ (nds : List String) (t : List (List ℚ)) (i j : ℕ),
    nmiEntry t i j ≤
      nmiEntry (nds.foldl (nmiStep gtMap dtMap LA LB) t) i j
  | [], _, _, _ => le_rfl
  | nd :: rest, t, i, j => by
    rw [List.foldl_cons]
    exact le_trans (nmiStep_entry_le gtMap dtMap LA LB t nd i j)
      (nmiFold_entry_le gtMap dtMap LA LB rest _ i j)

end Perf

namespace Perf

theorem nmiSelfStep_inv (M : JsMap String ℤ) (L : List ℤ)
    (t : List (List ℚ)) (nd : String)
    (hlen : t.length = L.length)
    (hrow : ∀ r ∈ t, r.length = L.length)
    (hnn : ∀ i j, 0 ≤ nmiEntry t i j)
    (hod : ∀ i j, i ≠ j → nmiEntry t i j = 0) :
    (nmiStep M M L L t nd).length = L.length ∧
    (∀ r ∈ nmiStep M M L L t nd, r.length = L.length) ∧
    (∀ i j, 0 ≤ nmiEntry (nmiStep M M L L t nd) i j) ∧
    (∀ i j, i ≠ j → nmiEntry (nmiStep M M L L t nd) i j = 0) ∧
    (∑ i ∈ Finset.range L.length, nmiEntry (nmiStep M M L L t nd) i i) ≤
      (∑ i ∈ Finset.range L.length, nmiEntry t i i) + 1 := by
  have htriv : (∑ i ∈ Finset.range L.length, nmiEntry t i i) ≤
      (∑ i ∈ Finset.range L.length, nmiEntry t i i) + 1 :=
    le_add_of_nonneg_right zero_le_one
  cases hM : M.get nd with
  | none =>
    rw [nmiSelfStep_none M L t nd hM]
    exact ⟨hlen, hrow, hnn, hod, htriv⟩
  | some c =>
    by_cases hc : c ∈ L
    · rw [nmiSelfStep_some_mem M L t nd c hM hc]
      have hk : L.findIdx (fun x => x = c) < L.length :=
        List.findIdx_lt_length_of_exists ⟨c, hc, by simp⟩
      have hkt : L.findIdx (fun x => x = c) < t.length := hlen ▸ hk
      have hrmem : t.getD (L.findIdx (fun x => x = c)) [] ∈ t := by
        rw [List.getD_eq_getElem t [] hkt]
        exact List.getElem_mem _
      have hkr : L.findIdx (fun x => x = c) <
          (t.getD (L.findIdx (fun x => x = c)) []).length := by
        rw [hrow _ hrmem]
        exact hk
      have hconv : (t.getD (L.findIdx (fun x => x = c)) []).getD
          (L.findIdx (fun x => x = c)) 0 + 1 =
          nmiEntry t (L.findIdx (fun x => x = c))
            (L.findIdx (fun x => x = c)) + 1 := rfl
      rw [hconv]
      have hupd := nmiEntry_update t (L.findIdx (fun x => x = c))
        (L.findIdx (fun x => x = c)) hkt hkr
      refine ⟨?_, ?_, ?_, ?_, ?_⟩
      · rw [List.length_set]
        exact hlen
      · intro r hr
        rcases List.mem_or_eq_of_mem_set hr with hr | hr
        · exact hrow r hr
        · rw [hr, List.length_set]
          exact hrow _ hrmem
      · intro i j
        rw [hupd i j]
        by_cases hij : i = L.findIdx (fun x => x = c) ∧
            j = L.findIdx (fun x => x = c)
        · rw [if_pos hij]
          have := hnn (L.findIdx (fun x => x = c)) (L.findIdx (fun x => x = c))
          linarith
        · rw [if_neg hij]
          exact hnn i j
      · intro i j hij
        rw [hupd i j]
        rw [if_neg (fun hc2 => hij (hc2.1.trans hc2.2.symm))]
        exact hod i j hij
      · have hpt : ∀ i ∈ Finset.range L.length,
            nmiEntry (t.set (L.findIdx (fun x => x = c))
              ((t.getD (L.findIdx (fun x => x = c)) []).set
                (L.findIdx (fun x => x = c))
                (nmiEntry t (L.findIdx (fun x => x = c))
                  (L.findIdx (fun x => x = c)) + 1))) i i =
              nmiEntry t i i +
                (if i = L.findIdx (fun x => x = c) then 1 else 0) := by
          intro i _
          rw [hupd i i]
          by_cases hik : i = L.findIdx (fun x => x = c)
          · rw [if_pos ⟨hik, hik⟩, if_pos hik, hik]
          · rw [if_neg (fun hc2 => hik hc2.1), if_neg hik, add_zero]
        rw [Finset.sum_congr rfl hpt, Finset.sum_add_distrib,
          Finset.sum_ite_eq' (Finset.range L.length)
            (L.findIdx (fun x => x = c)) (fun _ => (1 : ℚ)),
          if_pos (Finset.mem_range.mpr hk)]
    · rw [nmiSelfStep_some_not_mem M L t nd c hM hc]
      exact ⟨hlen, hrow, hnn, hod, htriv⟩

end Perf

namespace Perf

theorem nmiSelfFold_inv (M : JsMap String ℤ) (L : List ℤ) :
    ∀ (nds : List String) (t : List (List ℚ)),
    t.length = L.length → (∀ r ∈ t, r.length = L.length) →
    (∀ i j, 0 ≤ nmiEntry t i j) → (∀ i j, i ≠ j → nmiEntry t i j = 0) →
    (nds.foldl (nmiStep M M L L) t).length = L.length ∧
    (∀ r ∈ nds.foldl (nmiStep M M L L) t, r.length = L.length) ∧
    (∀ i j, 0 ≤ nmiEntry (nds.foldl (nmiStep M M L L) t) i j) ∧
    (∀ i j, i ≠ j → nmiEntry (nds.foldl (nmiStep M M L L) t) i j = 0) ∧
    (∑ i ∈ Finset.range L.length,
        nmiEntry (nds.foldl (nmiStep M M L L) t) i i) ≤
      (∑ i ∈ Finset.range L.length, nmiEntry t i i) + (nds.length : ℚ)
  | [], t => by
    intro h1 h2 h3 h4
    exact ⟨h1, h2, h3, h4, by simp⟩
  | nd :: rest, t => by
    intro h1 h2 h3 h4
    rw [List.foldl_cons]
    obtain ⟨s1, s2, s3, s4, s5⟩ := nmiSelfStep_inv M L t nd h1 h2 h3 h4
    obtain ⟨r1, r2, r3, r4, r5⟩ :=
      nmiSelfFold_inv M L rest (nmiStep M M L L t nd) s1 s2 s3 s4
    refine ⟨r1, r2, r3, r4, ?_⟩
    rw [List.length_cons]
    push_cast
    linarith

theorem nmiSelfFold_pos (M : JsMap String ℤ) (L : List ℤ) :
    ∀ (nds : List String) (t : List (List ℚ)),
    t.length = L.length → (∀ r ∈ t, r.length = L.length) →
    (∀ i j, 0 ≤ nmiEntry t i j) → (∀ i j, i ≠ j → nmiEntry t i j = 0) →
    ∀ u ∈ nds, ∀ c, M.get u = some c → c ∈ L →
    1 ≤ nmiEntry (nds.foldl (nmiStep M M L L) t)
      (L.findIdx (fun x => x = c)) (L.findIdx (fun x => x = c))
  | [], _ => by
    intro _ _ _ _ u hu
    exact absurd hu (List.not_mem_nil u)
  | nd :: rest, t => by
    intro h1 h2 h3 h4 u hu c hMc hcL
    rw [List.foldl_cons]
    rcases List.mem_cons.mp hu with rfl | hu
    · have hk : L.findIdx (fun x => x = c) < L.length :=
        List.findIdx_lt_length_of_exists ⟨c, hcL, by simp⟩
      have hkt : L.findIdx (fun x => x = c) < t.length := h1 ▸ hk
      have hrmem : t.getD (L.findIdx (fun x => x = c)) [] ∈ t := by
        rw [List.getD_eq_getElem t [] hkt]
        exact List.getElem_mem _
      have hkr : L.findIdx (fun x => x = c) <
          (t.getD (L.findIdx (fun x => x = c)) []).length := by
        rw [h2 _ hrmem]
        exact hk
      have hstep : 1 ≤ nmiEntry (nmiStep M M L L t u)
          (L.findIdx (fun x => x = c)) (L.findIdx (fun x => x = c)) := by
        rw [nmiSelfStep_some_mem M L t u c hMc hcL]
        have hconv : (t.getD (L.findIdx (fun x => x = c)) []).getD
            (L.findIdx (fun x => x = c)) 0 + 1 =
            nmiEntry t (L.findIdx (fun x => x = c))
              (L.findIdx (fun x => x = c)) + 1 := rfl
        rw [hconv, nmiEntry_update t _ _ hkt hkr, if_pos ⟨rfl, rfl⟩]
        have := h3 (L.findIdx (fun x => x = c)) (L.findIdx (fun x => x = c))
        linarith
      exact le_trans hstep (nmiFold_entry_le M M L L rest _ _ _)
    · obtain ⟨s1, s2, s3, s4, _⟩ := nmiSelfStep_inv M L t nd h1 h2 h3 h4
      exact nmiSelfFold_pos M L rest (nmiStep M M L L t nd)
        s1 s2 s3 s4 u hu c hMc hcL

end Perf

namespace Perf

theorem nmiTable_self_inv (x : List (String × ℤ)) (nodes : List String) :
    (nmiTable x x nodes).length = (nmiLabels x).length ∧
    (∀ r ∈ nmiTable x x nodes, r.length = (nmiLabels x).length) ∧
    (∀ i j, 0 ≤ nmiEntry (nmiTable x x nodes) i j) ∧
    (∀ i j, i ≠ j → nmiEntry (nmiTable x x nodes) i j = 0) ∧
    (∑ i ∈ Finset.range (nmiLabels x).length,
        nmiEntry (nmiTable x x nodes) i i) ≤ (nodes.length : ℚ) := by
  unfold nmiTable
  have h := nmiSelfFold_inv (nmiMap x) (nmiLabels x) nodes
    (List.replicate (nmiLabels x).length
      (List.replicate (nmiLabels x).length 0))
    (by simp)
    (fun r hr => by rw [List.eq_of_mem_replicate hr]; simp)
    (fun i j => by rw [nmiEntry_replicate])
    (fun i j _ => nmiEntry_replicate _ _ i j)
  obtain ⟨h1, h2, h3, h4, h5⟩ := h
  refine ⟨h1, h2, h3, h4, ?_⟩
  have hzero : (∑ i ∈ Finset.range (nmiLabels x).length,
      nmiEntry (List.replicate (nmiLabels x).length
        (List.replicate (nmiLabels x).length (0 : ℚ))) i i) = 0 := by
    rw [Finset.sum_congr rfl (fun i _ => nmiEntry_replicate _ _ i i)]
    exact Finset.sum_const_zero
  rw [hzero, zero_add] at h5
  exact h5

theorem nmiTable_self_pos (x : List (String × ℤ)) (nodes : List String)
    (u : String) (c : ℤ) (hu : u ∈ nodes)
    (hc : (nmiMap x).get u = some c) (hcL : c ∈ nmiLabels x) :
    1 ≤ nmiEntry (nmiTable x x nodes)
      ((nmiLabels x).findIdx (fun z => z = c))
      ((nmiLabels x).findIdx (fun z => z = c)) := by
  unfold nmiTable
  exact nmiSelfFold_pos (nmiMap x) (nmiLabels x) nodes
    (List.replicate (nmiLabels x).length
      (List.replicate (nmiLabels x).length 0))
    (by simp)
    (fun r hr => by rw [List.eq_of_mem_replicate hr]; simp)
    (fun i j => by rw [nmiEntry_replicate])
    (fun i j _ => nmiEntry_replicate _ _ i j)
    u hu c hc hcL

theorem nmiTable_self_rowSum (x : List (String × ℤ)) (nodes : List String)
    (i : ℕ) (hi : i < (nmiLabels x).length) :
    nmiRowSum (nmiTable x x nodes) i = nmiEntry (nmiTable x x nodes) i i := by
  obtain ⟨hlen, hrow, _, hod, _⟩ := nmiTable_self_inv x nodes
  rw [nmiRowSum_eq]
  have hrl : ((nmiTable x x nodes).getD i []).length =
      (nmiLabels x).length := by
    apply hrow
    rw [List.getD_eq_getElem _ [] (hlen ▸ hi)]
    exact List.getElem_mem _
  rw [hrl]
  exact Finset.sum_eq_single i (fun j _ hj => hod i j (Ne.symm hj))
    (fun hni => absurd (Finset.mem_range.mpr hi) hni)

theorem nmiTable_self_colSum (x : List (String × ℤ)) (nodes : List String)
    (j : ℕ) (hj : j < (nmiLabels x).length) :
    nmiColSum (nmiTable x x nodes) j = nmiEntry (nmiTable x x nodes) j j := by
  obtain ⟨hlen, _, _, hod, _⟩ := nmiTable_self_inv x nodes
  rw [nmiColSum_eq, hlen]
  exact Finset.sum_eq_single j (fun i _ hi => hod i j hi)
    (fun hnj => absurd (Finset.mem_range.mpr hj) hnj)

theorem nmiTable_self_entry_bound (x : List (String × ℤ))
    (nodes : List String) (i j : ℕ) (hi : i < (nmiLabels x).length)
    (hj : j < (nmiLabels x).length) (hij : i ≠ j)
    (hj1 : 1 ≤ nmiEntry (nmiTable x x nodes) j j) :
    nmiEntry (nmiTable x x nodes) i i ≤ (nodes.length : ℚ) - 1 := by
  obtain ⟨_, _, hnn, _, hmass⟩ := nmiTable_self_inv x nodes
  have hsub : ({i, j} : Finset ℕ) ⊆ Finset.range (nmiLabels x).length := by
    intro z hz
    rcases Finset.mem_insert.mp hz with rfl | hz
    · exact Finset.mem_range.mpr hi
    · rw [Finset.mem_singleton.mp hz]
      exact Finset.mem_range.mpr hj
  have hps : (∑ z ∈ ({i, j} : Finset ℕ),
      nmiEntry (nmiTable x x nodes) z z) =
      nmiEntry (nmiTable x x nodes) i i +
        nmiEntry (nmiTable x x nodes) j j :=
    Finset.sum_pair hij
  have hpair : nmiEntry (nmiTable x x nodes) i i +
      nmiEntry (nmiTable x x nodes) j j ≤
      ∑ z ∈ Finset.range (nmiLabels x).length,
        nmiEntry (nmiTable x x nodes) z z := by
    rw [← hps]
    exact Finset.sum_le_sum_of_subset_of_nonneg hsub (fun z _ _ => hnn z z)
  linarith

end Perf

namespace Perf

theorem nmiMI_self (log2 : ℚ → ℚ) (x : List (String × ℤ))
    (nodes : List String) :
    nmiMI log2 x x nodes =
      ∑ i ∈ Finset.range (nmiLabels x).length,
        (if 0 < nmiEntry (nmiTable x x nodes) i i then
          (nmiEntry (nmiTable x x nodes) i i / (nodes.length : ℚ)) *
            log2 ((nmiEntry (nmiTable x x nodes) i i / (nodes.length : ℚ)) /
              ((nmiEntry (nmiTable x x nodes) i i / (nodes.length : ℚ)) *
               (nmiEntry (nmiTable x x nodes) i i / (nodes.length : ℚ))) +
              nmiEps)
        else 0) := by
  obtain ⟨_, _, _, hod, _⟩ := nmiTable_self_inv x nodes
  unfold nmiMI
  rw [foldlq_double (fun i j => 0 < nmiEntry (nmiTable x x nodes) i j)
    (fun i j => (nmiEntry (nmiTable x x nodes) i j / (nodes.length : ℚ)) *
      log2 ((nmiEntry (nmiTable x x nodes) i j / (nodes.length : ℚ)) /
        ((nmiRowSum (nmiTable x x nodes) i / (nodes.length : ℚ)) *
         (nmiColSum (nmiTable x x nodes) j / (nodes.length : ℚ))) + nmiEps))
    (List.range (nmiLabels x).length) (List.range (nmiLabels x).length)]
  simp only [list_range_map_sum]
  apply Finset.sum_congr rfl
  intro i hi
  have hi' := Finset.mem_range.mp hi
  rw [Finset.sum_eq_single i
    (fun j _ hj => by
      rw [hod i j (Ne.symm hj)]
      exact if_neg (lt_irrefl 0))
    (fun hni => absurd hi hni),
    nmiTable_self_rowSum x nodes i hi', nmiTable_self_colSum x nodes i hi']

theorem nmiH1_self_sum (log2 : ℚ → ℚ) (x : List (String × ℤ))
    (nodes : List String) :
    nmiH1 log2 x x nodes =
      ∑ i ∈ Finset.range (nmiLabels x).length,
        (if 0 < nmiEntry (nmiTable x x nodes) i i / (nodes.length : ℚ) then
          -((nmiEntry (nmiTable x x nodes) i i / (nodes.length : ℚ)) *
            log2 (nmiEntry (nmiTable x x nodes) i i / (nodes.length : ℚ) +
              nmiEps))
        else 0) := by
  unfold nmiH1
  rw [foldlq_subif_eq
    (fun i => 0 < nmiRowSum (nmiTable x x nodes) i / (nodes.length : ℚ))
    (fun i => (nmiRowSum (nmiTable x x nodes) i / (nodes.length : ℚ)) *
      log2 (nmiRowSum (nmiTable x x nodes) i / (nodes.length : ℚ) + nmiEps))
    (List.range (nmiLabels x).length) 0, list_range_map_sum, zero_sub,
    ← Finset.sum_neg_distrib]
  apply Finset.sum_congr rfl
  intro i hi
  rw [nmiTable_self_rowSum x nodes i (Finset.mem_range.mp hi),
    apply_ite (fun z : ℚ => -z), neg_zero]

theorem nmiH2_self_sum (log2 : ℚ → ℚ) (x : List (String × ℤ))
    (nodes : List String) :
    nmiH2 log2 x x nodes =
      ∑ i ∈ Finset.range (nmiLabels x).length,
        (if 0 < nmiEntry (nmiTable x x nodes) i i / (nodes.length : ℚ) then
          -((nmiEntry (nmiTable x x nodes) i i / (nodes.length : ℚ)) *
            log2 (nmiEntry (nmiTable x x nodes) i i / (nodes.length : ℚ) +
              nmiEps))
        else 0) := by
  unfold nmiH2
  rw [foldlq_subif_eq
    (fun j => 0 < nmiColSum (nmiTable x x nodes) j / (nodes.length : ℚ))
    (fun j => (nmiColSum (nmiTable x x nodes) j / (nodes.length : ℚ)) *
      log2 (nmiColSum (nmiTable x x nodes) j / (nodes.length : ℚ) + nmiEps))
    (List.range (nmiLabels x).length) 0, list_range_map_sum, zero_sub,
    ← Finset.sum_neg_distrib]
  apply Finset.sum_congr rfl
  intro j hj
  rw [nmiTable_self_colSum x nodes j (Finset.mem_range.mp hj),
    apply_ite (fun z : ℚ => -z), neg_zero]

end Perf

namespace Perf

theorem nmi_self_nontrivial_one (log2 : ℚ → ℚ) (x : List (String × ℤ))
    (nodes : List String)
    (hneg : ∀ q : ℚ, 0 < q → q + nmiEps < 1 → log2 (q + nmiEps) < 0)
    (hge : ∀ q : ℚ, 0 < q → q ≤ 1 →
      -log2 (q + nmiEps) ≤ log2 (1 / q + nmiEps))
    (hn : (nodes.length : ℚ) * nmiEps < 1)
    (u v : String) (cu cv : ℤ) (hu : u ∈ nodes) (hv : v ∈ nodes)
    (hcu : (nmiMap x).get u = some cu) (hcv : (nmiMap x).get v = some cv)
    (hne : cu ≠ cv) :
    calculateNMI log2 x x nodes = 1 := by
  obtain ⟨hlen, hrow, hnn, hod, hmass⟩ := nmiTable_self_inv x nodes
  have hn0 : (0 : ℚ) < (nodes.length : ℚ) := by
    exact_mod_cast List.length_pos.mpr (List.ne_nil_of_mem hu)
  have hcuL : cu ∈ nmiLabels x := mem_nmiLabels_of_get x u cu hcu
  have hcvL : cv ∈ nmiLabels x := mem_nmiLabels_of_get x v cv hcv
  have hku : (nmiLabels x).findIdx (fun z => z = cu) < (nmiLabels x).length :=
    List.findIdx_lt_length_of_exists ⟨cu, hcuL, by simp⟩
  have hkv : (nmiLabels x).findIdx (fun z => z = cv) < (nmiLabels x).length :=
    List.findIdx_lt_length_of_exists ⟨cv, hcvL, by simp⟩
  have hgu : (nmiLabels x).get
      ⟨(nmiLabels x).findIdx (fun z => z = cu), hku⟩ = cu := by
    simpa using @List.findIdx_get ℤ (fun z : ℤ => decide (z = cu))
      (nmiLabels x) hku
  have hgv : (nmiLabels x).get
      ⟨(nmiLabels x).findIdx (fun z => z = cv), hkv⟩ = cv := by
    simpa using @List.findIdx_get ℤ (fun z : ℤ => decide (z = cv))
      (nmiLabels x) hkv
  have hkuv : (nmiLabels x).findIdx (fun z => z = cu) ≠
      (nmiLabels x).findIdx (fun z => z = cv) := by
    intro he
    apply hne
    rw [← hgu, ← hgv]
    exact congrArg (nmiLabels x).get (Fin.mk_eq_mk.mpr he)
  have hposu : 1 ≤ nmiEntry (nmiTable x x nodes)
      ((nmiLabels x).findIdx (fun z => z = cu))
      ((nmiLabels x).findIdx (fun z => z = cu)) :=
    nmiTable_self_pos x nodes u cu hu hcu hcuL
  have hposv : 1 ≤ nmiEntry (nmiTable x x nodes)
      ((nmiLabels x).findIdx (fun z => z = cv))
      ((nmiLabels x).findIdx (fun z => z = cv)) :=
    nmiTable_self_pos x nodes v cv hv hcv hcvL
  have hbound : ∀ i, i < (nmiLabels x).length →
      0 < nmiEntry (nmiTable x x nodes) i i →
      nmiEntry (nmiTable x x nodes) i i / (nodes.length : ℚ) + nmiEps < 1 ∧
      nmiEntry (nmiTable x x nodes) i i / (nodes.length : ℚ) ≤ 1 := by
    intro i hi hpos
    have hle : nmiEntry (nmiTable x x nodes) i i ≤ (nodes.length : ℚ) - 1 := by
      by_cases hik : i = (nmiLabels x).findIdx (fun z => z = cu)
      · exact nmiTable_self_entry_bound x nodes i
          ((nmiLabels x).findIdx (fun z => z = cv)) hi hkv
          (by rw [hik]; exact hkuv) hposv
      · exact nmiTable_self_entry_bound x nodes i
          ((nmiLabels x).findIdx (fun z => z = cu)) hi hku hik hposu
    constructor
    · have h1 : nmiEntry (nmiTable x x nodes) i i / (nodes.length : ℚ) <
          1 - nmiEps := by
        rw [div_lt_iff hn0]
        have h2 : (1 - nmiEps) * (nodes.length : ℚ) =
            (nodes.length : ℚ) - (nodes.length : ℚ) * nmiEps := by ring
        rw [h2]
        linarith
      linarith
    · rw [div_le_one hn0]
      linarith
  have hMI := nmiMI_self log2 x nodes
  have hH1 := nmiH1_self_sum log2 x nodes
  have hH2 := nmiH2_self_sum log2 x nodes
  have hH1pos : 0 < nmiH1 log2 x x nodes := by
    rw [hH1]
    apply Finset.sum_pos'
    · intro i hi
      by_cases hp : 0 < nmiEntry (nmiTable x x nodes) i i / (nodes.length : ℚ)
      · rw [if_pos hp]
        have hpe : 0 < nmiEntry (nmiTable x x nodes) i i := by
          have h3 : nmiEntry (nmiTable x x nodes) i i =
              nmiEntry (nmiTable x x nodes) i i / (nodes.length : ℚ) *
                (nodes.length : ℚ) :=
            (div_mul_cancel₀ _ (ne_of_gt hn0)).symm
          rw [h3]
          exact mul_pos hp hn0
        obtain ⟨hlt1, _⟩ := hbound i (Finset.mem_range.mp hi) hpe
        exact le_of_lt (neg_pos.mpr (mul_neg_of_pos_of_neg hp
          (hneg _ hp hlt1)))
      · rw [if_neg hp]
    · refine ⟨(nmiLabels x).findIdx (fun z => z = cu),
        Finset.mem_range.mpr hku, ?_⟩
      have hpe : 0 < nmiEntry (nmiTable x x nodes)
          ((nmiLabels x).findIdx (fun z => z = cu))
          ((nmiLabels x).findIdx (fun z => z = cu)) :=
        lt_of_lt_of_le one_pos hposu
      have hp : 0 < nmiEntry (nmiTable x x nodes)
          ((nmiLabels x).findIdx (fun z => z = cu))
          ((nmiLabels x).findIdx (fun z => z = cu)) / (nodes.length : ℚ) :=
        div_pos hpe hn0
      rw [if_pos hp]
      obtain ⟨hlt1, _⟩ := hbound _ hku hpe
      exact neg_pos.mpr (mul_neg_of_pos_of_neg hp (hneg _ hp hlt1))
  have hMIge : nmiH1 log2 x x nodes ≤ nmiMI log2 x x nodes := by
    rw [hH1, hMI]
    apply Finset.sum_le_sum
    intro i hi
    by_cases hpe : 0 < nmiEntry (nmiTable x x nodes) i i
    · have hp : 0 < nmiEntry (nmiTable x x nodes) i i / (nodes.length : ℚ) :=
        div_pos hpe hn0
      rw [if_pos hp, if_pos hpe]
      obtain ⟨hlt1, hle1⟩ := hbound i (Finset.mem_range.mp hi) hpe
      have harg : (nmiEntry (nmiTable x x nodes) i i / (nodes.length : ℚ)) /
          ((nmiEntry (nmiTable x x nodes) i i / (nodes.length : ℚ)) *
           (nmiEntry (nmiTable x x nodes) i i / (nodes.length : ℚ))) =
          1 / (nmiEntry (nmiTable x x nodes) i i / (nodes.length : ℚ)) := by
        rw [div_mul_eq_div_div, div_self (ne_of_gt hp)]
      rw [harg]
      have hg := hge _ hp hle1
      have h4 : -(nmiEntry (nmiTable x x nodes) i i / (nodes.length : ℚ) *
          log2 (nmiEntry (nmiTable x x nodes) i i / (nodes.length : ℚ) +
            nmiEps)) =
          (nmiEntry (nmiTable x x nodes) i i / (nodes.length : ℚ)) *
            (-log2 (nmiEntry (nmiTable x x nodes) i i / (nodes.length : ℚ) +
              nmiEps)) := by ring
      rw [h4]
      exact mul_le_mul_of_nonneg_left hg (le_of_lt hp)
    · have he0 : nmiEntry (nmiTable x x nodes) i i = 0 :=
        le_antisymm (not_lt.mp hpe) (hnn i i)
      rw [if_neg hpe, if_neg (by rw [he0, zero_div]; exact lt_irrefl 0)]
  have hH21 : nmiH2 log2 x x nodes = nmiH1 log2 x x nodes := by
    rw [hH1, hH2]
  unfold calculateNMI
  rw [if_neg (fun hc => absurd hc.1 (ne_of_gt hH1pos))]
  rw [hH21]
  have hsum2 : nmiH1 log2 x x nodes + nmiH1 log2 x x nodes =
      2 * nmiH1 log2 x x nodes := by ring
  rw [hsum2, mul_div_mul_left _ _ two_ne_zero,
    min_eq_left ((one_le_div hH1pos).mpr hMIge), max_eq_right zero_le_one]

end Perf

namespace Perf

theorem log2Stub_neg : ∀ q : ℚ, 0 < q → q + nmiEps < 1 →
    log2Stub (q + nmiEps) < 0 := by
  intro q _ h2
  unfold log2Stub
  rw [if_pos h2]
  norm_num

theorem log2Stub_ge : ∀ q : ℚ, 0 < q → q ≤ 1 →
    -log2Stub (q + nmiEps) ≤ log2Stub (1 / q + nmiEps) := by
  intro q h1 h2
  unfold log2Stub
  have h3 : (1 : ℚ) ≤ 1 / q := by
    rw [le_div_iff h1]
    linarith
  have heps : (0 : ℚ) < nmiEps := by norm_num [nmiEps]
  have h4 : (1 : ℚ) < 1 / q + nmiEps := by linarith
  rw [if_neg (not_lt.mpr h4.le), if_neg (ne_of_gt h4)]
  split_ifs <;> norm_num

end Perf

/-- C7: `calculateNMI` is symmetric in its two partitions and its value always
lies in [0, 1]; when both computed entropies are zero the both-trivial branch
returns exactly 1; and the self-comparison of a non-trivial partition (one
assigning two of the listed nodes distinct labels, with n·1e-15 < 1) returns
exactly 1, because the raw ratio is at least 1 and the final clamp caps it.
But a single-community partition does not reach the both-trivial branch: the
epsilon sits inside the logarithm, so its entropy is `-log2(1 + 1e-15) ≠ 0`,
and the self-comparison of a one-node single-community partition evaluates to
0, not 1 — refuting the claim's zero-entropy example. Stated for every oracle
`log2` that is negative on `(0, 1)`, satisfies `-log2(p+eps) ≤ log2(1/p+eps)`
on `(0, 1]`, and is nonzero at `1 + 1e-15` — all true of the real
`Math.log2`. -/
theorem C7_nmi_symmetric_range_single (log2 : ℚ → ℚ)
    (a b : List (String × ℤ)) (nodes : List String)
    (hneg : ∀ q : ℚ, 0 < q → q + Perf.nmiEps < 1 →
      log2 (q + Perf.nmiEps) < 0)
    (hge : ∀ q : ℚ, 0 < q → q ≤ 1 →
      -log2 (q + Perf.nmiEps) ≤ log2 (1 / q + Perf.nmiEps))
    (h : log2 (1 + 1 / 10 ^ 15) ≠ 0) :
    Perf.calculateNMI log2 a b nodes = Perf.calculateNMI log2 b a nodes ∧
    (0 ≤ Perf.calculateNMI log2 a b nodes ∧
      Perf.calculateNMI log2 a b nodes ≤ 1) ∧
    (Perf.nmiH1 log2 a b nodes = 0 → Perf.nmiH2 log2 a b nodes = 0 →
      Perf.calculateNMI log2 a b nodes = 1) ∧
    (∀ (x : List (String × ℤ)) (nds : List String) (u v : String)
        (cu cv : ℤ), (nds.length : ℚ) * Perf.nmiEps < 1 →
      u ∈ nds → v ∈ nds →
      (Perf.nmiMap x).get u = some cu → (Perf.nmiMap x).get v = some cv →
      cu ≠ cv → Perf.calculateNMI log2 x x nds = 1) ∧
    Perf.calculateNMI log2 [("a", 0)] [("a", 0)] ["a"] = 0 :=
  ⟨Perf.calculateNMI_symm log2 a b nodes,
   Perf.calculateNMI_range log2 a b nodes,
   fun h1 h2 => Perf.calculateNMI_trivial_branch log2 a b nodes h1 h2,
   fun x nds u v cu cv hn hu hv hcu hcv hne =>
     Perf.nmi_self_nontrivial_one log2 x nds hneg hge hn u v cu cv
       hu hv hcu hcv hne,
   Perf.nmi_single_single log2 h⟩

/-- C7 counterexample: with any logarithm oracle that is nonzero at
`1 + 1e-15` (as the real `Math.log2` is), comparing the single-community
partition of the one-node graph with itself yields NMI 0, not the claimed
1.0: both entropies evaluate to `-log2(1 + 1e-15) ≠ 0`, so the trivial
branch is skipped, the raw ratio is `-1`, and the final clamp returns 0. -/
theorem C7_counterexample_single_community_not_one :
    Perf.calculateNMI Perf.log2Stub [("a", 0)] [("a", 0)] ["a"] = 0 ∧
    (0 : ℚ) ≠ 1 :=
  ⟨Perf.nmi_single_single Perf.log2Stub Perf.log2Stub_eps_ne, by norm_num⟩

/-- C7 witness: the amended theorem instantiated at the sign-faithful
`log2Stub` oracle and a concrete pair of partitions, plus its non-trivial
self-comparison conjunct applied to the two-singleton partition of a
two-node graph. -/
theorem C7_witness :
    (Perf.calculateNMI Perf.log2Stub [("x", 0), ("y", 1)] [("x", 2)]
        ["x", "y"] =
      Perf.calculateNMI Perf.log2Stub [("x", 2)] [("x", 0), ("y", 1)]
        ["x", "y"] ∧
    (0 ≤ Perf.calculateNMI Perf.log2Stub [("x", 0), ("y", 1)] [("x", 2)]
        ["x", "y"] ∧
      Perf.calculateNMI Perf.log2Stub [("x", 0), ("y", 1)] [("x", 2)]
        ["x", "y"] ≤ 1) ∧
    (Perf.nmiH1 Perf.log2Stub [("x", 0), ("y", 1)] [("x", 2)]
        ["x", "y"] = 0 →
      Perf.nmiH2 Perf.log2Stub [("x", 0), ("y", 1)] [("x", 2)]
        ["x", "y"] = 0 →
      Perf.calculateNMI Perf.log2Stub [("x", 0), ("y", 1)] [("x", 2)]
        ["x", "y"] = 1) ∧
    (∀ (x : List (String × ℤ)) (nds : List String) (u v : String)
        (cu cv : ℤ), (nds.length : ℚ) * Perf.nmiEps < 1 →
      u ∈ nds → v ∈ nds →
      (Perf.nmiMap x).get u = some cu → (Perf.nmiMap x).get v = some cv →
      cu ≠ cv → Perf.calculateNMI Perf.log2Stub x x nds = 1) ∧
    Perf.calculateNMI Perf.log2Stub [("a", 0)] [("a", 0)] ["a"] = 0) ∧
    Perf.calculateNMI Perf.log2Stub [("x", 0), ("y", 1)]
      [("x", 0), ("y", 1)] ["x", "y"] = 1 := by
  have hC7 := C7_nmi_symmetric_range_single Perf.log2Stub
    [("x", 0), ("y", 1)] [("x", 2)] ["x", "y"]
    Perf.log2Stub_neg Perf.log2Stub_ge Perf.log2Stub_eps_ne
  refine ⟨hC7, ?_⟩
  apply hC7.2.2.2.1 [("x", 0), ("y", 1)] ["x", "y"] "x" "y" 0 1
  · norm_num [Perf.nmiEps]
  · exact List.mem_cons_self _ _
  · exact List.mem_cons_of_mem _ (List.mem_cons_self _ _)
  · rfl
  · rfl
  · norm_num
